import Mathlib

/-!
DistributedCache: the LRU store (`lru/lru.go`).

A shallow embedding of the Go package `lru` and a verification of its
documented properties.

Representation choices.

* `time.Time` is an instant counted in nanoseconds from the zero instant
  (January 1, year 1, 00:00:00 UTC); `IsZero` is "equal to 0" and `Before`
  is `<` on instants.
* `Value` is the Go interface with the single method `Len() int`; it is a
  type class here, and `Len` may return any integer, as in Go.
* `container/list` is a Lean list of elements, front first.  Every
  `*list.Element` has an address `ptr`, handed out by a counter `nextPtr`
  that stands for the allocator; the Go map `cache` stores those addresses.
* an `int64` is an integer from -2^63 up to 2^63 - 1; the sums and differences
  of `int64` values wrap around as in Go (`int64`).  `Len() int` is a 64-bit `int`.
* the effect of the optional callback `onEvicted` is the trace `calls` of
  its invocations, oldest first; `onEvicted = false` is the nil callback.
* `c.Now()` is an argument of `Get`: the instant the injected clock returns
  at that call.
* the loop of `Add` is run for as many rounds as the list has elements, which
  empties the list; a loop that still wants to evict from an empty list
  never exits, and `Add` then returns `none`.
-/

namespace lru

/-- An instant, in nanoseconds since the zero instant of `time.Time`. -/
structure Time where
  nsec : Int
  deriving DecidableEq, Repr

/-- The zero value of `time.Time` (`var expir time.Time`). -/
def Time.zero : Time := ⟨0⟩

/-- Go `t.IsZero()`. -/
def Time.IsZero (t : Time) : Bool := t.nsec == 0

/-- Go `t.Before(u)`. -/
def Time.Before (t u : Time) : Bool := decide (t.nsec < u.nsec)

/-- Go `type Value interface { Len() int }`. -/
class Value (V : Type) where
  Len : V → Int

/-- The type `String` of `lru_test.go`: `func (d String) Len() int { return len(d) }`. -/
instance : Value String where
  Len d := (d.utf8ByteSize : Int)

/-- Go `type entry struct { key string; value Value; expire time.Time }`. -/
structure entry (V : Type) where
  key : String
  value : V
  expire : Time
  deriving DecidableEq, Repr

/-- A `*list.Element`: its address and the entry it points to. -/
structure Element (V : Type) where
  ptr : Nat
  Value : entry V
  deriving DecidableEq, Repr

/-- Go `type Cache struct`. -/
structure Cache (V : Type) where
  maxBytes : Int
  nBytes : Int
  ll : List (Element V)
  cache : List (String × Nat)
  onEvicted : Bool
  calls : List (String × V)
  nextPtr : Nat
  deriving DecidableEq, Repr

/-- Go `int64` arithmetic: what an `int64` holds after a sum or a difference whose result in
the integers is `x`, and what the conversion `int64(x)` gives: `x` modulo 2^64, taken in the
range from -2^63 up to 2^63 - 1. -/
def int64 (x : Int) : Int :=
  (x + 9223372036854775808) % 18446744073709551616 - 9223372036854775808

/-- The size of an entry as an integer: `len(kv.key) + kv.value.Len()`. -/
def entry.size {V : Type} [Value V] (kv : entry V) : Int :=
  (kv.key.utf8ByteSize : Int) + Value.Len kv.value

/-! ## Go maps -/

/-- Go `m[key]` with the comma-ok form. -/
def mapGet (m : List (String × Nat)) (key : String) : Option Nat :=
  match m with
  | [] => none
  | (k, p) :: rest => if k = key then some p else mapGet rest key

/-- Go `delete(m, key)`. -/
def mapDelete (m : List (String × Nat)) (key : String) : List (String × Nat) :=
  m.filter (fun kp => decide (kp.1 ≠ key))

/-- Go `m[key] = p`. -/
def mapSet (m : List (String × Nat)) (key : String) (p : Nat) : List (String × Nat) :=
  (key, p) :: mapDelete m key

/-! ## `container/list` -/

/-- The element of the list that lives at address `p`. -/
def deref {V : Type} (l : List (Element V)) (p : Nat) : Option (Element V) :=
  l.find? (fun e => e.ptr == p)

/-- Go `l.Remove(e)`: unlink the element at address `p`; no effect when it is not in the
list.  Addresses are unique, so at most one element goes. -/
def Remove {V : Type} (l : List (Element V)) (p : Nat) : List (Element V) :=
  l.filter (fun e => e.ptr != p)

/-- Go `l.MoveToFront(e)`: no effect when the element is not in the list. -/
def MoveToFront {V : Type} (l : List (Element V)) (p : Nat) : List (Element V) :=
  match deref l p with
  | some e => e :: Remove l p
  | none => l

/-- Go `l.PushFront(v)`, the new element being allocated at address `p`. -/
def PushFront {V : Type} (l : List (Element V)) (p : Nat) (kv : entry V) : List (Element V) :=
  ⟨p, kv⟩ :: l

/-- Go `l.Back()`. -/
def Back {V : Type} (l : List (Element V)) : Option (Element V) :=
  l.getLast?

/-- The assignments `kv.value = val; kv.expire = expir` through the pointer held by the
element at address `p`. -/
def assign {V : Type} (l : List (Element V)) (p : Nat) (val : V) (expir : Time) :
    List (Element V) :=
  l.map (fun e => if e.ptr = p then { e with Value := { e.Value with value := val, expire := expir } } else e)

/-! ## The store -/

/-- Go `lru.New(maxBytes, onEvicted)`; `onEvicted = false` is `nil`. -/
def New (V : Type) (maxBytes : Int) (onEvicted : Bool) : Cache V :=
  { maxBytes := maxBytes, nBytes := 0, ll := [], cache := [], onEvicted := onEvicted,
    calls := [], nextPtr := 0 }

/-- The guarded call `if c.onEvicted != nil { c.onEvicted(kv.key, kv.value) }`. -/
def fire {V : Type} (c : Cache V) (kv : entry V) : List (String × V) :=
  if c.onEvicted then c.calls ++ [(kv.key, kv.value)] else c.calls

/-- Go `c.removeElement(e)`. -/
def removeElement {V : Type} (c : Cache V) (e : Element V) : Cache V :=
  { c with ll := Remove c.ll e.ptr, cache := mapDelete c.cache e.Value.key,
           calls := fire c e.Value }

/-- Go `c.Get(key)`, with `now` the instant returned by `c.Now()`.  The result `none` is
`(nil, false)` and `some v` is `(v, true)`.  The map only ever holds addresses of listed
elements (`WF_run`), so the branch in which `deref` finds nothing is never taken. -/
def Get {V : Type} (c : Cache V) (key : String) (now : Time) : Option V × Cache V :=
  match mapGet c.cache key with
  | some p =>
    match deref c.ll p with
    | some ele =>
      let c1 := { c with ll := MoveToFront c.ll p }
      let kv := ele.Value
      if !kv.expire.IsZero && kv.expire.Before now then
        (none, removeElement c1 ele)
      else
        (some kv.value, c1)
    | none => (none, c)
  | none => (none, c)

/-- Go `c.RemoveOldest()`. -/
def RemoveOldest {V : Type} [Value V] (c : Cache V) : Cache V :=
  match Back c.ll with
  | some ele =>
    let kv := ele.Value
    { c with ll := Remove c.ll ele.ptr, cache := mapDelete c.cache kv.key,
             nBytes := int64 (c.nBytes -
               int64 (int64 (kv.key.utf8ByteSize : Int) + int64 (Value.Len kv.value))),
             calls := fire c kv }
  | none => c

/-- The `if`/`else` statement that opens `Add`: update and promote the entry of a key already
in the map, or push a new entry to the front.  As in `Get`, the branch in which `deref` finds
nothing is never taken. -/
def upsert {V : Type} [Value V] (c : Cache V) (key : String) (val : V) (expir : Time) :
    Cache V :=
  match mapGet c.cache key with
  | some p =>
    match deref c.ll p with
    | some ele =>
      let kv := ele.Value
      { c with ll := assign (MoveToFront c.ll p) p val expir,
               nBytes := int64 (c.nBytes +
                 int64 (int64 (Value.Len val) - int64 (Value.Len kv.value))) }
    | none => c
  | none =>
    { c with ll := PushFront c.ll c.nextPtr ⟨key, val, expir⟩,
             cache := mapSet c.cache key c.nextPtr,
             nBytes := int64 (c.nBytes +
               int64 (int64 (key.utf8ByteSize : Int) + int64 (Value.Len val))),
             nextPtr := c.nextPtr + 1 }

/-- The loop `for c.maxBytes != 0 && c.maxBytes < c.nBytes { c.RemoveOldest() }`, for at most
`n` rounds; `none` when the condition still holds after them. -/
def evictLoop {V : Type} [Value V] : Nat → Cache V → Option (Cache V)
  | 0, c => if c.maxBytes ≠ 0 ∧ c.maxBytes < c.nBytes then none else some c
  | n + 1, c =>
    if c.maxBytes ≠ 0 ∧ c.maxBytes < c.nBytes then evictLoop n (RemoveOldest c) else some c

/-- Go `c.Add(key, val, expir)`; `none` when the eviction loop never exits.  One round per
listed element empties the list, and from an empty list no further round changes the state
(`evictLoop_none`). -/
def Add {V : Type} [Value V] (c : Cache V) (key : String) (val : V) (expir : Time) :
    Option (Cache V) :=
  let c1 := upsert c key val expir
  evictLoop c1.ll.length c1

/-- Go `c.Len()`. -/
def Len {V : Type} (c : Cache V) : Nat :=
  c.ll.length

/-! ## The representation invariant -/

variable {V : Type}

/-- The (key, address) pairs of the elements of the order list. -/
def index (l : List (Element V)) : List (String × Nat) :=
  l.map (fun e => (e.Value.key, e.ptr))

/-- The map and the order list describe the same entries: the map holds exactly one
(key, address) pair per element of the list, no key and no address occurs twice, and every
address in use was handed out by the allocator. -/
structure WF (c : Cache V) : Prop where
  perm : c.cache.Perm (index c.ll)
  nodupKey : (c.cache.map Prod.fst).Nodup
  nodupPtr : (c.ll.map Element.ptr).Nodup
  fresh : ∀ e ∈ c.ll, e.ptr < c.nextPtr

/-- The expiry test of `Get`: `!kv.expire.IsZero() && kv.expire.Before(now)`. -/
def expired (kv : entry V) (now : Time) : Bool :=
  !kv.expire.IsZero && kv.expire.Before now

/-- The sum of `len(key) + value.Len()` over the elements of an order list. -/
def total [Value V] (l : List (Element V)) : Int :=
  (l.map (fun e => e.Value.size)).sum

/-- The (key, value) pair the eviction callback receives for an element. -/
def evictedPair (e : Element V) : String × V :=
  (e.Value.key, e.Value.value)

/-- The state of a bounded store between calls: well formed, within its limit, and every
listed entry has a non-negative size. -/
structure Bounded [Value V] (M : Int) (c : Cache V) : Prop where
  wf : WF c
  max : c.maxBytes = M
  le : c.nBytes ≤ M
  pos : ∀ e ∈ c.ll, 0 ≤ e.Value.size

/-- The state of a bounded store that no `Get` has touched: well formed, with `nBytes` the
exact sum of the listed sizes. -/
structure Exact [Value V] (M : Int) (cb : Bool) (c : Cache V) : Prop where
  wf : WF c
  max : c.maxBytes = M
  cb : c.onEvicted = cb
  exact : c.nBytes = total c.ll

/-! ## Sequences of calls -/

/-- One call on a store: `Get(key)` with the instant the clock returns, `Add(key, val, expir)`
or `RemoveOldest()`. -/
inductive Op (V : Type) where
  | get (key : String) (now : Time)
  | add (key : String) (val : V) (expir : Time)
  | removeOldest

/-- The store after one call; `none` when the call does not return. -/
def step [Value V] (c : Cache V) : Op V → Option (Cache V)
  | Op.get key now => some (Get c key now).2
  | Op.add key val expir => Add c key val expir
  | Op.removeOldest => some (RemoveOldest c)

/-- The store after a sequence of calls, first call first. -/
def run [Value V] (c : Cache V) : List (Op V) → Option (Cache V)
  | [] => some c
  | op :: ops => (step c op).bind (fun c1 => run c1 ops)

/-- The call is an `Add`. -/
def Op.isAdd : Op V → Bool
  | Op.add _ _ _ => true
  | _ => false

/-- The value passed to an `Add` has a non-negative `Len()`. -/
def Op.nonneg [Value V] : Op V → Bool
  | Op.add _ val _ => decide (0 ≤ Value.Len val)
  | _ => true

/-- The call is a `Get`, or an `Add` whose expiry is the zero instant. -/
def Op.plain : Op V → Bool
  | Op.get _ _ => true
  | Op.add _ _ expir => expir.IsZero
  | Op.removeOldest => false

/-- The value a call stores under `k`: `Add(k, v, _)` stores `v`, any other call nothing. -/
def Op.stores (k : String) : Op V → Option V
  | Op.add key val _ => if key = k then some val else none
  | _ => none

/-- The finite map of the specification, read at `k` after a history of calls: the value of
the most recent `Add` for `k`, and absent when `k` was never added. -/
def lastAdded : List (Op V) → String → Option V
  | [], _ => none
  | op :: later, k =>
    match lastAdded later k with
    | some v => some v
    | none => op.stores k

/-- The state of an unbounded store whose entries never expire. -/
structure Plain (c : Cache V) : Prop where
  wf : WF c
  max : c.maxBytes = 0
  zero : ∀ e ∈ c.ll, e.Value.expire = Time.zero

/-- The store `c` holds exactly the bindings of the finite map `f`. -/
def Agrees (c : Cache V) (f : String → Option V) : Prop :=
  ∀ k, (f k = none → mapGet c.cache k = none) ∧
    ∀ v, f k = some v → ∃ e ∈ c.ll, e.Value.key = k ∧ e.Value.value = v


/-! ## Assignments to `nBytes` that do not wrap around -/

/-- The integer `x` is a value of `int64`. -/
def InInt64 (x : Int) : Prop :=
  -9223372036854775808 ≤ x ∧ x ≤ 9223372036854775807

instance (x : Int) : Decidable (InInt64 x) := by
  unfold InInt64
  infer_instance

/-- The assignment `c.nBytes -= ...` of `RemoveOldest` does not wrap around: the difference
of the integers is a value of `int64`. -/
def removeFits [Value V] (c : Cache V) : Bool :=
  match Back c.ll with
  | some ele => decide (InInt64 (c.nBytes - ele.Value.size))
  | none => true

/-- No assignment to `nBytes` wraps around in the rounds of the loop of `Add`. -/
def evictFits [Value V] : Nat → Cache V → Bool
  | 0, _ => true
  | n + 1, c =>
    if c.maxBytes ≠ 0 ∧ c.maxBytes < c.nBytes then removeFits c && evictFits n (RemoveOldest c)
    else true

/-- The assignment `c.nBytes += ...` of `Add` does not wrap around: the sum of the integers
is a value of `int64`. -/
def upsertFits [Value V] (c : Cache V) (key : String) (val : V) : Bool :=
  match mapGet c.cache key with
  | some p =>
    match deref c.ll p with
    | some ele => decide (InInt64 (c.nBytes + (Value.Len val - Value.Len ele.Value.value)))
    | none => true
  | none => decide (InInt64 (c.nBytes + ((key.utf8ByteSize : Int) + Value.Len val)))

/-- No assignment to `nBytes` wraps around during `c.Add(key, val, expir)`. -/
def addFits [Value V] (c : Cache V) (key : String) (val : V) (expir : Time) : Bool :=
  upsertFits c key val &&
    evictFits (upsert c key val expir).ll.length (upsert c key val expir)

/-- No assignment to `nBytes` wraps around during the call. -/
def Op.fits [Value V] (c : Cache V) : Op V → Bool
  | Op.get _ _ => true
  | Op.add key val expir => addFits c key val expir
  | Op.removeOldest => removeFits c

/-- No assignment to `nBytes` wraps around during a sequence of calls. -/
def runFits [Value V] (c : Cache V) : List (Op V) → Bool
  | [] => true
  | op :: ops =>
    op.fits c &&
      match step c op with
      | some c1 => runFits c1 ops
      | none => true

/-- A value that reports a size of its own choosing: Go `type Sized int` with
`func (s Sized) Len() int { return int(s) }`. -/
structure Sized where
  len : Int
  deriving DecidableEq, Repr

instance : Value Sized where
  Len s := s.len
end lru

/-!
The consistent-hash ring (`consistenthash/consistenthash.go`).

* `Hash` is `func(data []byte) uint32`; the bytes are those of a Go string, and the
  result is read as a number modulo 2^32.  `int(...)` of it is that number (64-bit `int`).
* `hashMap` is a Go map from virtual points to node names, kept as an association list.
* `sort.Ints` is any sort of integers into ascending order (the result is unique);
  `sort.Search` is the binary search of the Go library.
* `Get` returns `none` where Go would stop with an index out of range.
-/

namespace consistenthash

/-- Go `type Hash func(data []byte) uint32`: the number the function returns for the bytes of
a string. -/
abbrev Hash := String → Nat

/-- One round of CRC-32 on the low bit: shift right, and fold in the reversed IEEE polynomial
`0xedb88320` when the bit shifted out was set. -/
def crcShift (crc : Nat) : Nat :=
  if crc % 2 = 1 then (crc / 2) ^^^ 3988292384 else crc / 2

/-- CRC-32 update by one byte. -/
def crcByte (crc : Nat) (b : UInt8) : Nat :=
  crcShift (crcShift (crcShift (crcShift (crcShift (crcShift (crcShift (crcShift
    (crc ^^^ b.toNat))))))))

/-- Go `[]byte(s)`: the bytes of a string, which Go keeps in UTF-8. -/
def bytesOf (s : String) : List UInt8 :=
  s.toList.flatMap String.utf8EncodeChar

/-- Go `crc32.ChecksumIEEE`, the hash a ring uses when none is given. -/
def ChecksumIEEE : Hash := fun data =>
  ((bytesOf data).foldl crcByte 4294967295) ^^^ 4294967295

/-- Go `type Map struct { hash; replicas; keys; hashMap }`. -/
structure Map where
  hash : Hash
  replicas : Int
  keys : List Int
  hashMap : List (Int × String)

/-- Go `m.hashMap[p]`: the node stored for `p`, and the empty string when there is none. -/
def hashMapGet (hm : List (Int × String)) (p : Int) : String :=
  match hm with
  | [] => ""
  | (q, node) :: rest => if q = p then node else hashMapGet rest p

/-- Go `m.hashMap[p] = node`. -/
def hashMapSet (hm : List (Int × String)) (p : Int) (node : String) : List (Int × String) :=
  (p, node) :: hm.filter (fun qn => decide (qn.1 ≠ p))

/-- Go `consistenthash.New(replicas, fn)`; `fn = none` is the nil function. -/
def New (replicas : Int) (fn : Option Hash) : Map :=
  { hash := fn.getD ChecksumIEEE, replicas := replicas, keys := [], hashMap := [] }

/-- The hash of a string as an `int`: `int(m.hash([]byte(s)))`. -/
def hashInt (m : Map) (s : String) : Int :=
  ((m.hash s % 4294967296 : Nat) : Int)

/-- The virtual point `int(m.hash([]byte(strconv.Itoa(i) + key)))`. -/
def virtualPoint (m : Map) (i : Nat) (key : String) : Int :=
  hashInt m (toString i ++ key)

/-- The body of the inner loop of `Add`: append the point and record its node. -/
def addPoint (key : String) (m : Map) (i : Nat) : Map :=
  { m with keys := m.keys ++ [virtualPoint m i key],
           hashMap := hashMapSet m.hashMap (virtualPoint m i key) key }

/-- The inner loop `for i := 0; i < m.replicas; i++` of `Add` for one node. -/
def addNode (m : Map) (key : String) : Map :=
  (List.range m.replicas.toNat).foldl (addPoint key) m

/-- Go `m.Add(keys...)`. -/
def Add (m : Map) (keys : List String) : Map :=
  let m1 := keys.foldl addNode m
  { m1 with keys := m1.keys.insertionSort (fun a b => a ≤ b) }

/-- The loop of Go `sort.Search`, with `i` and `j` its two variables; it runs at most
`fuel` rounds, and `j - i` rounds are enough. -/
def searchLoop (f : Nat → Bool) : Nat → Nat → Nat → Nat
  | 0, i, _ => i
  | fuel + 1, i, j =>
    if i < j then
      let h := (i + j) / 2
      if !f h then searchLoop f fuel (h + 1) j else searchLoop f fuel i h
    else i

/-- Go `sort.Search(n, f)`. -/
def Search (n : Nat) (f : Nat → Bool) : Nat :=
  searchLoop f n 0 n

/-- The index `idx` that `Get` computes for a hash value. -/
def searchIndex (m : Map) (hash : Int) : Nat :=
  Search m.keys.length (fun i => decide (m.keys.getD i 0 ≥ hash))

/-- Go `m.Get(key)`; `none` stands for an index out of range. -/
def Get (m : Map) (key : String) : Option String :=
  if m.keys.length = 0 then some ""
  else
    let hash := hashInt m key
    let idx := searchIndex m hash
    (m.keys.get? (idx % m.keys.length)).map (fun p => hashMapGet m.hashMap p)

/-- Go `strconv.Atoi` with the error dropped (`i, _ := strconv.Atoi(s)`): an optional sign and
decimal digits give their value, cut to the range of `int`; anything else gives 0. -/
def Atoi (s : String) : Int :=
  let digits (ds : List Char) : Option Nat :=
    if ds ≠ [] ∧ ds.all Char.isDigit then
      some (ds.foldl (fun n c => 10 * n + (c.toNat - 48)) 0)
    else none
  match s.toList with
  | '-' :: ds => match digits ds with
    | some n => if n ≤ 9223372036854775808 then -(n : Int) else -9223372036854775808
    | none => 0
  | '+' :: ds => match digits ds with
    | some n => if n ≤ 9223372036854775807 then (n : Int) else 9223372036854775807
    | none => 0
  | ds => match digits ds with
    | some n => if n ≤ 9223372036854775807 then (n : Int) else 9223372036854775807
    | none => 0

/-- The hash of `TestHashing`: `uint32(i)` for `i, _ := strconv.Atoi(string(key))`. -/
def testHash : Hash := fun key => (Atoi key % 4294967296).toNat

/-- The ring of `TestHashing`: `New(3, testHash)` followed by `Add("6", "4", "2")`. -/
def testRing : Map := Add (New 3 (some testHash)) ["6", "4", "2"]

/-- The ring after a sequence of `Add` calls on `New(replicas, fn)`, one list of nodes per
call. -/
def ring (replicas : Int) (fn : Option Hash) (calls : List (List String)) : Map :=
  calls.foldl Add (New replicas fn)

/-- The virtual points of the specification for one node: `hash(decimal(i) ++ node)` for `i`
in `[0, replicas)`. -/
def pointsOf (hash : Hash) (replicas : Int) (node : String) : List Int :=
  (List.range replicas.toNat).map (fun i => ((hash (toString i ++ node) % 4294967296 : Nat) : Int))

/-- The clockwise successor of the specification: `p` is the smallest virtual point that is
at least `h`, or, when no point is at least `h`, the smallest virtual point overall. -/
def IsSuccessor (keys : List Int) (h p : Int) : Prop :=
  (p ∈ keys ∧ h ≤ p ∧ ∀ q ∈ keys, h ≤ q → p ≤ q) ∨
  ((∀ q ∈ keys, q < h) ∧ p ∈ keys ∧ ∀ q ∈ keys, p ≤ q)

instance (keys : List Int) (h p : Int) : Decidable (IsSuccessor keys h p) := by
  unfold IsSuccessor
  infer_instance

end consistenthash

/-!
Single-flight (`singleflight/singleflight.go`).

* A `*call` is the address of a record among the records `new(call)` has allocated so far;
  `g.m` maps keys to such addresses, and `nil` is the map that was never made.
* `sync.WaitGroup` is its counter: `Add(1)` and `Done()` move it, `Wait()` returns once it is 0.
* `interface{}` and `error` are optional values, `none` being `nil`.
* `Do` is given twice: as a function, for a caller that runs alone, and as one step of one
  caller among several, a step being what a caller does between two points where the others can
  run (the statements under `g.mu` form one step).
-/

namespace singleflight

variable {α ε σ : Type}

/-- Go `type call struct { wg sync.WaitGroup; val interface{}; err error }`. -/
structure call (α ε : Type) where
  wg : Nat
  val : Option α
  err : Option ε
  deriving DecidableEq, Repr

/-- Go `type Group struct { mu sync.Mutex; m map[string]*call }`, with the records the
pointers of `m` refer to. -/
structure Group (α ε : Type) where
  m : Option (List (String × Nat))
  calls : List (call α ε)
  deriving DecidableEq, Repr

/-- The zero value `&singleflight.Group{}`. -/
def Group.zero : Group α ε :=
  { m := none, calls := [] }

/-- The record `g.m[key]` points to, if any. -/
def Group.record (g : Group α ε) (key : String) : Option Nat :=
  lru.mapGet (g.m.getD []) key

/-- Go `g.Do(key, fn)` for a caller that runs alone.  `fn` acts on the state `σ` of whatever it
touches and returns `none` when it does not return; `Do` returns `none` when it does not
return, which also happens when it waits on a record nobody will complete. -/
def Do (g : Group α ε) (key : String) (fn : σ → Option ((Option α × Option ε) × σ)) (s : σ) :
    Option ((Option α × Option ε) × Group α ε × σ) :=
  let m := g.m.getD []
  match lru.mapGet m key with
  | some c =>
    match g.calls[c]? with
    | some r => if r.wg = 0 then some ((r.val, r.err), { g with m := some m }, s) else none
    | none => none
  | none =>
    let c := g.calls.length
    let calls1 := g.calls ++ [{ wg := 1, val := none, err := none }]
    let m1 := lru.mapSet m key c
    match fn s with
    | none => none
    | some ((val, err), s1) =>
      let calls2 := calls1.set c { wg := 0, val := val, err := err }
      some ((val, err), { m := some (lru.mapDelete m1 key), calls := calls2 }, s1)

/-! ## Several callers -/

/-- Where a caller of `Do` stands: before `g.mu.Lock()`; in `c.wg.Wait()`; inside `fn()`; after
`c.val, c.err = fn()`; after `c.wg.Done()`; or back from `Do` with the record `c` it used and
the pair it returned. -/
inductive PC (α ε : Type) where
  | start
  | waiting (c : Nat)
  | running (c : Nat)
  | wrote (c : Nat)
  | done (c : Nat)
  | returned (c : Nat) (val : Option α) (err : Option ε)
  deriving DecidableEq, Repr

/-- The steps a caller at this point still has ahead of it, at most. -/
def PC.rank : PC α ε → Nat
  | PC.start => 4
  | PC.waiting _ => 1
  | PC.running _ => 3
  | PC.wrote _ => 2
  | PC.done _ => 1
  | PC.returned _ _ _ => 0

/-- Whether the caller is back from `Do`. -/
def PC.isReturned : PC α ε → Bool
  | PC.returned _ _ _ => true
  | _ => false

/-- The record a caller made and has not deleted yet. -/
def PC.owns : PC α ε → Option Nat
  | PC.running c => some c
  | PC.wrote c => some c
  | PC.done c => some c
  | _ => none

/-- A goroutine in a call `g.Do(key, fn)`. -/
structure Caller (α ε : Type) where
  key : String
  pc : PC α ε
  deriving DecidableEq, Repr

/-- A group, the goroutines calling `Do` on it, and the records for which a run of `fn` was
started, oldest first. -/
structure System (α ε : Type) where
  g : Group α ε
  callers : List (Caller α ε)
  execs : List Nat
  deriving DecidableEq, Repr

/-- The zero group with one caller per key of `keys`, none of which has started. -/
def System.init (keys : List String) : System α ε :=
  { g := Group.zero, callers := keys.map (fun k => { key := k, pc := PC.start }), execs := [] }

/-- One step of caller `t`, where `res c` is what the run of `fn` for record `c` returns;
`none` when the caller cannot move (it waits, has returned, or does not exist).

* `start`: the statements under the first `g.mu.Lock()`.  With a record for the key the caller
  goes to `c.wg.Wait()`; otherwise it makes the record, stores it and enters `fn()`.
* `waiting`: `c.wg.Wait()` returns once the counter is 0, and the caller returns `c.val, c.err`.
* `running`: `c.val, c.err = fn()`.
* `wrote`: `c.wg.Done()`.
* `done`: the statements under the second `g.mu.Lock()` and the return. -/
def step (res : Nat → Option α × Option ε) (s : System α ε) (t : Nat) : Option (System α ε) :=
  match s.callers[t]? with
  | none => none
  | some x =>
    match x.pc with
    | PC.start =>
      match lru.mapGet (s.g.m.getD []) x.key with
      | some c =>
        some { s with g := { s.g with m := some (s.g.m.getD []) },
                      callers := s.callers.set t { x with pc := PC.waiting c } }
      | none =>
        some { g := { m := some (lru.mapSet (s.g.m.getD []) x.key s.g.calls.length),
                      calls := s.g.calls ++ [{ wg := 1, val := none, err := none }] },
               callers := s.callers.set t { x with pc := PC.running s.g.calls.length },
               execs := s.execs ++ [s.g.calls.length] }
    | PC.waiting c =>
      match s.g.calls[c]? with
      | some r =>
        if r.wg = 0 then
          some { s with callers := s.callers.set t { x with pc := PC.returned c r.val r.err } }
        else none
      | none => none
    | PC.running c =>
      match s.g.calls[c]? with
      | some r =>
        some { s with g := { s.g with calls :=
                                (s.g.calls.set c { r with val := (res c).1, err := (res c).2 }) },
                      callers := s.callers.set t { x with pc := PC.wrote c } }
      | none => none
    | PC.wrote c =>
      match s.g.calls[c]? with
      | some r =>
        if r.wg = 0 then none
        else
          some { s with g := { s.g with calls := s.g.calls.set c { r with wg := r.wg - 1 } },
                        callers := s.callers.set t { x with pc := PC.done c } }
      | none => none
    | PC.done c =>
      match s.g.calls[c]? with
      | some r =>
        some { s with g := { s.g with m := some (lru.mapDelete (s.g.m.getD []) x.key) },
                      callers := s.callers.set t { x with pc := PC.returned c r.val r.err } }
      | none => none
    | PC.returned _ _ _ => none

/-- The system after the callers have moved in the order of `sched`; an entry naming a caller
that cannot move is skipped. -/
def exec (res : Nat → Option α × Option ε) (s : System α ε) : List Nat → System α ε
  | [] => s
  | t :: ts => exec res ((step res s t).getD s) ts

/-- The steps the callers still have ahead of them, at most. -/
def System.rank (s : System α ε) : Nat :=
  (s.callers.map (fun x => x.pc.rank)).sum

/-- What holds of the system between any two steps. -/
structure Inv (res : Nat → Option α × Option ε) (s : System α ε) : Prop where
  owner : ∀ (t : Nat) (x : Caller α ε) (c : Nat), s.callers[t]? = some x →
    x.pc.owns = some c → s.g.record x.key = some c
  single : ∀ (t u : Nat) (x y : Caller α ε) (c d : Nat), s.callers[t]? = some x →
    s.callers[u]? = some y → x.pc.owns = some c → y.pc.owns = some d → x.key = y.key → t = u
  execs : s.execs = List.range s.g.calls.length
  counter : ∀ (c : Nat) (r : call α ε), s.g.calls[c]? = some r → r.wg ≤ 1
  result : ∀ (c : Nat) (r : call α ε), s.g.calls[c]? = some r → r.wg = 0 →
    (r.val, r.err) = res c
  wrote : ∀ (t : Nat) (x : Caller α ε) (c : Nat), s.callers[t]? = some x → x.pc = PC.wrote c →
    ∃ r, s.g.calls[c]? = some r ∧ (r.val, r.err) = res c
  done : ∀ (t : Nat) (x : Caller α ε) (c : Nat), s.callers[t]? = some x → x.pc = PC.done c →
    ∃ r, s.g.calls[c]? = some r ∧ r.wg = 0
  returned : ∀ (t : Nat) (x : Caller α ε) (c : Nat) (v : Option α) (e : Option ε),
    s.callers[t]? = some x → x.pc = PC.returned c v e → (v, e) = res c

/-- What keeps the callers moving: every record a caller refers to exists and has one maker;
the record of a caller that is inside `fn` or has not called `Done` yet has the counter 1;
every record in the map has its maker among the callers; and a caller waits only for a record
that is completed or whose maker is still at work. -/
structure Live (s : System α ε) : Prop where
  bound : ∀ (t : Nat) (x : Caller α ε) (c : Nat), s.callers[t]? = some x →
    (x.pc = PC.waiting c ∨ x.pc.owns = some c) → c < s.g.calls.length
  unique : ∀ (t u : Nat) (x y : Caller α ε) (c : Nat), s.callers[t]? = some x →
    s.callers[u]? = some y → x.pc.owns = some c → y.pc.owns = some c → t = u
  pending : ∀ (t : Nat) (x : Caller α ε) (c : Nat), s.callers[t]? = some x →
    (x.pc = PC.running c ∨ x.pc = PC.wrote c) → ∃ r, s.g.calls[c]? = some r ∧ r.wg = 1
  mapped : ∀ (k : String) (c : Nat), s.g.record k = some c →
    ∃ (u : Nat) (y : Caller α ε), s.callers[u]? = some y ∧ y.key = k ∧ y.pc.owns = some c
  waits : ∀ (t : Nat) (x : Caller α ε) (c : Nat), s.callers[t]? = some x →
    x.pc = PC.waiting c →
    (∃ r, s.g.calls[c]? = some r ∧ r.wg = 0) ∨
    (∃ (u : Nat) (y : Caller α ε), s.callers[u]? = some y ∧
      (y.pc = PC.running c ∨ y.pc = PC.wrote c))

end singleflight

/-!
The namespace (`distributedcache.go`), its cache (`cache.go`) and payload (`byteview.go`).

* `[]byte` is a list of bytes; a slice has no identity here, so a copy is the same list.
* `error` is an optional message, `none` being `nil`.
* The mutexes are left out: the calls of one caller run one after the other.
* The backing source and the peers are functions; what the namespace asks of them is kept in
  the traces `loads`, `picks` and `fetches`, oldest first.
* A result `none` stands for a call that does not return (a panic, or a wait without end).
-/

namespace DistributedCache

/-- Go `type ByteView struct { b []byte; t time.Time }`. -/
structure ByteView where
  b : List UInt8
  t : lru.Time
  deriving DecidableEq, Repr

/-- The zero value `ByteView{}`. -/
def ByteView.zero : ByteView :=
  { b := [], t := lru.Time.zero }

/-- Go `func (v ByteView) Len() int { return len(v.b) }`. -/
instance : lru.Value ByteView where
  Len v := (v.b.length : Int)

/-- Go `cloneBytes(b)`: a new slice with the bytes of `b`. -/
def cloneBytes (b : List UInt8) : List UInt8 :=
  b

/-- Go `func (v ByteView) ByteSlice() []byte`. -/
def ByteView.ByteSlice (v : ByteView) : List UInt8 :=
  cloneBytes v.b

/-- Go `type cache struct { mu sync.Mutex; lru *lru.Cache; cacheBytes int64 }`. -/
structure cache where
  lru : Option (lru.Cache ByteView)
  cacheBytes : Int
  deriving DecidableEq, Repr

/-- Go `c.add(key, value, expir)`; `none` when `lru.Add` does not return. -/
def cache.add (c : cache) (key : String) (value : ByteView) (expir : lru.Time) : Option cache :=
  let l := c.lru.getD (lru.New ByteView c.cacheBytes false)
  (lru.Add l key value expir).map (fun l1 => { c with lru := some l1 })

/-- Go `c.get(key)`, with `now` the instant `time.Now` returns inside `lru.Get`. -/
def cache.get (c : cache) (key : String) (now : lru.Time) : Option ByteView × cache :=
  match c.lru with
  | none => (none, c)
  | some l => ((lru.Get l key now).1, { c with lru := some (lru.Get l key now).2 })

/-- Go `type Fetcher interface { Fetch(group, key string) ([]byte, error) }`. -/
structure Fetcher where
  Fetch : String → String → Option (List UInt8 × Option String)

/-- Go `type PeerPicker interface { PickPeer(key string) (Fetcher, bool) }`; the fetcher may be
`nil`. -/
structure PeerPicker where
  PickPeer : String → Option (Option Fetcher × Bool)

/-- Go `type Group struct { name; getter; mainCache; peers; loader }`, with the traces of the
calls made to the backing source and to the peers. -/
structure Group where
  name : String
  getter : String → List UInt8 × Option String
  mainCache : cache
  peers : Option PeerPicker
  loader : singleflight.Group ByteView String
  loads : List String
  picks : List String
  fetches : List (String × String)

/-- Go `NewGroup(name, cacheBytes, getter)` for a getter that is not `nil`. -/
def NewGroup (name : String) (cacheBytes : Int) (getter : String → List UInt8 × Option String) :
    Group :=
  { name := name, getter := getter, mainCache := { lru := none, cacheBytes := cacheBytes },
    peers := none, loader := singleflight.Group.zero, loads := [], picks := [], fetches := [] }

/-- Go `g.populateCache(key, value, expir)`. -/
def Group.populateCache (g : Group) (key : String) (value : ByteView) (expir : lru.Time) :
    Option Group :=
  (g.mainCache.add key value expir).map (fun c => { g with mainCache := c })

/-- Go `g.getLocally(key, expir)`. -/
def Group.getLocally (g : Group) (key : String) (expir : lru.Time) :
    Option ((ByteView × Option String) × Group) :=
  let g1 := { g with loads := g.loads ++ [key] }
  match g.getter key with
  | (_, some err) => some ((ByteView.zero, some err), g1)
  | (bytes, none) =>
    let value : ByteView := { b := cloneBytes bytes, t := lru.Time.zero }
    (g1.populateCache key value expir).map (fun g2 => ((value, none), g2))

/-- The function `load` hands to `g.loader.Do`. -/
def Group.loadFn (key : String) (expir : lru.Time) (g : Group) :
    Option ((Option ByteView × Option String) × Group) :=
  let locally (w : Group) : Option ((Option ByteView × Option String) × Group) :=
    (w.getLocally key expir).map (fun r => ((some r.1.1, r.1.2), r.2))
  match g.peers with
  | some peers =>
    match peers.PickPeer key with
    | none => none
    | some (fetcher, ok) =>
      let g1 := { g with picks := g.picks ++ [key] }
      if ok then
        match fetcher with
        | none => none
        | some f =>
          match f.Fetch g1.name key with
          | none => none
          | some (bytes, err) =>
            let g2 := { g1 with fetches := g1.fetches ++ [(g1.name, key)] }
            match err with
            | none => some ((some { b := cloneBytes bytes, t := lru.Time.zero }, none), g2)
            | some _ => locally g2
      else locally g1
  | none => locally g

/-- Go `g.load(key, expir)`. -/
def Group.load (g : Group) (key : String) (expir : lru.Time) :
    Option ((ByteView × Option String) × Group) :=
  match singleflight.Do g.loader key (Group.loadFn key expir) g with
  | none => none
  | some ((view, err), loader, g1) =>
    let g2 := { g1 with loader := loader }
    match err with
    | none =>
      match view with
      | some v => some ((v, none), g2)
      | none => none
    | some e => some ((ByteView.zero, some e), g2)

/-- Go `g.Get(key, expir)`, with `now` the instant of the clock during the call. -/
def Group.Get (g : Group) (key : String) (expir : lru.Time) (now : lru.Time) :
    Option ((ByteView × Option String) × Group) :=
  if key = "" then some ((ByteView.zero, some "key is required"), g)
  else
    match g.mainCache.get key now with
    | (some v, c) => some ((v, none), { g with mainCache := c })
    | (none, c) => Group.load { g with mainCache := c } key expir

/-- A sequence of `g.Get(key, expir)` calls, one per instant of `nows`, with their results. -/
def Group.gets (g : Group) (key : String) (expir : lru.Time) :
    List lru.Time → Option (List (ByteView × Option String) × Group)
  | [] => some ([], g)
  | now :: rest =>
    match g.Get key expir now with
    | none => none
    | some (r, g1) => (Group.gets g1 key expir rest).map (fun rs => (r :: rs.1, rs.2))

/-- The store of `g` holds `key` with payload `v` and no expiry, at the front of its list. -/
def Cached (g : Group) (key : String) (v : ByteView) : Prop :=
  ∃ l e rest, g.mainCache.lru = some l ∧ lru.WF l ∧ l.ll = e :: rest ∧
    e.Value = ⟨key, v, lru.Time.zero⟩

/-- The source `db1` of `TestGet`, as a backing source. -/
def db1 (key : String) : List UInt8 × Option String :=
  if key = "Leslie" then (consistenthash.bytesOf "沉默是金", none)
  else if key = "Lam" then (consistenthash.bytesOf "分分钟需要你", none)
  else if key = "Sam" then (consistenthash.bytesOf "浪子心声", none)
  else ([], some (key ++ " not exist"))

/-- The calls of `TestGet` on `NewGroup("mussic", 2<<10, db1)`: two `Get`s for each key of
`db1` (in the order Leslie, Lam, Sam), then `Get("unknow")`; the result holds the errors of
the seven calls and the keys the source was asked for. -/
def testGet : Option (List (Option String) × List String) :=
  let z := lru.Time.zero
  match (NewGroup "mussic" 2048 db1).gets "Leslie" z [z, z] with
  | none => none
  | some (r1, g1) =>
    match g1.gets "Lam" z [z, z] with
    | none => none
    | some (r2, g2) =>
      match g2.gets "Sam" z [z, z] with
      | none => none
      | some (r3, g3) =>
        match g3.Get "unknow" z z with
        | none => none
        | some (r4, g4) => some ((r1 ++ r2 ++ r3 ++ [r4]).map Prod.snd, g4.loads)

/-- The entries the store of a cache holds, most recently used first; a store that was not
made yet holds none. -/
def cache.entries (c : cache) : List (lru.entry ByteView) :=
  match c.lru with
  | none => []
  | some l => l.ll.map lru.Element.Value

/-- Go `g.RegisterPeers(peers)`; `none` is the panic of a second registration. -/
def Group.RegisterPeers (g : Group) (peers : PeerPicker) : Option Group :=
  match g.peers with
  | some _ => none
  | none => some { g with peers := some peers }

/-- The three ways in which the function `load` hands to `g.loader.Do` reaches
`g.getLocally(key, expir)`: no picker is registered; or `PickPeer(key)` answers `false`; or it
answers `true` with a fetcher whose `Fetch(g.name, key)` returns an error. -/
def Group.LoadsLocally (g : Group) (key : String) : Prop :=
  g.peers = none ∨
  (∃ (p : PeerPicker) (f : Option Fetcher), g.peers = some p ∧ p.PickPeer key = some (f, false)) ∨
  (∃ (p : PeerPicker) (f : Fetcher) (b : List UInt8) (e : String), g.peers = some p ∧
    p.PickPeer key = some (some f, true) ∧ f.Fetch g.name key = some (b, some e))

/-- The source `db1` after the row of `gone` was deleted from it. -/
def db1Without (gone : String) (key : String) : List UInt8 × Option String :=
  if key = gone then ([], some (key ++ " not exist")) else db1 key

/-- What is seen of one `Get` call: what the lookup in the cache finds, the pair the call
returns, the keys the backing source was asked for up to the end of the call, and the
entries of the cache before the call and after it. -/
structure Seen where
  found : Option ByteView
  result : ByteView × Option String
  loads : List String
  before : List (lru.entry ByteView)
  after : List (lru.entry ByteView)
  deriving DecidableEq, Repr

/-- A miss on an expired entry with a source that fails.  On the namespace fresh from
`NewGroup("mussic", 2<<10, db1)`, `Get("Sam", t10)` at the instant 0 caches the row of Sam
until the instant 10; the row is then deleted from the source; `Get("Sam", t10)` follows at the
instant 20.  The result is what is seen of that second call. -/
def staleThenSourceError : Option Seen :=
  match (NewGroup "mussic" 2048 db1).Get "Sam" ⟨10⟩ ⟨0⟩ with
  | none => none
  | some (_, g1) =>
    let g2 := { g1 with getter := db1Without "Sam" }
    match g2.Get "Sam" ⟨10⟩ ⟨20⟩ with
    | none => none
    | some (r, g3) =>
      some { found := (g2.mainCache.get "Sam" ⟨20⟩).1, result := r, loads := g3.loads,
             before := g2.mainCache.entries, after := g3.mainCache.entries }

/-- A fetcher whose peer answers every request with the bytes of `"remote"`. -/
def remoteFetcher : Fetcher :=
  { Fetch := fun _ _ => some (consistenthash.bytesOf "remote", none) }

/-- A picker that sends every key to `remoteFetcher`. -/
def remotePicker : PeerPicker :=
  { PickPeer := fun _ => some (some remoteFetcher, true) }

/-- A miss on an expired entry that a peer answers.  On the namespace fresh from
`NewGroup("mussic", 2<<10, db1)`, `Get("Sam", t10)` at the instant 0 caches the row of Sam
until the instant 10; `RegisterPeers(remotePicker)` follows, and `Get("Sam", t10)` at the
instant 20.  The result is what is seen of that second call. -/
def staleThenRemote : Option Seen :=
  match (NewGroup "mussic" 2048 db1).Get "Sam" ⟨10⟩ ⟨0⟩ with
  | none => none
  | some (_, g1) =>
    match g1.RegisterPeers remotePicker with
    | none => none
    | some g2 =>
      match g2.Get "Sam" ⟨10⟩ ⟨20⟩ with
      | none => none
      | some (r, g3) =>
        some { found := (g2.mainCache.get "Sam" ⟨20⟩).1, result := r, loads := g3.loads,
               before := g2.mainCache.entries, after := g3.mainCache.entries }

/-- A fetcher whose peer does not answer: `Fetch` returns the error of `client.Fetch`. -/
def failingFetcher : Fetcher :=
  { Fetch := fun group key =>
      some ([], some ("could not get " ++ group ++ "/" ++ key ++
        " from peer geecache/10.0.0.2:8002")) }

/-- A picker that sends every key to `failingFetcher`. -/
def failingPicker : PeerPicker :=
  { PickPeer := fun _ => some (some failingFetcher, true) }

/-- What is seen of `Get(key)` with the zero expiry at the zero instant on a namespace. -/
def seenOfGet (g : Group) (key : String) : Option Seen :=
  (g.Get key lru.Time.zero lru.Time.zero).map (fun r =>
    { found := (g.mainCache.get key lru.Time.zero).1, result := r.1, loads := r.2.loads,
      before := g.mainCache.entries, after := r.2.mainCache.entries })

/-- Two `Get` calls after an expired one.  On the namespace made by
`NewGroup("mussic", 20, db1)`, `Get("Sam", t10)` at the instant 0, then `Get("Sam")` with the
zero expiry at the instants 20 and 21.  The result holds the bytes the last two calls return,
and the errors, the keys the source was asked for over the three calls, and the keys in the
cache at the end. -/
def leakedGets : Option (List (List UInt8 × Option String) × List String × List String) :=
  match (NewGroup "mussic" 20 db1).Get "Sam" ⟨10⟩ ⟨0⟩ with
  | none => none
  | some (_, g1) =>
    match g1.gets "Sam" lru.Time.zero [⟨20⟩, ⟨21⟩] with
    | none => none
    | some (rs, g2) =>
      some (rs.map (fun r => (r.1.b, r.2)), g2.loads,
        g2.mainCache.entries.map (fun e => e.key))

end DistributedCache

/-!
The node server (`server.go`) and its client (`client.go`).

* Of `type server struct` the fields that `NewServer`, `Set` and `PickPeer` use are kept: the
  address, the running flag, the mutex, the ring and the clients; `nil` is `none`.
* `sync.Mutex` is whether it is held.  The calls on a server run one after the other, so a
  `Lock()` that finds the mutex held waits for an `Unlock()` that nobody is going to make.
* A `defer`red call runs when the body of the function has set its results and before the
  function returns to its caller.
* `validPeerAddr` is a helper of the package that is defined outside `server.go`; the
  functions that call it take it as an argument.
* A result `none` stands for a call that does not return to its caller (a panic, or a wait
  without end), and for `NewServer` the return of an error.
-/

namespace DistributedCache

/-- Go `type client struct { name string }`. -/
structure client where
  name : String
  deriving DecidableEq, Repr

/-- Go `NewClient(service)`. -/
def NewClient (service : String) : client :=
  { name := service }

/-- Go `const defaultAddr = "127.0.0.1:6324"`. -/
def defaultAddr : String := "127.0.0.1:6324"

/-- Go `const defaultReplicas = 50`. -/
def defaultReplicas : Int := 50

/-- Go `type server struct { addr; status; mu; peers; clients }`. -/
structure server where
  addr : String
  status : Bool
  mu : Bool
  peers : Option consistenthash.Map
  clients : Option (List (String × client))

/-- Go `mu.Lock()` on a mutex that is held or not: it returns with the mutex held when the
mutex was free, and does not return when the mutex was held. -/
def Lock (held : Bool) : Option Bool :=
  if held then none else some true

/-- Go `mu.Unlock()`: it frees a held mutex; on a free mutex it is a fatal error. -/
def Unlock (held : Bool) : Option Bool :=
  if held then some false else none

/-- Go `h.clients[peerAddr]`: the client stored for the address, and `nil` when there is
none. -/
def clientsGet (m : List (String × client)) (peerAddr : String) : Option client :=
  match m with
  | [] => none
  | (a, c) :: rest => if a = peerAddr then some c else clientsGet rest peerAddr

/-- Go `h.clients[peerAddr] = c`. -/
def clientsSet (m : List (String × client)) (peerAddr : String) (c : client) :
    List (String × client) :=
  (peerAddr, c) :: m.filter (fun ac => decide (ac.1 ≠ peerAddr))

/-- Go `NewServer(addr)`; `none` is the return of the error for an invalid address. -/
def NewServer (validPeerAddr : String → Bool) (addr : String) : Option server :=
  let addr1 := if addr = "" then defaultAddr else addr
  if !validPeerAddr addr1 then none
  else some { addr := addr1, status := false, mu := false, peers := none, clients := none }

/-- The loop `for _, peerAddr := range peers` of `Set`; `none` is the panic on an invalid
address. -/
def setClients (validPeerAddr : String → Bool) :
    List String → List (String × client) → Option (List (String × client))
  | [], m => some m
  | peerAddr :: rest, m =>
    if !validPeerAddr peerAddr then none
    else
      let service := "geecache/" ++ peerAddr
      setClients validPeerAddr rest (clientsSet m peerAddr (NewClient service))

/-- Go `h.Set(peers...)`: `h.mu.Lock()`, the body, and the deferred `h.mu.Unlock()`. -/
def server.Set (validPeerAddr : String → Bool) (h : server) (peers : List String) :
    Option server :=
  match Lock h.mu with
  | none => none
  | some mu1 =>
    let ring := consistenthash.Add (consistenthash.New defaultReplicas none) peers
    match setClients validPeerAddr peers [] with
    | none => none
    | some clients =>
      match Unlock mu1 with
      | none => none
      | some mu2 => some { h with mu := mu2, peers := some ring, clients := some clients }

/-- The body of `PickPeer`, from `peerAddr := h.peers.Get(key)` to the `return` statements:
the pair the function is about to return, the fetcher being a `*client` that may be `nil`;
`none` is the panic of `h.peers.Get` on a ring that is `nil`. -/
def server.pick (h : server) (key : String) : Option (Option client × Bool) :=
  match h.peers with
  | none => none
  | some ring =>
    match consistenthash.Get ring key with
    | none => none
    | some peerAddr =>
      if peerAddr = h.addr then some (none, false)
      else some (clientsGet (h.clients.getD []) peerAddr, true)

/-- Go `h.PickPeer(key)`: `h.mu.Lock()`, the body, and the deferred `h.mu.Lock()`, which runs
once the body has set the results (or has panicked) and before the function returns. -/
def server.PickPeer (h : server) (key : String) : Option ((Option client × Bool) × server) :=
  match Lock h.mu with
  | none => none
  | some mu1 =>
    let h1 := { h with mu := mu1 }
    let r := h1.pick key
    match Lock h1.mu with
    | none => none
    | some mu2 => r.map (fun p => (p, { h1 with mu := mu2 }))

end DistributedCache
namespace lru

variable {V : Type}

/-! ## `int64` -/

theorem int64_of_InInt64 {x : Int} (h : InInt64 x) : int64 x = x := by
  unfold InInt64 at h
  unfold int64
  omega

theorem InInt64_int64 (x : Int) : InInt64 (int64 x) := by
  unfold InInt64 int64
  omega

theorem int64_add_int64 (a b : Int) : int64 (a + int64 b) = int64 (a + b) := by
  unfold int64
  omega

theorem int64_sub_int64 (a b : Int) : int64 (a - int64 b) = int64 (a - b) := by
  unfold int64
  omega

theorem int64_int64_add (a b : Int) : int64 (int64 a + int64 b) = int64 (a + b) := by
  unfold int64
  omega

theorem int64_int64_sub (a b : Int) : int64 (int64 a - int64 b) = int64 (a - b) := by
  unfold int64
  omega

theorem int64_add_sum (n l v : Int) :
    int64 (n + int64 (int64 l + int64 v)) = int64 (n + (l + v)) := by
  unfold int64
  omega

theorem int64_sub_sum (n l v : Int) :
    int64 (n - int64 (int64 l + int64 v)) = int64 (n - (l + v)) := by
  unfold int64
  omega

theorem int64_add_diff (n v o : Int) :
    int64 (n + int64 (int64 v - int64 o)) = int64 (n + (v - o)) := by
  unfold int64
  omega

/-! # Lemmas -/

/-! ## Facts about maps -/

theorem mem_of_mapGet {m : List (String × Nat)} {k : String} {p : Nat}
    (h : mapGet m k = some p) : (k, p) ∈ m := by
  induction m with
  | nil => simp [mapGet] at h
  | cons a rest ih =>
    obtain ⟨k', p'⟩ := a
    by_cases hk : k' = k
    · subst hk
      simp [mapGet] at h
      simp [h]
    · simp [mapGet, hk] at h
      exact List.mem_cons_of_mem _ (ih h)

theorem mapGet_of_mem {m : List (String × Nat)} {k : String} {p : Nat}
    (hnd : (m.map Prod.fst).Nodup) (h : (k, p) ∈ m) : mapGet m k = some p := by
  induction m with
  | nil => simp at h
  | cons a rest ih =>
    obtain ⟨k', p'⟩ := a
    simp only [List.map_cons, List.nodup_cons] at hnd
    rcases List.mem_cons.1 h with heq | hmem
    · cases heq
      simp [mapGet]
    · have hne : k' ≠ k := by
        rintro rfl
        exact hnd.1 (List.mem_map_of_mem Prod.fst hmem)
      simp [mapGet, hne, ih hnd.2 hmem]

theorem mapGet_eq_none_iff {m : List (String × Nat)} {k : String} :
    mapGet m k = none ↔ k ∉ m.map Prod.fst := by
  induction m with
  | nil => simp [mapGet]
  | cons a rest ih =>
    obtain ⟨k', p'⟩ := a
    by_cases hk : k' = k
    · simp [mapGet, hk]
    · simp only [mapGet, hk, if_false, ih, List.map_cons, List.mem_cons]
      constructor
      · rintro h (h1 | h1)
        · exact hk h1.symm
        · exact h h1
      · intro h h1
        exact h (Or.inr h1)

theorem mapGet_mapDelete (m : List (String × Nat)) (k k' : String) :
    mapGet (mapDelete m k) k' = if k' = k then none else mapGet m k' := by
  induction m with
  | nil => simp [mapDelete, mapGet]
  | cons a rest ih =>
    obtain ⟨k0, p0⟩ := a
    unfold mapDelete at ih ⊢
    by_cases h0 : k0 = k
    · subst h0
      by_cases h1 : k' = k0
      · simp [List.filter_cons, h1] at ih ⊢
        exact ih
      · have h1' : ¬ k0 = k' := fun h => h1 h.symm
        simp [List.filter_cons, h1, h1', mapGet] at ih ⊢
        exact ih
    · by_cases h1 : k' = k
      · subst h1
        simp [List.filter_cons, h0, mapGet] at ih ⊢
        exact ih
      · by_cases h2 : k0 = k'
        · simp [List.filter_cons, h0, h1, h2, mapGet]
        · simp [List.filter_cons, h0, h1, h2, mapGet] at ih ⊢
          exact ih

theorem mapGet_mapSet (m : List (String × Nat)) (k k' : String) (p : Nat) :
    mapGet (mapSet m k p) k' = if k' = k then some p else mapGet m k' := by
  by_cases h : k' = k
  · subst h
    simp [mapSet, mapGet]
  · have h' : ¬ k = k' := fun e => h e.symm
    simp [mapSet, mapGet, h, h', mapGet_mapDelete]

theorem nodup_keys_mapDelete {m : List (String × Nat)} (k : String)
    (hnd : (m.map Prod.fst).Nodup) : ((mapDelete m k).map Prod.fst).Nodup := by
  unfold mapDelete
  exact hnd.sublist ((List.filter_sublist m).map Prod.fst)

theorem not_mem_keys_mapDelete (m : List (String × Nat)) (k : String) :
    k ∉ (mapDelete m k).map Prod.fst := by
  simp [mapDelete]

theorem nodup_keys_mapSet {m : List (String × Nat)} (k : String) (p : Nat)
    (hnd : (m.map Prod.fst).Nodup) : ((mapSet m k p).map Prod.fst).Nodup := by
  unfold mapSet
  simp only [List.map_cons, List.nodup_cons]
  exact ⟨not_mem_keys_mapDelete m k, nodup_keys_mapDelete k hnd⟩

theorem mapDelete_of_not_mem {m : List (String × Nat)} {k : String}
    (h : k ∉ m.map Prod.fst) : mapDelete m k = m := by
  unfold mapDelete
  rw [List.filter_eq_self]
  intro a ha
  have : a.1 ≠ k := by
    rintro rfl
    exact h (List.mem_map_of_mem Prod.fst ha)
  simpa using this

/-! ## Facts about the order list -/

theorem deref_some {l : List (Element V)} {p : Nat} {e : Element V}
    (h : deref l p = some e) : e ∈ l ∧ e.ptr = p := by
  unfold deref at h
  refine ⟨List.mem_of_find?_eq_some h, ?_⟩
  have := List.find?_some h
  simpa using this

theorem deref_eq_none {l : List (Element V)} {p : Nat} :
    deref l p = none ↔ ∀ e ∈ l, e.ptr ≠ p := by
  unfold deref
  simp [List.find?_eq_none]

theorem ptr_inj {l : List (Element V)} (hnd : (l.map Element.ptr).Nodup) {a b : Element V}
    (ha : a ∈ l) (hb : b ∈ l) (h : a.ptr = b.ptr) : a = b :=
  List.inj_on_of_nodup_map hnd ha hb h

theorem deref_of_mem {l : List (Element V)} (hnd : (l.map Element.ptr).Nodup) {e : Element V}
    (he : e ∈ l) : deref l e.ptr = some e := by
  cases hd : deref l e.ptr with
  | none => exact absurd rfl (deref_eq_none.1 hd e he)
  | some e' =>
    have h := deref_some hd
    rw [ptr_inj hnd h.1 he h.2]

theorem mem_Remove {l : List (Element V)} {p : Nat} {x : Element V} :
    x ∈ Remove l p ↔ x ∈ l ∧ x.ptr ≠ p := by
  simp [Remove]

theorem Remove_split {pre post : List (Element V)} {e : Element V}
    (hnd : ((pre ++ e :: post).map Element.ptr).Nodup) :
    Remove (pre ++ e :: post) e.ptr = pre ++ post := by
  have hmem : ∀ x ∈ pre ++ post, x.ptr ≠ e.ptr := by
    intro x hx hxe
    have hx' : x ∈ pre ++ e :: post := by
      rcases List.mem_append.1 hx with h | h
      · exact List.mem_append_left _ h
      · exact List.mem_append_right _ (List.mem_cons_of_mem _ h)
    have he' : e ∈ pre ++ e :: post := List.mem_append_right _ (List.mem_cons_self _ _)
    have hxe' : x = e := ptr_inj hnd hx' he' hxe
    subst hxe'
    have hn : (pre ++ x :: post).Nodup := List.Nodup.of_map _ hnd
    have := List.nodup_cons.1 (List.nodup_middle.1 hn)
    exact this.1 hx
  unfold Remove
  rw [List.filter_append, List.filter_cons]
  simp only [bne_self_eq_false, Bool.false_eq_true, if_false]
  rw [List.filter_eq_self.2, List.filter_eq_self.2]
  · intro a ha
    simpa using hmem a (List.mem_append_right _ ha)
  · intro a ha
    simpa using hmem a (List.mem_append_left _ ha)

theorem Remove_of_not_mem {l : List (Element V)} {p : Nat} (h : ∀ e ∈ l, e.ptr ≠ p) :
    Remove l p = l := by
  unfold Remove
  rw [List.filter_eq_self]
  intro a ha
  simpa using h a ha

theorem Remove_Remove_self (l : List (Element V)) (p : Nat) :
    Remove (Remove l p) p = Remove l p := by
  apply Remove_of_not_mem
  intro e he
  exact (mem_Remove.1 he).2

theorem Remove_MoveToFront (l : List (Element V)) (p : Nat) :
    Remove (MoveToFront l p) p = Remove l p := by
  unfold MoveToFront
  cases hd : deref l p with
  | none => rfl
  | some e =>
    have h := deref_some hd
    show Remove (e :: Remove l p) p = Remove l p
    have : Remove (e :: Remove l p) p = Remove (Remove l p) p := by
      unfold Remove
      rw [List.filter_cons]
      simp [h.2]
    rw [this, Remove_Remove_self]

theorem MoveToFront_of_mem {l : List (Element V)} (hnd : (l.map Element.ptr).Nodup)
    {e : Element V} (he : e ∈ l) : MoveToFront l e.ptr = e :: Remove l e.ptr := by
  unfold MoveToFront
  rw [deref_of_mem hnd he]

theorem Remove_perm {l : List (Element V)} (hnd : (l.map Element.ptr).Nodup)
    {e : Element V} (he : e ∈ l) : (e :: Remove l e.ptr).Perm l := by
  obtain ⟨pre, post, rfl⟩ := List.append_of_mem he
  rw [Remove_split hnd]
  exact List.perm_middle.symm

theorem Remove_sublist (l : List (Element V)) (p : Nat) : (Remove l p).Sublist l :=
  List.filter_sublist l

theorem Back_some {l : List (Element V)} {e : Element V} (h : Back l = some e) :
    l = l.dropLast ++ [e] := by
  unfold Back at h
  have hne : l ≠ [] := by
    rintro rfl
    simp at h
  have h2 := List.dropLast_append_getLast hne
  rw [List.getLast?_eq_getLast l hne] at h
  cases h
  exact h2.symm

theorem Back_none {l : List (Element V)} (h : Back l = none) : l = [] := by
  unfold Back at h
  simpa using h

theorem Remove_Back {l : List (Element V)} (hnd : (l.map Element.ptr).Nodup) {e : Element V}
    (h : Back l = some e) : Remove l e.ptr = l.dropLast := by
  have hl := Back_some h
  have hnd' : ((l.dropLast ++ e :: []).map Element.ptr).Nodup := by
    rw [← hl]; exact hnd
  have := Remove_split hnd'
  rw [← hl] at this
  simpa using this

/-! ## The representation invariant is kept by every operation -/

theorem WF_New (maxBytes : Int) (onEvicted : Bool) : WF (New V maxBytes onEvicted) :=
  ⟨List.Perm.refl _, List.nodup_nil, List.nodup_nil, by simp [New]⟩

theorem index_map_fst (l : List (Element V)) :
    (index l).map Prod.fst = l.map (fun e => e.Value.key) := by
  simp [index]

theorem index_map_snd (l : List (Element V)) :
    (index l).map Prod.snd = l.map Element.ptr := by
  simp [index]

theorem WF.nodupKeys {c : Cache V} (h : WF c) : (c.ll.map (fun e => e.Value.key)).Nodup := by
  rw [← index_map_fst]
  exact (h.perm.map Prod.fst).nodup_iff.1 h.nodupKey

theorem WF.key_inj {c : Cache V} (h : WF c) {a b : Element V} (ha : a ∈ c.ll) (hb : b ∈ c.ll)
    (hk : a.Value.key = b.Value.key) : a = b :=
  List.inj_on_of_nodup_map h.nodupKeys ha hb hk

theorem WF.lookup_of_mem {c : Cache V} (h : WF c) {e : Element V} (he : e ∈ c.ll) :
    mapGet c.cache e.Value.key = some e.ptr := by
  apply lru.mapGet_of_mem h.nodupKey
  rw [h.perm.mem_iff]
  exact List.mem_map_of_mem (fun e => (e.Value.key, e.ptr)) he

theorem WF.deref_mem {c : Cache V} (h : WF c) {e : Element V} (he : e ∈ c.ll) :
    deref c.ll e.ptr = some e :=
  lru.deref_of_mem h.nodupPtr he

theorem WF.of_mapGet {c : Cache V} (h : WF c) {k : String} {p : Nat}
    (hg : mapGet c.cache k = some p) :
    ∃ e, e ∈ c.ll ∧ e.ptr = p ∧ e.Value.key = k ∧ deref c.ll p = some e := by
  have hm := mem_of_mapGet hg
  rw [h.perm.mem_iff] at hm
  obtain ⟨e, he, heq⟩ := List.mem_map.1 hm
  simp only [Prod.mk.injEq] at heq
  refine ⟨e, he, heq.2, heq.1, ?_⟩
  rw [← heq.2]
  exact h.deref_mem he

theorem WF.of_mapGet_none {c : Cache V} (h : WF c) {k : String}
    (hg : mapGet c.cache k = none) : ∀ e ∈ c.ll, e.Value.key ≠ k := by
  intro e he hk
  have := h.lookup_of_mem he
  rw [hk, hg] at this
  cases this

/-- Unlinking an element and deleting its key keeps the invariant. -/
theorem WF.remove {c c' : Cache V} (h : WF c) {e : Element V} (he : e ∈ c.ll)
    (hll : c'.ll = Remove c.ll e.ptr) (hcache : c'.cache = mapDelete c.cache e.Value.key)
    (hnext : c'.nextPtr = c.nextPtr) : WF c' := by
  refine ⟨?_, ?_, ?_, ?_⟩
  · rw [hll, hcache]
    have h1 : (mapDelete c.cache e.Value.key).Perm
        ((index c.ll).filter (fun kp => decide (kp.1 ≠ e.Value.key))) :=
      h.perm.filter _
    refine h1.trans ?_
    unfold index Remove
    rw [List.filter_map]
    apply List.Perm.of_eq
    congr 1
    apply List.filter_congr
    intro x hx
    simp only [Function.comp, ne_eq, decide_not]
    by_cases hp : x.ptr = e.ptr
    · have : x = e := ptr_inj h.nodupPtr hx he hp
      subst this
      simp
    · have hk : x.Value.key ≠ e.Value.key := fun hk => hp (by rw [h.key_inj hx he hk])
      simp [hp, hk]
  · rw [hcache]
    exact nodup_keys_mapDelete _ h.nodupKey
  · rw [hll]
    exact h.nodupPtr.sublist ((Remove_sublist _ _).map _)
  · intro x hx
    rw [hll] at hx
    rw [hnext]
    exact h.fresh x (mem_Remove.1 hx).1

theorem MoveToFront_perm {l : List (Element V)} (hnd : (l.map Element.ptr).Nodup) (p : Nat) :
    (MoveToFront l p).Perm l := by
  unfold MoveToFront
  cases hd : deref l p with
  | none => exact List.Perm.refl _
  | some e =>
    have h := deref_some hd
    have := Remove_perm hnd h.1
    rw [h.2] at this
    exact this

/-- Promoting an element keeps the invariant. -/
theorem WF.moveToFront {c c' : Cache V} (h : WF c) (p : Nat)
    (hll : c'.ll = MoveToFront c.ll p) (hcache : c'.cache = c.cache)
    (hnext : c'.nextPtr = c.nextPtr) : WF c' := by
  have hp := MoveToFront_perm h.nodupPtr p
  refine ⟨?_, ?_, ?_, ?_⟩
  · rw [hll, hcache]
    exact h.perm.trans (hp.map _).symm
  · rw [hcache]; exact h.nodupKey
  · rw [hll]
    exact (hp.map _).nodup_iff.2 h.nodupPtr
  · intro x hx
    rw [hll] at hx
    rw [hnext]
    exact h.fresh x (hp.mem_iff.1 hx)

theorem index_assign (l : List (Element V)) (p : Nat) (val : V) (expir : Time) :
    index (assign l p val expir) = index l := by
  unfold index assign
  rw [List.map_map]
  apply List.map_congr_left
  intro e _
  simp only [Function.comp]
  split <;> rfl

theorem map_ptr_assign (l : List (Element V)) (p : Nat) (val : V) (expir : Time) :
    (assign l p val expir).map Element.ptr = l.map Element.ptr := by
  have := congrArg (List.map Prod.snd) (index_assign l p val expir)
  rwa [index_map_snd, index_map_snd] at this

/-- Assigning through an entry pointer keeps the invariant. -/
theorem WF.assign {c c' : Cache V} (h : WF c) (p : Nat) (val : V) (expir : Time)
    (hll : c'.ll = lru.assign c.ll p val expir) (hcache : c'.cache = c.cache)
    (hnext : c'.nextPtr = c.nextPtr) : WF c' := by
  refine ⟨?_, ?_, ?_, ?_⟩
  · rw [hll, hcache, index_assign]; exact h.perm
  · rw [hcache]; exact h.nodupKey
  · rw [hll, map_ptr_assign]; exact h.nodupPtr
  · intro x hx
    rw [hnext]
    have hx' : x.ptr ∈ c'.ll.map Element.ptr := List.mem_map_of_mem _ hx
    rw [hll, map_ptr_assign] at hx'
    obtain ⟨y, hy, hyx⟩ := List.mem_map.1 hx'
    rw [← hyx]
    exact h.fresh y hy

/-- Pushing an entry for a key that is not in the map keeps the invariant. -/
theorem WF.push {c c' : Cache V} (h : WF c) {key : String} (kv : entry V)
    (hk : kv.key = key) (hg : mapGet c.cache key = none)
    (hll : c'.ll = PushFront c.ll c.nextPtr kv) (hcache : c'.cache = mapSet c.cache key c.nextPtr)
    (hnext : c'.nextPtr = c.nextPtr + 1) : WF c' := by
  have hnot := mapGet_eq_none_iff.1 hg
  refine ⟨?_, ?_, ?_, ?_⟩
  · rw [hll, hcache]
    unfold mapSet PushFront index
    rw [mapDelete_of_not_mem hnot, List.map_cons, hk]
    exact List.Perm.cons _ h.perm
  · rw [hcache]
    exact nodup_keys_mapSet _ _ h.nodupKey
  · rw [hll]
    unfold PushFront
    rw [List.map_cons, List.nodup_cons]
    refine ⟨?_, h.nodupPtr⟩
    intro hmem
    obtain ⟨y, hy, hyx⟩ := List.mem_map.1 hmem
    have := h.fresh y hy
    simp only at hyx
    omega
  · intro x hx
    rw [hll] at hx
    rw [hnext]
    unfold PushFront at hx
    rcases List.mem_cons.1 hx with rfl | hx
    · simp
    · have := h.fresh x hx
      omega

/-! ## The operations on a well-formed store -/

theorem expired_iff (kv : entry V) (now : Time) :
    expired kv now = true ↔ kv.expire ≠ Time.zero ∧ kv.expire.nsec < now.nsec := by
  unfold expired Time.IsZero Time.Before Time.zero
  obtain ⟨k, v, ⟨t⟩⟩ := kv
  simp [Time.mk.injEq]

theorem Get_of_absent {c : Cache V} {key : String} (now : Time)
    (h : mapGet c.cache key = none) : Get c key now = (none, c) := by
  simp [Get, h]

theorem Get_of_mem {c : Cache V} (h : WF c) {e : Element V} (he : e ∈ c.ll) (now : Time) :
    Get c e.Value.key now =
      if expired e.Value now then
        (none, { c with ll := Remove c.ll e.ptr, cache := mapDelete c.cache e.Value.key,
                        calls := fire c e.Value })
      else
        (some e.Value.value, { c with ll := e :: Remove c.ll e.ptr }) := by
  have hr : Remove (e :: Remove c.ll e.ptr) e.ptr = Remove c.ll e.ptr := by
    rw [← MoveToFront_of_mem h.nodupPtr he, Remove_MoveToFront]
  simp only [Get, h.lookup_of_mem he, h.deref_mem he, removeElement,
    MoveToFront_of_mem h.nodupPtr he, expired, fire, hr]

theorem WF_Get {c : Cache V} (h : WF c) (key : String) (now : Time) :
    WF (Get c key now).2 := by
  cases hg : mapGet c.cache key with
  | none => rw [Get_of_absent now hg]; exact h
  | some p =>
    obtain ⟨e, he, hp, hk, _⟩ := h.of_mapGet hg
    rw [← hk, Get_of_mem h he now]
    split
    · exact h.remove he rfl rfl rfl
    · refine h.moveToFront e.ptr ?_ rfl rfl
      exact (MoveToFront_of_mem h.nodupPtr he).symm

theorem RemoveOldest_of_empty [Value V] {c : Cache V} (h : c.ll = []) : RemoveOldest c = c := by
  simp [RemoveOldest, Back, h]

theorem RemoveOldest_of_back [Value V] {c : Cache V} (h : WF c) {e : Element V}
    (hb : Back c.ll = some e) :
    RemoveOldest c = { c with ll := c.ll.dropLast, cache := mapDelete c.cache e.Value.key,
                              nBytes := int64 (c.nBytes - e.Value.size),
                              calls := fire c e.Value } := by
  simp only [RemoveOldest, hb, Remove_Back h.nodupPtr hb, int64_sub_sum, entry.size]

/-- `RemoveOldest` when its assignment to `nBytes` does not wrap around. -/
theorem RemoveOldest_of_fits [Value V] {c : Cache V} (h : WF c) {e : Element V}
    (hb : Back c.ll = some e) (hf : removeFits c = true) :
    RemoveOldest c = { c with ll := c.ll.dropLast, cache := mapDelete c.cache e.Value.key,
                              nBytes := c.nBytes - e.Value.size, calls := fire c e.Value } := by
  rw [RemoveOldest_of_back h hb]
  simp only [removeFits, hb, decide_eq_true_eq] at hf
  rw [int64_of_InInt64 hf]

theorem mem_of_Back {l : List (Element V)} {e : Element V} (hb : Back l = some e) : e ∈ l := by
  rw [Back_some hb]
  simp

theorem WF_RemoveOldest [Value V] {c : Cache V} (h : WF c) : WF (RemoveOldest c) := by
  cases hb : Back c.ll with
  | none => rw [RemoveOldest_of_empty (Back_none hb)]; exact h
  | some e =>
    have he := mem_of_Back hb
    simp only [RemoveOldest, hb]
    exact h.remove he rfl rfl rfl

theorem upsert_of_absent [Value V] {c : Cache V} {key : String} (val : V) (expir : Time)
    (h : mapGet c.cache key = none) :
    upsert c key val expir =
      { c with ll := ⟨c.nextPtr, ⟨key, val, expir⟩⟩ :: c.ll,
               cache := mapSet c.cache key c.nextPtr,
               nBytes := int64 (c.nBytes + ((key.utf8ByteSize : Int) + Value.Len val)),
               nextPtr := c.nextPtr + 1 } := by
  simp only [upsert, h, PushFront, int64_add_sum]

theorem assign_cons_self (e : Element V) (l : List (Element V)) (val : V) (expir : Time)
    (hl : ∀ x ∈ l, x.ptr ≠ e.ptr) :
    assign (e :: l) e.ptr val expir = ⟨e.ptr, ⟨e.Value.key, val, expir⟩⟩ :: l := by
  unfold assign
  rw [List.map_cons]
  simp only [if_true]
  congr 1
  conv_rhs => rw [← List.map_id l]
  apply List.map_congr_left
  intro x hx
  simp [hl x hx]

theorem upsert_of_mem [Value V] {c : Cache V} (h : WF c) {e : Element V} (he : e ∈ c.ll)
    (val : V) (expir : Time) :
    upsert c e.Value.key val expir =
      { c with ll := ⟨e.ptr, ⟨e.Value.key, val, expir⟩⟩ :: Remove c.ll e.ptr,
               nBytes := int64 (c.nBytes + (Value.Len val - Value.Len e.Value.value)) } := by
  have hl : ∀ x ∈ Remove c.ll e.ptr, x.ptr ≠ e.ptr := fun x hx => (mem_Remove.1 hx).2
  simp only [upsert, h.lookup_of_mem he, h.deref_mem he, MoveToFront_of_mem h.nodupPtr he,
    assign_cons_self e _ val expir hl, int64_add_diff]

/-- The first statement of `Add` for a new key when its assignment to `nBytes` does not wrap
around. -/
theorem upsert_of_absent_fits [Value V] {c : Cache V} {key : String} (val : V) (expir : Time)
    (h : mapGet c.cache key = none) (hf : upsertFits c key val = true) :
    upsert c key val expir =
      { c with ll := ⟨c.nextPtr, ⟨key, val, expir⟩⟩ :: c.ll,
               cache := mapSet c.cache key c.nextPtr,
               nBytes := c.nBytes + ((key.utf8ByteSize : Int) + Value.Len val),
               nextPtr := c.nextPtr + 1 } := by
  rw [upsert_of_absent val expir h]
  simp only [upsertFits, h, decide_eq_true_eq] at hf
  rw [int64_of_InInt64 hf]

/-- The first statement of `Add` for a key of the store when its assignment to `nBytes` does
not wrap around. -/
theorem upsert_of_mem_fits [Value V] {c : Cache V} (h : WF c) {e : Element V} (he : e ∈ c.ll)
    (val : V) (expir : Time) (hf : upsertFits c e.Value.key val = true) :
    upsert c e.Value.key val expir =
      { c with ll := ⟨e.ptr, ⟨e.Value.key, val, expir⟩⟩ :: Remove c.ll e.ptr,
               nBytes := c.nBytes + (Value.Len val - Value.Len e.Value.value) } := by
  rw [upsert_of_mem h he]
  simp only [upsertFits, h.lookup_of_mem he, h.deref_mem he, decide_eq_true_eq] at hf
  rw [int64_of_InInt64 hf]

theorem WF_upsert [Value V] {c : Cache V} (h : WF c) (key : String) (val : V) (expir : Time) :
    WF (upsert c key val expir) := by
  cases hg : mapGet c.cache key with
  | none =>
    rw [upsert_of_absent val expir hg]
    exact h.push ⟨key, val, expir⟩ rfl hg rfl rfl rfl
  | some p =>
    obtain ⟨e, he, hp, hk, hd⟩ := h.of_mapGet hg
    simp only [upsert, hg, hd]
    have h1 : WF { c with ll := MoveToFront c.ll p } := h.moveToFront p rfl rfl rfl
    exact h1.assign p val expir rfl rfl rfl

theorem WF_evictLoop [Value V] (n : Nat) {c c' : Cache V} (h : WF c)
    (he : evictLoop n c = some c') : WF c' := by
  induction n generalizing c with
  | zero =>
    simp only [evictLoop] at he
    split at he
    · cases he
    · cases he; exact h
  | succ n ih =>
    simp only [evictLoop] at he
    split at he
    · exact ih (WF_RemoveOldest h) he
    · cases he; exact h

theorem WF_Add [Value V] {c c' : Cache V} (h : WF c) {key : String} {val : V} {expir : Time}
    (he : Add c key val expir = some c') : WF c' :=
  WF_evictLoop _ (WF_upsert h key val expir) he

/-! ## The eviction loop -/

theorem total_nil [Value V] : total ([] : List (Element V)) = 0 := rfl

theorem total_cons [Value V] (e : Element V) (l : List (Element V)) :
    total (e :: l) = e.Value.size + total l := by
  simp [total]

theorem total_append [Value V] (l1 l2 : List (Element V)) :
    total (l1 ++ l2) = total l1 + total l2 := by
  simp [total]

theorem total_perm [Value V] {l1 l2 : List (Element V)} (h : l1.Perm l2) :
    total l1 = total l2 :=
  (h.map _).sum_eq

theorem evictLoop_of_fits [Value V] (n : Nat) {c : Cache V}
    (h : ¬ (c.maxBytes ≠ 0 ∧ c.maxBytes < c.nBytes)) : evictLoop n c = some c := by
  cases n <;> simp only [evictLoop, if_neg h]

/-- What the loop has done when it exits: it removed a suffix of the order list, oldest
element first, stopping at the first moment the accounted size was within the limit. -/
theorem evictLoop_some [Value V] (n : Nat) {c c' : Cache V} (h : WF c)
    (hf : evictFits n c = true) (he : evictLoop n c = some c') :
    ∃ back, c.ll = c'.ll ++ back ∧
      c'.nBytes = c.nBytes - total back ∧
      c'.calls = c.calls ++ (if c.onEvicted then back.reverse.map evictedPair else []) ∧
      c'.maxBytes = c.maxBytes ∧ c'.onEvicted = c.onEvicted ∧ c'.nextPtr = c.nextPtr ∧
      ¬ (c.maxBytes ≠ 0 ∧ c.maxBytes < c'.nBytes) ∧
      (∀ b1 b2, back = b1 ++ b2 → b1 ≠ [] →
        c.maxBytes ≠ 0 ∧ c.maxBytes < c.nBytes - total b2) := by
  induction n generalizing c with
  | zero =>
    simp only [evictLoop] at he
    split at he
    · cases he
    · rename_i hc
      cases he
      refine ⟨[], by simp, by simp [total_nil], by simp, rfl, rfl, rfl, hc, ?_⟩
      intro b1 b2 hb hb1
      simp at hb
      exact absurd hb.1 hb1
  | succ n ih =>
    simp only [evictLoop] at he
    split at he
    · rename_i hc
      simp only [evictFits, if_pos hc, Bool.and_eq_true] at hf
      cases hb : Back c.ll with
      | none =>
        rw [RemoveOldest_of_empty (Back_none hb)] at he hf
        exact ih h hf.2 he
      | some e =>
        obtain ⟨back, h1, h2, h3, h4, h5, h6, h7, h8⟩ := ih (WF_RemoveOldest h) hf.2 he
        rw [RemoveOldest_of_fits h hb hf.1] at h1 h2 h3 h4 h5 h6 h7 h8
        simp only at h1 h2 h3 h4 h5 h6 h7 h8
        refine ⟨back ++ [e], ?_, ?_, ?_, h4, h5, h6, h7, ?_⟩
        · rw [← List.append_assoc, ← h1]
          exact Back_some hb
        · rw [h2, total_append, total_cons, total_nil]
          ring
        · rw [h3]
          unfold fire
          cases c.onEvicted <;> simp [evictedPair]
        · intro b1 b2 hsplit hb1
          rcases List.eq_nil_or_concat b2 with rfl | ⟨b2', x, rfl⟩
          · simpa [total_nil] using hc
          · rw [List.concat_eq_append, ← List.append_assoc] at hsplit
            have := List.append_inj' hsplit rfl
            obtain ⟨hx1, hx2⟩ := this
            simp only [List.cons.injEq, and_true] at hx2
            subst hx2
            have := h8 b1 b2' hx1 hb1
            refine ⟨this.1, ?_⟩
            have h9 := this.2
            rw [List.concat_eq_append, total_append, total_cons, total_nil]
            linarith
    · rename_i hc
      cases he
      refine ⟨[], by simp, by simp [total_nil], by simp, rfl, rfl, rfl, hc, ?_⟩
      intro b1 b2 hb hb1
      simp at hb
      exact absurd hb.1 hb1

/-- What the loop has done to the list when it exits, whatever the accounted sizes: it
removed a suffix of the order list, oldest element first, and the accounted size is then
within the limit. -/
theorem evictLoop_suffix [Value V] (n : Nat) {c c' : Cache V} (h : WF c)
    (he : evictLoop n c = some c') :
    ∃ back, c.ll = c'.ll ++ back ∧
      c'.calls = c.calls ++ (if c.onEvicted then back.reverse.map evictedPair else []) ∧
      c'.maxBytes = c.maxBytes ∧ c'.onEvicted = c.onEvicted ∧ c'.nextPtr = c.nextPtr ∧
      ¬ (c.maxBytes ≠ 0 ∧ c.maxBytes < c'.nBytes) := by
  induction n generalizing c with
  | zero =>
    simp only [evictLoop] at he
    split at he
    · cases he
    · rename_i hc
      cases he
      exact ⟨[], by simp, by simp, rfl, rfl, rfl, hc⟩
  | succ n ih =>
    simp only [evictLoop] at he
    split at he
    · cases hb : Back c.ll with
      | none =>
        rw [RemoveOldest_of_empty (Back_none hb)] at he
        exact ih h he
      | some e =>
        obtain ⟨back, h1, h3, h4, h5, h6, h7⟩ := ih (WF_RemoveOldest h) he
        rw [RemoveOldest_of_back h hb] at h1 h3 h4 h5 h6 h7
        simp only at h1 h3 h4 h5 h6 h7
        refine ⟨back ++ [e], ?_, ?_, h4, h5, h6, h7⟩
        · rw [← List.append_assoc, ← h1]
          exact Back_some hb
        · rw [h3]
          unfold fire
          cases c.onEvicted <;> simp [evictedPair]
    · rename_i hc
      cases he
      exact ⟨[], by simp, by simp, rfl, rfl, rfl, hc⟩

/-- The loop exits whenever the bytes accounted beyond the listed entries fit the limit and
the fuel covers the list. -/
theorem evictLoop_terminates [Value V] (n : Nat) {c : Cache V} (h : WF c)
    (hf : evictFits n c = true)
    (hlen : c.ll.length ≤ n) (hleak : c.nBytes - total c.ll ≤ c.maxBytes) :
    ∃ c', evictLoop n c = some c' := by
  induction n generalizing c with
  | zero =>
    have hnil : c.ll = [] := List.length_eq_zero.1 (Nat.le_zero.1 hlen)
    rw [hnil, total_nil] at hleak
    refine ⟨c, evictLoop_of_fits 0 ?_⟩
    intro hc
    linarith [hc.2]
  | succ n ih =>
    by_cases hc : c.maxBytes ≠ 0 ∧ c.maxBytes < c.nBytes
    · simp only [evictLoop, if_pos hc]
      simp only [evictFits, if_pos hc, Bool.and_eq_true] at hf
      cases hb : Back c.ll with
      | none =>
        have hnil := Back_none hb
        rw [hnil, total_nil] at hleak
        linarith [hc.2]
      | some e =>
        apply ih (WF_RemoveOldest h) hf.2
        · rw [RemoveOldest_of_back h hb]
          simp only [List.length_dropLast]
          omega
        · rw [RemoveOldest_of_fits h hb hf.1]
          simp only
          have hl := Back_some hb
          have ht : total c.ll = total c.ll.dropLast + e.Value.size := by
            conv_lhs => rw [hl]
            rw [total_append, total_cons, total_nil]
            ring
          linarith
    · exact ⟨c, evictLoop_of_fits _ hc⟩

/-- A loop that runs out of fuel equal to the list length never exits: more rounds do not
help, since `RemoveOldest` leaves an empty list as it is. -/
theorem evictLoop_none [Value V] (n : Nat) {c : Cache V} (h : WF c) (hlen : c.ll.length ≤ n)
    (he : evictLoop n c = none) (m : Nat) : evictLoop m c = none := by
  induction n generalizing c m with
  | zero =>
    have hnil : c.ll = [] := List.length_eq_zero.1 (Nat.le_zero.1 hlen)
    simp only [evictLoop] at he
    split at he
    · rename_i hc
      induction m with
      | zero => simp only [evictLoop, if_pos hc]
      | succ m ihm =>
        simp only [evictLoop, if_pos hc]
        rw [RemoveOldest_of_empty hnil]
        exact ihm
    · cases he
  | succ n ih =>
    simp only [evictLoop] at he
    split at he
    · rename_i hc
      have hlen' : (RemoveOldest c).ll.length ≤ n := by
        cases hb : Back c.ll with
        | none => rw [RemoveOldest_of_empty (Back_none hb), Back_none hb]; simp
        | some e =>
          rw [RemoveOldest_of_back h hb]
          simp only [List.length_dropLast]
          omega
      cases m with
      | zero => simp only [evictLoop, if_pos hc]
      | succ m =>
        simp only [evictLoop, if_pos hc]
        exact ih (WF_RemoveOldest h) hlen' he m
    · cases he

/-! ## Accounting -/

theorem size_nonneg [Value V] (kv : entry V) (h : 0 ≤ Value.Len kv.value) : 0 ≤ kv.size := by
  unfold entry.size
  have : (0 : Int) ≤ (kv.key.utf8ByteSize : Int) := Int.natCast_nonneg _
  linarith

theorem total_nonneg [Value V] {l : List (Element V)} (h : ∀ e ∈ l, 0 ≤ e.Value.size) :
    0 ≤ total l := by
  induction l with
  | nil => simp [total_nil]
  | cons a l ih =>
    rw [total_cons]
    have h1 := h a (List.mem_cons_self _ _)
    have h2 := ih (fun e he => h e (List.mem_cons_of_mem _ he))
    linarith

theorem total_Remove [Value V] {l : List (Element V)} (hnd : (l.map Element.ptr).Nodup)
    {e : Element V} (he : e ∈ l) : total l = e.Value.size + total (Remove l e.ptr) := by
  rw [← total_cons]
  exact (total_perm (Remove_perm hnd he)).symm

/-- The first statement of `Add` changes `nBytes` and the listed sizes by the same amount. -/
theorem upsert_leak [Value V] {c : Cache V} (h : WF c) (key : String) (val : V) (expir : Time)
    (hf : upsertFits c key val = true) :
    (upsert c key val expir).nBytes - total (upsert c key val expir).ll =
      c.nBytes - total c.ll := by
  cases hg : mapGet c.cache key with
  | none =>
    rw [upsert_of_absent_fits val expir hg hf]
    simp only [total_cons, entry.size]
    ring
  | some p =>
    obtain ⟨e, he, hp, hk, _⟩ := h.of_mapGet hg
    rw [← hk] at hf ⊢
    rw [upsert_of_mem_fits h he val expir hf]
    simp only [total_cons, entry.size]
    rw [total_Remove h.nodupPtr he]
    simp only [entry.size]
    ring

theorem upsert_maxBytes [Value V] (c : Cache V) (key : String) (val : V) (expir : Time) :
    (upsert c key val expir).maxBytes = c.maxBytes := by
  unfold upsert
  split
  · split <;> rfl
  · rfl

theorem upsert_onEvicted [Value V] (c : Cache V) (key : String) (val : V) (expir : Time) :
    (upsert c key val expir).onEvicted = c.onEvicted := by
  unfold upsert
  split
  · split <;> rfl
  · rfl

theorem upsert_calls [Value V] (c : Cache V) (key : String) (val : V) (expir : Time) :
    (upsert c key val expir).calls = c.calls := by
  unfold upsert
  split
  · split <;> rfl
  · rfl

/-- Every element of the list after the first statement of `Add` is an old element or holds
the value just passed. -/
theorem mem_upsert [Value V] {c : Cache V} (h : WF c) (key : String) (val : V) (expir : Time)
    {x : Element V} (hx : x ∈ (upsert c key val expir).ll) :
    x ∈ c.ll ∨ x.Value = ⟨key, val, expir⟩ := by
  cases hg : mapGet c.cache key with
  | none =>
    rw [upsert_of_absent val expir hg] at hx
    rcases List.mem_cons.1 hx with rfl | hx
    · exact Or.inr rfl
    · exact Or.inl hx
  | some p =>
    obtain ⟨e, he, hp, hk, _⟩ := h.of_mapGet hg
    rw [← hk, upsert_of_mem h he] at hx
    rcases List.mem_cons.1 hx with rfl | hx
    · exact Or.inr (by rw [hk])
    · exact Or.inl (mem_Remove.1 hx).1

/-- Every element of the list after a `Get` was in the list before. -/
theorem mem_of_mem_Get {c : Cache V} (h : WF c) (key : String) (now : Time) {x : Element V}
    (hx : x ∈ (Get c key now).2.ll) : x ∈ c.ll := by
  cases hg : mapGet c.cache key with
  | none => rwa [Get_of_absent now hg] at hx
  | some p =>
    obtain ⟨e, he, hp, hk, _⟩ := h.of_mapGet hg
    rw [← hk, Get_of_mem h he now] at hx
    split at hx
    · exact (mem_Remove.1 hx).1
    · rcases List.mem_cons.1 hx with rfl | hx
      · exact he
      · exact (mem_Remove.1 hx).1

theorem Get_nBytes (c : Cache V) (key : String) (now : Time) :
    (Get c key now).2.nBytes = c.nBytes := by
  unfold Get
  split
  · split
    · dsimp only
      split <;> rfl
    · rfl
  · rfl

theorem Get_maxBytes (c : Cache V) (key : String) (now : Time) :
    (Get c key now).2.maxBytes = c.maxBytes := by
  unfold Get
  split
  · split
    · dsimp only
      split <;> rfl
    · rfl
  · rfl

theorem RemoveOldest_maxBytes [Value V] (c : Cache V) : (RemoveOldest c).maxBytes = c.maxBytes := by
  unfold RemoveOldest
  split <;> rfl

/-! ## The capacity invariant -/

theorem Bounded_New [Value V] (M : Int) (hM : 0 < M) (onEvicted : Bool) :
    Bounded M (New V M onEvicted) :=
  ⟨WF_New M onEvicted, rfl, le_of_lt hM, by simp [New]⟩

theorem Bounded_Get [Value V] {M : Int} {c : Cache V} (h : Bounded M c) (key : String)
    (now : Time) : Bounded M (Get c key now).2 :=
  ⟨WF_Get h.wf key now, by rw [Get_maxBytes]; exact h.max, by rw [Get_nBytes]; exact h.le,
    fun e he => h.pos e (mem_of_mem_Get h.wf key now he)⟩

theorem Bounded_RemoveOldest [Value V] {M : Int} {c : Cache V} (h : Bounded M c)
    (hf : removeFits c = true) : Bounded M (RemoveOldest c) := by
  cases hb : Back c.ll with
  | none => rw [RemoveOldest_of_empty (Back_none hb)]; exact h
  | some e =>
    have hmem := mem_of_Back hb
    refine ⟨WF_RemoveOldest h.wf, by rw [RemoveOldest_maxBytes]; exact h.max, ?_, ?_⟩
    · rw [RemoveOldest_of_fits h.wf hb hf]
      simp only
      have := h.pos e hmem
      have := h.le
      linarith
    · rw [RemoveOldest_of_back h.wf hb]
      intro x hx
      exact h.pos x (List.mem_of_mem_dropLast hx)

theorem Bounded_Add [Value V] {M : Int} (hM : 0 < M) {c : Cache V} (h : Bounded M c)
    (key : String) (val : V) (expir : Time) (hv : 0 ≤ Value.Len val)
    (hf : addFits c key val expir = true) :
    ∃ c', Add c key val expir = some c' ∧ Bounded M c' := by
  simp only [addFits, Bool.and_eq_true] at hf
  have hwf := WF_upsert h.wf key val expir
  have hleak := upsert_leak h.wf key val expir hf.1
  have hmax := upsert_maxBytes c key val expir
  have hpos : ∀ e ∈ (upsert c key val expir).ll, 0 ≤ e.Value.size := by
    intro e he
    rcases mem_upsert h.wf key val expir he with h1 | h1
    · exact h.pos e h1
    · apply size_nonneg
      rw [h1]
      exact hv
  have hterm : ∃ c', evictLoop (upsert c key val expir).ll.length (upsert c key val expir)
      = some c' := by
    apply evictLoop_terminates _ hwf hf.2 (le_refl _)
    rw [hleak, hmax, h.max]
    have := total_nonneg h.pos
    have := h.le
    linarith
  obtain ⟨c', hc'⟩ := hterm
  obtain ⟨back, h1, _, _, h4, _, _, h7, _⟩ := evictLoop_some _ hwf hf.2 hc'
  refine ⟨c', hc', WF_evictLoop _ hwf hc', by rw [h4, hmax, h.max], ?_, ?_⟩
  · rw [hmax, h.max] at h7
    by_contra hlt
    exact h7 ⟨ne_of_gt hM, lt_of_not_le hlt⟩
  · intro e he
    apply hpos
    rw [h1]
    exact List.mem_append_left _ he

theorem Bounded_run [Value V] {M : Int} (hM : 0 < M) (ops : List (Op V)) {c : Cache V}
    (h : Bounded M c) (hv : ∀ op ∈ ops, op.nonneg = true) (hf : runFits c ops = true) :
    ∃ c', run c ops = some c' ∧ Bounded M c' := by
  induction ops generalizing c with
  | nil => exact ⟨c, rfl, h⟩
  | cons op ops ih =>
    have hv' : ∀ o ∈ ops, o.nonneg = true := fun o ho => hv o (List.mem_cons_of_mem _ ho)
    have hop := hv op (List.mem_cons_self _ _)
    simp only [runFits, Bool.and_eq_true] at hf
    cases op with
    | get key now =>
      simp only [run, step, Option.some_bind]
      exact ih (Bounded_Get h key now) hv' hf.2
    | add key val expir =>
      obtain ⟨c1, hc1, hb1⟩ := Bounded_Add hM h key val expir
        (by simpa [Op.nonneg] using hop) hf.1
      have hf2 := hf.2
      simp only [step, hc1] at hf2
      simp only [run, step, hc1, Option.some_bind]
      exact ih hb1 hv' hf2
    | removeOldest =>
      simp only [run, step, Option.some_bind]
      exact ih (Bounded_RemoveOldest h hf.1) hv' hf.2

/-! ## Stores filled by `Add` only -/

theorem Exact_New [Value V] (M : Int) (onEvicted : Bool) :
    Exact M onEvicted (New V M onEvicted) :=
  ⟨WF_New M onEvicted, rfl, rfl, rfl⟩

/-- `Add` on a store with exact accounting and a positive limit: it returns, and the loop
has cut the list after the insertion down to its longest leading part that fits. -/
theorem Exact_Add [Value V] {M : Int} (hM : 0 < M) {cb : Bool} {c : Cache V}
    (h : Exact M cb c) (key : String) (val : V) (expir : Time)
    (hf : addFits c key val expir = true) :
    ∃ c', Add c key val expir = some c' ∧ Exact M cb c' ∧
      ∃ back, (upsert c key val expir).ll = c'.ll ++ back ∧
        total c'.ll ≤ M ∧
        (∀ p, p <+: (upsert c key val expir).ll → total p ≤ M → p.length ≤ c'.ll.length) ∧
        c'.calls = c.calls ++ (if cb then back.reverse.map evictedPair else []) := by
  simp only [addFits, Bool.and_eq_true] at hf
  have hwf := WF_upsert h.wf key val expir
  have hleak := upsert_leak h.wf key val expir hf.1
  have hmax := upsert_maxBytes c key val expir
  have hexact : (upsert c key val expir).nBytes = total (upsert c key val expir).ll := by
    have := h.exact
    linarith
  have hterm : ∃ c', evictLoop (upsert c key val expir).ll.length (upsert c key val expir)
      = some c' := by
    apply evictLoop_terminates _ hwf hf.2 (le_refl _)
    rw [hleak, hmax, h.max, h.exact]
    linarith
  obtain ⟨c', hc'⟩ := hterm
  obtain ⟨back, h1, h2, h3, h4, h5, h6, h7, h8⟩ := evictLoop_some _ hwf hf.2 hc'
  have hex' : c'.nBytes = total c'.ll := by
    rw [h2, hexact, h1, total_append]
    ring
  have hle : c'.nBytes ≤ M := by
    rw [hmax, h.max] at h7
    by_contra hlt
    exact h7 ⟨ne_of_gt hM, lt_of_not_le hlt⟩
  refine ⟨c', hc', ⟨WF_evictLoop _ hwf hc', by rw [h4, hmax, h.max], ?_, hex'⟩, back, h1,
    by rw [← hex']; exact hle, ?_, ?_⟩
  · rw [h5, upsert_onEvicted, h.cb]
  · intro p hp hfit
    by_contra hlen
    have hlen' : c'.ll.length < p.length := lt_of_not_le hlen
    rw [h1] at hp
    obtain ⟨t, ht⟩ := hp
    have hpre : c'.ll <+: p := by
      apply List.prefix_of_prefix_length_le (List.prefix_append _ _) ⟨t, ht⟩
      exact le_of_lt hlen'
    obtain ⟨b1, hb1⟩ := hpre
    have hb1ne : b1 ≠ [] := by
      rintro rfl
      rw [List.append_nil] at hb1
      rw [hb1] at hlen'
      exact lt_irrefl _ hlen'
    have hback : back = b1 ++ t := by
      rw [← hb1, List.append_assoc] at ht
      exact (List.append_cancel_left ht).symm
    have := (h8 b1 t hback hb1ne).2
    rw [hmax, h.max, hexact, h1, hback, ← List.append_assoc, total_append, hb1] at this
    linarith
  · rw [h3, upsert_calls, upsert_onEvicted, h.cb]

theorem Exact_run [Value V] {M : Int} (hM : 0 < M) {cb : Bool} (ops : List (Op V))
    {c c' : Cache V} (h : Exact M cb c) (hadd : ∀ op ∈ ops, op.isAdd = true)
    (hf : runFits c ops = true) (hrun : run c ops = some c') : Exact M cb c' := by
  induction ops generalizing c with
  | nil =>
    simp only [run, Option.some.injEq] at hrun
    rw [← hrun]; exact h
  | cons op ops ih =>
    have hadd' : ∀ o ∈ ops, o.isAdd = true := fun o ho => hadd o (List.mem_cons_of_mem _ ho)
    have hop := hadd op (List.mem_cons_self _ _)
    cases op with
    | get key now => simp [Op.isAdd] at hop
    | removeOldest => simp [Op.isAdd] at hop
    | add key val expir =>
      simp only [runFits, Bool.and_eq_true] at hf
      obtain ⟨c1, hc1, hb1, _⟩ := Exact_Add hM h key val expir hf.1
      have hf2 := hf.2
      simp only [step, hc1] at hf2
      simp only [run, step, hc1, Option.some_bind] at hrun
      exact ih hb1 hadd' hf2 hrun

/-- In a well-formed store a key that no listed entry carries is not in the map. -/
theorem WF.mapGet_none_of_not_mem {c : Cache V} (h : WF c) {key : String}
    (hk : ∀ e ∈ c.ll, e.Value.key ≠ key) : mapGet c.cache key = none := by
  rw [mapGet_eq_none_iff]
  intro hmem
  have hmem' : key ∈ (index c.ll).map Prod.fst := (h.perm.map Prod.fst).mem_iff.1 hmem
  rw [index_map_fst] at hmem'
  obtain ⟨e, he, hek⟩ := List.mem_map.1 hmem'
  exact hk e he hek

theorem length_Remove {l : List (Element V)} (hnd : (l.map Element.ptr).Nodup) {e : Element V}
    (he : e ∈ l) : (Remove l e.ptr).length + 1 = l.length := by
  have := (Remove_perm hnd he).length_eq
  simpa using this

/-- After the first statement of `Add` the entry just passed heads the order list. -/
theorem upsert_head [Value V] {c : Cache V} (h : WF c) (key : String) (val : V) (expir : Time) :
    ∃ p rest, (upsert c key val expir).ll = ⟨p, ⟨key, val, expir⟩⟩ :: rest := by
  cases hg : mapGet c.cache key with
  | none =>
    rw [upsert_of_absent val expir hg]
    exact ⟨_, _, rfl⟩
  | some p =>
    obtain ⟨e, he, hp, hk, _⟩ := h.of_mapGet hg
    rw [← hk, upsert_of_mem h he]
    exact ⟨_, _, rfl⟩


/-- When no assignment to `nBytes` wraps around during a sequence of calls, none does during
its first `n` calls. -/
theorem runFits_take [Value V] (ops : List (Op V)) (c : Cache V) (n : Nat)
    (hf : runFits c ops = true) : runFits c (ops.take n) = true := by
  induction ops generalizing c n with
  | nil => simp [runFits]
  | cons op ops ih =>
    cases n with
    | zero => simp [runFits]
    | succ n =>
      simp only [runFits, Bool.and_eq_true] at hf
      simp only [List.take_succ_cons, runFits, Bool.and_eq_true]
      refine ⟨hf.1, ?_⟩
      cases hs : step c op with
      | none => rfl
      | some c1 =>
        have h2 := hf.2
        simp only [hs] at h2
        exact ih c1 n h2
/-! ## Unbounded stores without expiry -/

theorem Plain_New (onEvicted : Bool) : Plain (New V 0 onEvicted) :=
  ⟨WF_New 0 onEvicted, rfl, by simp [New]⟩

theorem not_expired_of_zero (kv : entry V) (now : Time) (h : kv.expire = Time.zero) :
    ¬ expired kv now = true := by
  rw [expired_iff]
  exact fun hx => hx.1 h

/-- On a store without expiry `Get` answers with the binding the store holds. -/
theorem Get_of_Agrees {c : Cache V} (h : Plain c) {f : String → Option V} (ha : Agrees c f)
    (k : String) (now : Time) : (Get c k now).1 = f k := by
  cases hf : f k with
  | none => rw [Get_of_absent now ((ha k).1 hf)]
  | some v =>
    obtain ⟨e, he, hk, hv⟩ := (ha k).2 v hf
    rw [← hk, Get_of_mem h.wf he now, if_neg (not_expired_of_zero _ now (h.zero e he)), hv]

/-- On a store without expiry `Get` removes nothing: it leaves the store alone or promotes
one element. -/
theorem Get_of_Plain {c : Cache V} (h : Plain c) (key : String) (now : Time) :
    (Get c key now).2.cache = c.cache ∧ (Get c key now).2.ll.Perm c.ll := by
  cases hg : mapGet c.cache key with
  | none =>
    rw [Get_of_absent now hg]
    exact ⟨rfl, List.Perm.refl _⟩
  | some p =>
    obtain ⟨e, he, hp, hk, _⟩ := h.wf.of_mapGet hg
    rw [← hk, Get_of_mem h.wf he now, if_neg (not_expired_of_zero _ now (h.zero e he))]
    exact ⟨rfl, Remove_perm h.wf.nodupPtr he⟩

theorem Plain_Get {c : Cache V} (h : Plain c) (key : String) (now : Time) :
    Plain (Get c key now).2 :=
  ⟨WF_Get h.wf key now, by rw [Get_maxBytes]; exact h.max,
    fun e he => h.zero e (mem_of_mem_Get h.wf key now he)⟩

theorem Agrees_Get {c : Cache V} (h : Plain c) {f : String → Option V} (ha : Agrees c f)
    (key : String) (now : Time) : Agrees (Get c key now).2 f := by
  obtain ⟨h1, h2⟩ := Get_of_Plain h key now
  intro k
  refine ⟨fun hf => by rw [h1]; exact (ha k).1 hf, ?_⟩
  intro v hf
  obtain ⟨e, he, hk, hv⟩ := (ha k).2 v hf
  exact ⟨e, h2.mem_iff.2 he, hk, hv⟩

theorem Add_of_unbounded [Value V] {c : Cache V} (h : c.maxBytes = 0) (key : String) (val : V)
    (expir : Time) : Add c key val expir = some (upsert c key val expir) := by
  apply evictLoop_of_fits
  rw [upsert_maxBytes, h]
  exact fun hx => hx.1 rfl

theorem Plain_upsert [Value V] {c : Cache V} (h : Plain c) (key : String) (val : V) :
    Plain (upsert c key val Time.zero) := by
  refine ⟨WF_upsert h.wf key val Time.zero, ?_, ?_⟩
  · rw [upsert_maxBytes]
    exact h.max
  · intro e he
    rcases mem_upsert h.wf key val Time.zero he with h1 | h1
    · exact h.zero e h1
    · rw [h1]

theorem Agrees_upsert [Value V] {c : Cache V} (h : Plain c) {f : String → Option V}
    (ha : Agrees c f) (key : String) (val : V) (expir : Time) :
    Agrees (upsert c key val expir) (fun k => if key = k then some val else f k) := by
  intro k
  by_cases hk : key = k
  · subst hk
    refine ⟨?_, ?_⟩
    · intro hf
      simp only [if_true] at hf
      cases hf
    · intro v hv
      simp only [if_true, Option.some.injEq] at hv
      subst hv
      obtain ⟨p, rest, hhead⟩ := upsert_head h.wf key val expir
      exact ⟨_, by rw [hhead]; exact List.mem_cons_self _ _, rfl, rfl⟩
  · simp only [if_neg hk]
    have hk' : k ≠ key := fun e => hk e.symm
    cases hg : mapGet c.cache key with
    | none =>
      rw [upsert_of_absent val expir hg]
      refine ⟨?_, ?_⟩
      · intro hf
        simp only [mapGet_mapSet, if_neg hk']
        exact (ha k).1 hf
      · intro v hf
        obtain ⟨e, he, hek, hev⟩ := (ha k).2 v hf
        exact ⟨e, List.mem_cons_of_mem _ he, hek, hev⟩
    | some p =>
      obtain ⟨e0, he0, hp, hk0, _⟩ := h.wf.of_mapGet hg
      rw [← hk0, upsert_of_mem h.wf he0]
      refine ⟨fun hf => (ha k).1 hf, ?_⟩
      intro v hf
      obtain ⟨e, he, hek, hev⟩ := (ha k).2 v hf
      refine ⟨e, List.mem_cons_of_mem _ (mem_Remove.2 ⟨he, ?_⟩), hek, hev⟩
      intro hpe
      have : e = e0 := ptr_inj h.wf.nodupPtr he he0 hpe
      rw [this, hk0] at hek
      exact hk hek

/-- A history of `Get` calls and of `Add` calls without expiry, run on an unbounded store that
holds the map `f`, returns a store that holds `f` overwritten by the history. -/
theorem Agrees_run [Value V] (ops : List (Op V)) {c : Cache V} (h : Plain c)
    {f : String → Option V} (ha : Agrees c f) (hp : ∀ op ∈ ops, op.plain = true) :
    ∃ c', run c ops = some c' ∧ Plain c' ∧
      Agrees c' (fun k => match lastAdded ops k with
        | some v => some v
        | none => f k) := by
  induction ops generalizing c f with
  | nil => exact ⟨c, rfl, h, ha⟩
  | cons op ops ih =>
    have hp' : ∀ o ∈ ops, o.plain = true := fun o ho => hp o (List.mem_cons_of_mem _ ho)
    have hop := hp op (List.mem_cons_self _ _)
    cases op with
    | removeOldest => simp [Op.plain] at hop
    | get key now =>
      obtain ⟨c', h1, h2, h3⟩ := ih (Plain_Get h key now) (Agrees_Get h ha key now) hp'
      refine ⟨c', by simp only [run, step, Option.some_bind]; exact h1, h2, ?_⟩
      have : (fun k => match lastAdded (Op.get key now :: ops) k with
          | some v => some v
          | none => f k) = (fun k => match lastAdded ops k with
          | some v => some v
          | none => f k) := by
        funext k
        simp only [lastAdded, Op.stores]
        cases lastAdded ops k <;> rfl
      rw [this]
      exact h3
    | add key val expir =>
      have hz : expir = Time.zero := by
        obtain ⟨t⟩ := expir
        simp only [Op.plain, Time.IsZero, beq_iff_eq] at hop
        rw [hop]; rfl
      subst hz
      obtain ⟨c', h1, h2, h3⟩ := ih (Plain_upsert h key val)
        (Agrees_upsert h ha key val Time.zero) hp'
      refine ⟨c', ?_, h2, ?_⟩
      · simp only [run, step, Add_of_unbounded h.max, Option.some_bind]
        exact h1
      · have : (fun k => match lastAdded (Op.add key val Time.zero :: ops) k with
            | some v => some v
            | none => f k) = (fun k => match lastAdded ops k with
            | some v => some v
            | none => if key = k then some val else f k) := by
          funext k
          simp only [lastAdded, Op.stores]
          cases lastAdded ops k with
          | some v => rfl
          | none =>
            by_cases hk : key = k <;> simp [hk]
        rw [this]
        exact h3

/-! ## Reachable stores -/

/-- Every store reached from `New` by calls that return is well formed. -/
theorem WF_run [Value V] (ops : List (Op V)) {c c' : Cache V} (h : WF c)
    (hrun : run c ops = some c') : WF c' := by
  induction ops generalizing c with
  | nil =>
    simp only [run, Option.some.injEq] at hrun
    rw [← hrun]; exact h
  | cons op ops ih =>
    cases op with
    | get key now =>
      simp only [run, step, Option.some_bind] at hrun
      exact ih (WF_Get h key now) hrun
    | removeOldest =>
      simp only [run, step, Option.some_bind] at hrun
      exact ih (WF_RemoveOldest h) hrun
    | add key val expir =>
      simp only [run, step] at hrun
      cases hadd : Add c key val expir with
      | none => rw [hadd] at hrun; simp at hrun
      | some c1 =>
        rw [hadd, Option.some_bind] at hrun
        exact ih (WF_Add h hadd) hrun


/-! ## An entry that fits is kept -/

/-- The loop does not evict the head of the order list when the head fits the limit together
with the bytes accounted beyond the listed entries. -/
theorem evictLoop_keeps_head [Value V] (n : Nat) {c : Cache V} (h : WF c)
    (hf : evictFits n c = true) (x : Element V) (rest : List (Element V))
    (hll : c.ll = x :: rest) (hlen : c.ll.length ≤ n)
    (hfit : c.maxBytes = 0 ∨ c.nBytes - total c.ll + x.Value.size ≤ c.maxBytes) :
    ∃ c' rest', evictLoop n c = some c' ∧ c'.ll = x :: rest' ∧
      c'.nBytes - total c'.ll = c.nBytes - total c.ll ∧
      c'.maxBytes = c.maxBytes ∧ c'.onEvicted = c.onEvicted := by
  induction n generalizing c rest with
  | zero =>
    rw [hll] at hlen
    simp at hlen
  | succ n ih =>
    by_cases hc : c.maxBytes ≠ 0 ∧ c.maxBytes < c.nBytes
    · simp only [evictFits, if_pos hc, Bool.and_eq_true] at hf
      have hsize : c.nBytes - total c.ll + x.Value.size ≤ c.maxBytes := by
        rcases hfit with h0 | h0
        · exact absurd h0 hc.1
        · exact h0
      have hrest : rest ≠ [] := by
        rintro rfl
        rw [hll, total_cons, total_nil] at hsize
        linarith [hc.2]
      cases hb : Back c.ll with
      | none =>
        rw [Back_none hb] at hll
        cases hll
      | some e =>
        have hl := Back_some hb
        have hdl : c.ll.dropLast = x :: rest.dropLast := by
          rw [hll]
          exact List.dropLast_cons_of_ne_nil hrest
        have ht : total c.ll = total c.ll.dropLast + e.Value.size := by
          conv_lhs => rw [hl]
          rw [total_append, total_cons, total_nil]
          ring
        have hrem := RemoveOldest_of_fits h hb hf.1
        obtain ⟨c', rest', h1, h2, h3, h4, h5⟩ := ih (WF_RemoveOldest h) hf.2 rest.dropLast
          (by rw [hrem]; exact hdl)
          (by
            rw [hrem]
            simp only [List.length_dropLast]
            omega)
          (by
            rw [hrem]
            simp only
            right
            linarith)
        refine ⟨c', rest', ?_, h2, ?_, ?_, ?_⟩
        · simp only [evictLoop, if_pos hc]
          exact h1
        · rw [h3, hrem]
          simp only
          linarith
        · rw [h4, hrem]
        · rw [h5, hrem]
    · exact ⟨c, rest, evictLoop_of_fits _ hc, hll, rfl, rfl, rfl⟩

/-- On a well-formed store, `Add` of an entry whose size fits the limit together with the
bytes accounted beyond the listed entries (or on an unbounded store), with no assignment to
`nBytes` wrapping around, returns with that entry at the front and the map pointing to it. -/
theorem Add_keeps_entry_that_fits [Value V] {c : Cache V} (h : WF c) (key : String) (val : V)
    (expir : Time) (hf : addFits c key val expir = true)
    (hfit : c.maxBytes = 0 ∨
      c.nBytes - total c.ll + ((key.utf8ByteSize : Int) + Value.Len val) ≤ c.maxBytes) :
    ∃ c' p rest, Add c key val expir = some c' ∧ WF c' ∧
      c'.ll = ⟨p, ⟨key, val, expir⟩⟩ :: rest ∧ mapGet c'.cache key = some p ∧
      c'.nBytes - total c'.ll = c.nBytes - total c.ll ∧
      c'.maxBytes = c.maxBytes ∧ c'.onEvicted = c.onEvicted := by
  simp only [addFits, Bool.and_eq_true] at hf
  obtain ⟨p, rest, hhead⟩ := upsert_head h key val expir
  have hwf := WF_upsert h key val expir
  have hleak := upsert_leak h key val expir hf.1
  obtain ⟨c', rest', h1, h2, h3, h4, h5⟩ := evictLoop_keeps_head _ hwf hf.2 _ rest hhead
    (le_refl _) (by
      rw [hleak, upsert_maxBytes]
      exact hfit)
  have hwf' : WF c' := WF_evictLoop _ hwf h1
  have hmem : (⟨p, ⟨key, val, expir⟩⟩ : Element V) ∈ c'.ll := by
    rw [h2]
    exact List.mem_cons_self _ _
  refine ⟨c', p, rest', h1, hwf', h2, hwf'.lookup_of_mem hmem, by rw [h3, hleak],
    by rw [h4, upsert_maxBytes], by rw [h5, upsert_onEvicted]⟩

/-- The same on a store with exact accounting: an entry whose own size fits is kept, and the
accounting stays exact. -/
theorem Exact_Add_keeps_entry [Value V] {M : Int} {cb : Bool} {c : Cache V}
    (h : Exact M cb c) (key : String) (val : V) (expir : Time)
    (hf : addFits c key val expir = true)
    (hfit : M = 0 ∨ (key.utf8ByteSize : Int) + Value.Len val ≤ M) :
    ∃ c' p rest, Add c key val expir = some c' ∧ Exact M cb c' ∧
      c'.ll = ⟨p, ⟨key, val, expir⟩⟩ :: rest := by
  obtain ⟨c', p, rest, h1, h2, h3, _, h5, h6, h7⟩ := Add_keeps_entry_that_fits h.wf key val
    expir hf (by
      rw [h.max, h.exact]
      rcases hfit with h0 | h0
      · exact Or.inl h0
      · right
        linarith)
  refine ⟨c', p, rest, h1, ⟨h2, h6.trans h.max, h7.trans h.cb, ?_⟩, h3⟩
  have := h.exact
  linarith
/-! # The claims -/

/-- C1 (violated by the code): `nBytes` should equal the summed sizes of the entries still in
the store.  On an unbounded store, `Add("k", "v")` with expiry instant 1 followed by
`Get("k")` at instant 2 removes the only entry, so the store is empty and the sum is 0, but
`nBytes` is still 2: `removeElement` does not subtract the entry's size. -/
theorem C1_expired_Get_keeps_nBytes :
    (run (New String 0 false) [Op.add "k" "v" ⟨1⟩, Op.get "k" ⟨2⟩]).map
      (fun c => (Len c, total c.ll, c.nBytes)) = some (0, 0, 2) := by
  decide

/-- C2 as stated fails: the sums of `int64` wrap around.  On a store with `maxBytes = 10`,
`Add("k", v)` with `v.Len() = 2^63 - 1` accounts `1 + (2^63 - 1)`, which wraps to `-2^63`, so
nothing is evicted; `Add("a", w)` with `w.Len() = 99` brings `nBytes` to `-2^63 + 100`; and
`RemoveOldest()` then subtracts the size of `k`, which leaves `nBytes = 100 > 10`.  All the
values have a non-negative `Len()`. -/
theorem C2_counterexample :
    (∀ op ∈ [Op.add "k" (⟨9223372036854775807⟩ : Sized) Time.zero,
        Op.add "a" ⟨99⟩ Time.zero, Op.removeOldest], Op.nonneg op = true) ∧
    (run (New Sized 10 false) [Op.add "k" ⟨9223372036854775807⟩ Time.zero,
        Op.add "a" ⟨99⟩ Time.zero, Op.removeOldest]).map
      (fun c => (c.maxBytes, c.nBytes, c.ll.map (fun e => e.Value.key))) =
      some (10, 100, ["a"]) := by
  decide

/-- C2, as amended: in a store with `maxBytes = M > 0` whose values have a non-negative
`Len()`, every sequence of `Get`, `Add` and `RemoveOldest` calls during which no assignment
to `nBytes` wraps around returns, and after each call of the sequence `nBytes ≤ M`. -/
theorem C2_nBytes_le_maxBytes [Value V] (M : Int) (hM : 0 < M) (onEvicted : Bool)
    (ops : List (Op V)) (hv : ∀ op ∈ ops, op.nonneg = true)
    (hf : runFits (New V M onEvicted) ops = true) (n : Nat) :
    ∃ c, run (New V M onEvicted) (ops.take n) = some c ∧ c.nBytes ≤ M := by
  obtain ⟨c, hc, hb⟩ := Bounded_run hM (ops.take n) (Bounded_New M hM onEvicted)
    (fun op hop => hv op (List.mem_of_mem_take hop)) (runFits_take ops _ n hf)
  exact ⟨c, hc, hb.le⟩

/-- Witness of C2: a store of 10 bytes, an `Add`, an expired `Get`, a `RemoveOldest` and a
second `Add`. -/
theorem C2_nBytes_le_maxBytes_witness :
    (0 : Int) < 10 ∧
    (∀ op ∈ [Op.add "a" "1234" ⟨1⟩, Op.get "a" ⟨2⟩, Op.removeOldest, Op.add "b" "123456789" ⟨0⟩],
      Op.nonneg op = true) ∧
    runFits (New String 10 true)
      [Op.add "a" "1234" ⟨1⟩, Op.get "a" ⟨2⟩, Op.removeOldest, Op.add "b" "123456789" ⟨0⟩] =
      true ∧
    ∃ c, run (New String 10 true)
        ([Op.add "a" "1234" ⟨1⟩, Op.get "a" ⟨2⟩, Op.removeOldest,
          Op.add "b" "123456789" ⟨0⟩].take 4) = some c ∧ c.nBytes ≤ 10 :=
  have hv : ∀ op ∈ [Op.add "a" "1234" ⟨1⟩, Op.get "a" ⟨2⟩, Op.removeOldest,
      Op.add "b" "123456789" ⟨0⟩], Op.nonneg op = true := by
    intro op hop
    simp only [List.mem_cons, List.mem_singleton, List.not_mem_nil, or_false] at hop
    rcases hop with rfl | rfl | rfl | rfl <;> decide
  ⟨by decide, hv, by decide, C2_nBytes_le_maxBytes 10 (by decide) true _ hv (by decide) 4⟩

/-- C3 as stated fails: the sums of `int64` wrap around.  On the store fresh from `New(10)`,
`Add("k", v)` with `v.Len() = 2^63 - 1` accounts `1 + (2^63 - 1)`, which wraps to `-2^63`; the
loop sees `10 < -2^63` false and evicts nothing, so the entry survives although its size,
`2^63`, is above the limit 10. -/
theorem C3_counterexample :
    (Add (New Sized 10 false) "k" ⟨9223372036854775807⟩ Time.zero).map
      (fun c => (c.nBytes, c.ll.map (fun e => e.Value.key), total c.ll)) =
      some (-9223372036854775808, ["k"], 9223372036854775808) := by
  decide

/-- C3, as amended: eviction on `Add` is strictly least-recently-used.  In a store with
`maxBytes = M > 0` reached by `Add` calls only, with no assignment to `nBytes` wrapping around
in those calls or in this one, `Add` returns; the entries that survive are a leading part
(most recently used first) of the order list as it stood right after the insertion or
promotion, its accounted size is at most `M`, and no longer leading part has a size of at
most `M`; every entry behind it is gone from the list and from the map, and the callback has
received those entries oldest first. -/
theorem C3_Add_evicts_least_recently_used [Value V] (M : Int) (hM : 0 < M) (cb : Bool)
    (ops : List (Op V)) (hadd : ∀ op ∈ ops, op.isAdd = true)
    (hf : runFits (New V M cb) ops = true) (c : Cache V)
    (hrun : run (New V M cb) ops = some c) (key : String) (val : V) (expir : Time)
    (hfa : addFits c key val expir = true) :
    ∃ c' back, Add c key val expir = some c' ∧
      (upsert c key val expir).ll = c'.ll ++ back ∧
      total c'.ll ≤ M ∧
      (∀ p, p <+: (upsert c key val expir).ll → total p ≤ M → p.length ≤ c'.ll.length) ∧
      (∀ e ∈ c'.ll, mapGet c'.cache e.Value.key = some e.ptr) ∧
      (∀ e ∈ back, mapGet c'.cache e.Value.key = none) ∧
      c'.calls = c.calls ++ (if cb then back.reverse.map evictedPair else []) := by
  have hc : Exact M cb c := Exact_run hM ops (Exact_New M cb) hadd hf hrun
  obtain ⟨c', hc', hex, back, h1, h2, h3, h4⟩ := Exact_Add hM hc key val expir hfa
  refine ⟨c', back, hc', h1, h2, h3, fun e he => hex.wf.lookup_of_mem he, ?_, h4⟩
  intro e he
  apply hex.wf.mapGet_none_of_not_mem
  intro x hx hxe
  have hwf := WF_upsert hc.wf key val expir
  have hx' : x ∈ (upsert c key val expir).ll := by rw [h1]; exact List.mem_append_left _ hx
  have he' : e ∈ (upsert c key val expir).ll := by rw [h1]; exact List.mem_append_right _ he
  have hxe' : x = e := hwf.key_inj hx' he' hxe
  subst hxe'
  have hnd : (c'.ll ++ back).Nodup := by
    rw [← h1]
    exact List.Nodup.of_map _ hwf.nodupPtr
  exact (List.nodup_append.1 hnd).2.2 hx he

/-- Witness of C3, the scenario of `TestRemoveOldest`: with a limit of
`len("key1"+"key2"+"value1"+"value2") = 20` bytes, adding `key1`, `key2` and then `k3`
evicts `key1`; afterwards `Get("key1")` is absent and `Len()` is 2. -/
theorem C3_Add_evicts_least_recently_used_witness :
    (0 : Int) < 20 ∧
    (∀ op ∈ [Op.add "key1" "value1" Time.zero, Op.add "key2" "value2" Time.zero],
      Op.isAdd op = true) ∧
    runFits (New String 20 false)
      [Op.add "key1" "value1" Time.zero, Op.add "key2" "value2" Time.zero] = true ∧
    run (New String 20 false) [Op.add "key1" "value1" Time.zero, Op.add "key2" "value2" Time.zero]
      = some ⟨20, 20, [⟨1, ⟨"key2", "value2", Time.zero⟩⟩, ⟨0, ⟨"key1", "value1", Time.zero⟩⟩],
          [("key2", 1), ("key1", 0)], false, [], 2⟩ ∧
    addFits (⟨20, 20, [⟨1, ⟨"key2", "value2", Time.zero⟩⟩, ⟨0, ⟨"key1", "value1", Time.zero⟩⟩],
      [("key2", 1), ("key1", 0)], false, [], 2⟩ : Cache String) "k3" "v3" Time.zero = true ∧
    (∃ c' back,
      Add (⟨20, 20, [⟨1, ⟨"key2", "value2", Time.zero⟩⟩, ⟨0, ⟨"key1", "value1", Time.zero⟩⟩],
          [("key2", 1), ("key1", 0)], false, [], 2⟩ : Cache String) "k3" "v3" Time.zero
        = some c' ∧
      (upsert (⟨20, 20, [⟨1, ⟨"key2", "value2", Time.zero⟩⟩,
          ⟨0, ⟨"key1", "value1", Time.zero⟩⟩], [("key2", 1), ("key1", 0)], false, [], 2⟩ :
          Cache String) "k3" "v3" Time.zero).ll = c'.ll ++ back ∧
      total c'.ll ≤ 20 ∧
      (∀ p, p <+: (upsert (⟨20, 20, [⟨1, ⟨"key2", "value2", Time.zero⟩⟩,
          ⟨0, ⟨"key1", "value1", Time.zero⟩⟩], [("key2", 1), ("key1", 0)], false, [], 2⟩ :
          Cache String) "k3" "v3" Time.zero).ll → total p ≤ 20 → p.length ≤ c'.ll.length) ∧
      (∀ e ∈ c'.ll, mapGet c'.cache e.Value.key = some e.ptr) ∧
      (∀ e ∈ back, mapGet c'.cache e.Value.key = none) ∧
      c'.calls = [] ++ (if false then back.reverse.map evictedPair else [])) ∧
    (run (New String 20 false) [Op.add "key1" "value1" Time.zero,
        Op.add "key2" "value2" Time.zero, Op.add "k3" "v3" Time.zero]).map
      (fun c => ((Get c "key1" ⟨5⟩).1, Len (Get c "key1" ⟨5⟩).2)) = some (none, 2) :=
  have hadd : ∀ op ∈ [Op.add "key1" "value1" Time.zero, Op.add "key2" "value2" Time.zero],
      Op.isAdd op = true := by
    intro op hop
    simp only [List.mem_cons, List.mem_singleton, List.not_mem_nil, or_false] at hop
    rcases hop with rfl | rfl <;> rfl
  ⟨by decide, hadd, by decide, by decide, by decide,
    C3_Add_evicts_least_recently_used 20 (by decide) false _ hadd (by decide) _ (by decide)
      "k3" "v3" Time.zero (by decide), by decide⟩

/-- C4: in a well-formed store, `Get` of a key whose entry is present and not expired (its
expiry is the zero instant or is not strictly before `now`) returns that entry's value,
moves the entry to the front of the order list keeping the order of all other entries, and
leaves the map, `Len()`, `nBytes` and every stored entry as they were. -/
theorem C4_Get_hit_promotes (c : Cache V) (h : WF c) (pre post : List (Element V))
    (e : Element V) (hll : c.ll = pre ++ e :: post) (now : Time)
    (hlive : e.Value.expire = Time.zero ∨ ¬ e.Value.expire.nsec < now.nsec) :
    Get c e.Value.key now = (some e.Value.value, { c with ll := e :: (pre ++ post) }) ∧
    Len (Get c e.Value.key now).2 = Len c ∧
    (Get c e.Value.key now).2.nBytes = c.nBytes := by
  have he : e ∈ c.ll := by rw [hll]; simp
  have hnot : ¬ expired e.Value now = true := by
    rw [expired_iff]
    rintro ⟨h1, h2⟩
    rcases hlive with h3 | h3
    · exact h1 h3
    · exact h3 h2
  have hrem : Remove c.ll e.ptr = pre ++ post := by
    have hnd := h.nodupPtr
    rw [hll] at hnd ⊢
    exact Remove_split hnd
  have hget := Get_of_mem h he now
  rw [if_neg hnot, hrem] at hget
  refine ⟨hget, ?_, ?_⟩
  · rw [hget]
    simp only [Len, hll, List.length_cons, List.length_append]
    omega
  · rw [hget]

/-- Witness of C4: `Get("a")` on the store holding `b`, `a`, `c` in that order. -/
theorem C4_Get_hit_promotes_witness :
    WF (⟨0, 6, [⟨1, ⟨"b", "2", Time.zero⟩⟩, ⟨0, ⟨"a", "1", ⟨7⟩⟩⟩, ⟨2, ⟨"c", "3", Time.zero⟩⟩],
      [("b", 1), ("a", 0), ("c", 2)], false, [], 3⟩ : Cache String) ∧
    Get (⟨0, 6, [⟨1, ⟨"b", "2", Time.zero⟩⟩, ⟨0, ⟨"a", "1", ⟨7⟩⟩⟩, ⟨2, ⟨"c", "3", Time.zero⟩⟩],
      [("b", 1), ("a", 0), ("c", 2)], false, [], 3⟩ : Cache String) "a" ⟨7⟩ =
      (some "1", ⟨0, 6, [⟨0, ⟨"a", "1", ⟨7⟩⟩⟩, ⟨1, ⟨"b", "2", Time.zero⟩⟩,
        ⟨2, ⟨"c", "3", Time.zero⟩⟩], [("b", 1), ("a", 0), ("c", 2)], false, [], 3⟩) :=
  have hwf : WF (⟨0, 6, [⟨1, ⟨"b", "2", Time.zero⟩⟩, ⟨0, ⟨"a", "1", ⟨7⟩⟩⟩,
      ⟨2, ⟨"c", "3", Time.zero⟩⟩], [("b", 1), ("a", 0), ("c", 2)], false, [], 3⟩ :
      Cache String) :=
    ⟨List.Perm.refl _, by decide, by decide, by decide⟩
  ⟨hwf, (C4_Get_hit_promotes _ hwf [⟨1, ⟨"b", "2", Time.zero⟩⟩] [⟨2, ⟨"c", "3", Time.zero⟩⟩]
    ⟨0, ⟨"a", "1", ⟨7⟩⟩⟩ rfl ⟨7⟩ (Or.inr (by decide))).1⟩

/-- C5 as stated fails: on a store with `maxBytes = 1`, `Add("key1", "k1")` accounts 6 bytes
and the loop evicts the entry just added, so the key is neither in the list nor in the map. -/
theorem C5_counterexample :
    (Add (New String 1 false) "key1" "k1" Time.zero).map
      (fun c => (c.ll, mapGet c.cache "key1")) = some ([], none) := by
  decide

/-- C5, as amended: an entry that fits is kept in front.  On a well-formed store (any
`maxBytes`), for `Add(k, v, e)` during which no assignment to `nBytes` wraps around: when
`maxBytes = 0`, or when `len(k) + v.Len()` fits `maxBytes` together with the bytes that
`nBytes` holds beyond the sizes of the listed entries (none in a store whose `nBytes` is the
sum of those sizes), `Add` returns, the entry `⟨k, v, e⟩` heads the order list and the map
sends `k` to it, other entries having been evicted if need be.  And whatever the sizes,
whenever `Add` returns with a non-empty store, that entry heads the list and the map sends
`k` to it. -/
theorem C5_Add_keeps_a_fitting_entry_in_front [Value V] (c : Cache V) (h : WF c)
    (key : String) (val : V) (expir : Time) :
    (addFits c key val expir = true →
      (c.maxBytes = 0 ∨
        c.nBytes - total c.ll + ((key.utf8ByteSize : Int) + Value.Len val) ≤ c.maxBytes) →
      ∃ c' p rest, Add c key val expir = some c' ∧
        c'.ll = ⟨p, ⟨key, val, expir⟩⟩ :: rest ∧ mapGet c'.cache key = some p) ∧
    (∀ c', Add c key val expir = some c' → c'.ll ≠ [] →
      ∃ p rest, c'.ll = ⟨p, ⟨key, val, expir⟩⟩ :: rest ∧ mapGet c'.cache key = some p) := by
  constructor
  · intro hf hfit
    obtain ⟨c', p, rest, h1, _, h3, h4, _⟩ := Add_keeps_entry_that_fits h key val expir hf hfit
    exact ⟨c', p, rest, h1, h3, h4⟩
  · have hwf := WF_upsert h key val expir
    obtain ⟨p, rest, hhead⟩ := upsert_head h key val expir
    intro c' hadd hne
    obtain ⟨back, h1, _⟩ := evictLoop_suffix _ hwf hadd
    rw [hhead] at h1
    cases hl : c'.ll with
    | nil => exact absurd hl hne
    | cons x xs =>
      rw [hl, List.cons_append] at h1
      simp only [List.cons.injEq] at h1
      refine ⟨p, xs, by rw [h1.1], ?_⟩
      have hx : x ∈ c'.ll := by rw [hl]; simp
      have := (WF_Add h hadd).lookup_of_mem hx
      rw [← h1.1] at this
      exact this

/-- Witness of C5 (amended), the third `Add` of `TestRemoveOldest`: the store of 20 bytes is
full with `key2` and `key1`; `Add("k3", "v3")` evicts `key1` and leaves `k3` in front. -/
theorem C5_Add_keeps_a_fitting_entry_in_front_witness :
    WF (⟨20, 20, [⟨1, ⟨"key2", "value2", Time.zero⟩⟩, ⟨0, ⟨"key1", "value1", Time.zero⟩⟩],
      [("key2", 1), ("key1", 0)], false, [], 2⟩ : Cache String) ∧
    addFits (⟨20, 20, [⟨1, ⟨"key2", "value2", Time.zero⟩⟩, ⟨0, ⟨"key1", "value1", Time.zero⟩⟩],
      [("key2", 1), ("key1", 0)], false, [], 2⟩ : Cache String) "k3" "v3" Time.zero = true ∧
    ((20 : Int) = 0 ∨
      (20 : Int) - total [(⟨1, ⟨"key2", "value2", Time.zero⟩⟩ : Element String),
          ⟨0, ⟨"key1", "value1", Time.zero⟩⟩] +
        ((("k3".utf8ByteSize : Nat) : Int) + Value.Len "v3") ≤ 20) ∧
    Add (⟨20, 20, [⟨1, ⟨"key2", "value2", Time.zero⟩⟩, ⟨0, ⟨"key1", "value1", Time.zero⟩⟩],
      [("key2", 1), ("key1", 0)], false, [], 2⟩ : Cache String) "k3" "v3" Time.zero =
      some ⟨20, 14, [⟨2, ⟨"k3", "v3", Time.zero⟩⟩, ⟨1, ⟨"key2", "value2", Time.zero⟩⟩],
        [("k3", 2), ("key2", 1)], false, [], 3⟩ ∧
    (∃ c' p rest,
      Add (⟨20, 20, [⟨1, ⟨"key2", "value2", Time.zero⟩⟩, ⟨0, ⟨"key1", "value1", Time.zero⟩⟩],
        [("key2", 1), ("key1", 0)], false, [], 2⟩ : Cache String) "k3" "v3" Time.zero =
        some c' ∧
      c'.ll = ⟨p, ⟨"k3", "v3", Time.zero⟩⟩ :: rest ∧ mapGet c'.cache "k3" = some p) :=
  have hwf : WF (⟨20, 20, [⟨1, ⟨"key2", "value2", Time.zero⟩⟩,
      ⟨0, ⟨"key1", "value1", Time.zero⟩⟩], [("key2", 1), ("key1", 0)], false, [], 2⟩ :
      Cache String) :=
    ⟨List.Perm.refl _, by decide, by decide, by decide⟩
  ⟨hwf, by decide, Or.inr (by decide), by decide,
    (C5_Add_keeps_a_fitting_entry_in_front _ hwf "k3" "v3" Time.zero).1 (by decide)
      (Or.inr (by decide))⟩

/-- C6: lazy expiry on `Get`.  For a key present in a well-formed store with expiry `e`,
`Get` returns absent exactly when `e` is not the zero instant and is strictly before `now`;
in that case the entry is gone from the list and the map, `Len()` has dropped by one and the
callback, when there is one, has been invoked once more, with the entry's key and value.
Otherwise `Get` returns the value and the entry stays in the list and the map, with no
callback invocation. -/
theorem C6_Get_lazy_expiry (c : Cache V) (h : WF c) (e : Element V) (he : e ∈ c.ll)
    (now : Time) :
    ((Get c e.Value.key now).1 = none ↔
      (e.Value.expire ≠ Time.zero ∧ e.Value.expire.nsec < now.nsec)) ∧
    (e.Value.expire ≠ Time.zero ∧ e.Value.expire.nsec < now.nsec →
      (∀ x ∈ (Get c e.Value.key now).2.ll, x.Value.key ≠ e.Value.key) ∧
      mapGet (Get c e.Value.key now).2.cache e.Value.key = none ∧
      Len (Get c e.Value.key now).2 + 1 = Len c ∧
      (Get c e.Value.key now).2.calls =
        c.calls ++ (if c.onEvicted then [(e.Value.key, e.Value.value)] else [])) ∧
    (¬ (e.Value.expire ≠ Time.zero ∧ e.Value.expire.nsec < now.nsec) →
      (Get c e.Value.key now).1 = some e.Value.value ∧
      e ∈ (Get c e.Value.key now).2.ll ∧
      mapGet (Get c e.Value.key now).2.cache e.Value.key = some e.ptr ∧
      Len (Get c e.Value.key now).2 = Len c ∧
      (Get c e.Value.key now).2.calls = c.calls) := by
  have hget := Get_of_mem h he now
  have hwf := WF_Get h e.Value.key now
  rw [← expired_iff]
  by_cases hx : expired e.Value now = true
  · rw [if_pos hx] at hget
    have hgone : ∀ x ∈ (Get c e.Value.key now).2.ll, x.Value.key ≠ e.Value.key := by
      intro x hxm hk
      rw [hget] at hxm
      have hm := mem_Remove.1 hxm
      exact hm.2 (by rw [h.key_inj hm.1 he hk])
    refine ⟨?_, ?_, ?_⟩
    · rw [hget]
      simp [hx]
    · intro _
      refine ⟨hgone, hwf.mapGet_none_of_not_mem hgone, ?_, ?_⟩
      · rw [hget]
        exact length_Remove h.nodupPtr he
      · rw [hget]
        simp only [fire]
        cases c.onEvicted <;> simp
    · intro hn
      exact absurd hx hn
  · rw [if_neg hx] at hget
    refine ⟨?_, ?_, ?_⟩
    · rw [hget]
      simp [hx]
    · intro hp
      exact absurd hp hx
    · intro _
      have hmem : e ∈ (Get c e.Value.key now).2.ll := by
        rw [hget]
        exact List.mem_cons_self _ _
      refine ⟨by rw [hget], hmem, hwf.lookup_of_mem hmem, ?_, by rw [hget]⟩
      rw [hget]
      have := length_Remove h.nodupPtr he
      simpa [Len] using this

/-- Witness of C6: an entry with expiry instant 5, read at instant 6. -/
theorem C6_Get_lazy_expiry_witness :
    WF (⟨0, 2, [⟨0, ⟨"k", "v", ⟨5⟩⟩⟩], [("k", 0)], true, [], 1⟩ : Cache String) ∧
    (⟨0, ⟨"k", "v", ⟨5⟩⟩⟩ : Element String) ∈
      (⟨0, 2, [⟨0, ⟨"k", "v", ⟨5⟩⟩⟩], [("k", 0)], true, [], 1⟩ : Cache String).ll ∧
    ((Get (⟨0, 2, [⟨0, ⟨"k", "v", ⟨5⟩⟩⟩], [("k", 0)], true, [], 1⟩ : Cache String) "k" ⟨6⟩).1
      = none ↔ ((⟨5⟩ : Time) ≠ Time.zero ∧ (5 : Int) < 6)) :=
  have hwf : WF (⟨0, 2, [⟨0, ⟨"k", "v", ⟨5⟩⟩⟩], [("k", 0)], true, [], 1⟩ : Cache String) :=
    ⟨List.Perm.refl _, by decide, by decide, by decide⟩
  ⟨hwf, List.mem_cons_self _ _,
    (C6_Get_lazy_expiry _ hwf ⟨0, ⟨"k", "v", ⟨5⟩⟩⟩ (List.mem_cons_self _ _) ⟨6⟩).1⟩

/-- C7: on a well-formed store whose order list ends with `e`, `RemoveOldest` unlinks `e`
and nothing else, deletes the key of `e` from the map and no other key, lowers `nBytes` by
`len(key) + value.Len()` of `e` (an `int64` subtraction: `nBytes` is that difference exactly
whenever the difference is a value of `int64`), and invokes the callback, when there is one,
once with the key and value of `e`; on an empty store it changes nothing. -/
theorem C7_RemoveOldest_removes_back [Value V] (c : Cache V) (h : WF c) :
    (∀ front e, c.ll = front ++ [e] →
      RemoveOldest c =
        { c with ll := front, cache := mapDelete c.cache e.Value.key,
                 nBytes := int64 (c.nBytes -
                   ((e.Value.key.utf8ByteSize : Int) + Value.Len e.Value.value)),
                 calls := c.calls ++
                   (if c.onEvicted then [(e.Value.key, e.Value.value)] else []) } ∧
      (InInt64 (c.nBytes - ((e.Value.key.utf8ByteSize : Int) + Value.Len e.Value.value)) →
        (RemoveOldest c).nBytes =
          c.nBytes - ((e.Value.key.utf8ByteSize : Int) + Value.Len e.Value.value)) ∧
      mapGet (RemoveOldest c).cache e.Value.key = none ∧
      ∀ k, k ≠ e.Value.key → mapGet (RemoveOldest c).cache k = mapGet c.cache k) ∧
    (c.ll = [] → RemoveOldest c = c) := by
  constructor
  · intro front e hll
    have hb : Back c.ll = some e := by
      rw [hll]
      simp [Back]
    have hr := RemoveOldest_of_back h hb
    have hfront : c.ll.dropLast = front := by
      rw [hll]
      simp
    have hcalls : fire c e.Value =
        c.calls ++ (if c.onEvicted then [(e.Value.key, e.Value.value)] else []) := by
      unfold fire
      cases c.onEvicted <;> simp
    rw [hfront, hcalls] at hr
    refine ⟨hr, ?_, ?_, ?_⟩
    · intro hin
      rw [hr]
      exact int64_of_InInt64 hin
    · rw [hr]
      simp [mapGet_mapDelete]
    · intro k hk
      rw [hr]
      simp [mapGet_mapDelete, hk]
  · exact RemoveOldest_of_empty

/-- Witness of C7: the store holding `b` in front of `a`. -/
theorem C7_RemoveOldest_removes_back_witness :
    WF (⟨0, 4, [⟨1, ⟨"b", "2", Time.zero⟩⟩, ⟨0, ⟨"a", "1", Time.zero⟩⟩],
      [("b", 1), ("a", 0)], true, [], 2⟩ : Cache String) ∧
    RemoveOldest (⟨0, 4, [⟨1, ⟨"b", "2", Time.zero⟩⟩, ⟨0, ⟨"a", "1", Time.zero⟩⟩],
      [("b", 1), ("a", 0)], true, [], 2⟩ : Cache String) =
      ⟨0, 2, [⟨1, ⟨"b", "2", Time.zero⟩⟩], [("b", 1)], true, [("a", "1")], 2⟩ :=
  have hwf : WF (⟨0, 4, [⟨1, ⟨"b", "2", Time.zero⟩⟩, ⟨0, ⟨"a", "1", Time.zero⟩⟩],
      [("b", 1), ("a", 0)], true, [], 2⟩ : Cache String) :=
    ⟨List.Perm.refl _, by decide, by decide, by decide⟩
  ⟨hwf, ((C7_RemoveOldest_removes_back _ hwf).1 [⟨1, ⟨"b", "2", Time.zero⟩⟩]
    ⟨0, ⟨"a", "1", Time.zero⟩⟩ rfl).1.trans (by decide)⟩

/-- C8 (violated by the code): in the scenario of `TestOnEvicted`, a store with
`maxBytes = 1` and a callback collecting the evicted keys, each of the four `Add` calls
accounts 6 bytes and evicts the entry it has just added, so the callback receives
`key1`, `key2`, `key3`, `key4`, not `key3`, `key4`. -/
theorem C8_TestOnEvicted_keys :
    (run (New String 1 true) [Op.add "key1" "k1" Time.zero, Op.add "key2" "k2" Time.zero,
        Op.add "key3" "k3" Time.zero, Op.add "key4" "k4" Time.zero]).map
      (fun c => c.calls.map Prod.fst) = some ["key1", "key2", "key3", "key4"] := by
  decide

/-- C9: update in place.  On a well-formed store holding key `k` with old value `o`, an
`Add(k, v, e)` after which the loop has nothing to evict returns the store with the value of
`k` replaced by `v` and its expiry by `e` (the element being promoted to the front, all others
keeping their order), `nBytes` changed by exactly `v.Len() - o.Len()` (an `int64` sum:
`nBytes` is that sum exactly whenever the sum is a value of `int64`), and `Len()`
unchanged. -/
theorem C9_Add_updates_in_place [Value V] (c : Cache V) (h : WF c)
    (pre post : List (Element V)) (e : Element V) (hll : c.ll = pre ++ e :: post) (val : V)
    (expir : Time)
    (hfit : ¬ (c.maxBytes ≠ 0 ∧
      c.maxBytes < int64 (c.nBytes + (Value.Len val - Value.Len e.Value.value)))) :
    Add c e.Value.key val expir =
      some { c with ll := ⟨e.ptr, ⟨e.Value.key, val, expir⟩⟩ :: (pre ++ post),
                    nBytes := int64 (c.nBytes + (Value.Len val - Value.Len e.Value.value)) } ∧
    (InInt64 (c.nBytes + (Value.Len val - Value.Len e.Value.value)) →
      (Add c e.Value.key val expir).map (fun c1 => c1.nBytes) =
        some (c.nBytes + (Value.Len val - Value.Len e.Value.value))) ∧
    (Add c e.Value.key val expir).map Len = some (Len c) := by
  have he : e ∈ c.ll := by rw [hll]; simp
  have hrem : Remove c.ll e.ptr = pre ++ post := by
    have hnd := h.nodupPtr
    rw [hll] at hnd ⊢
    exact Remove_split hnd
  have hup := upsert_of_mem h he val expir
  rw [hrem] at hup
  have hadd : Add c e.Value.key val expir =
      some { c with ll := ⟨e.ptr, ⟨e.Value.key, val, expir⟩⟩ :: (pre ++ post),
                    nBytes := int64 (c.nBytes + (Value.Len val - Value.Len e.Value.value)) } := by
    unfold Add
    simp only [hup]
    exact evictLoop_of_fits _ hfit
  refine ⟨hadd, ?_, ?_⟩
  · intro hin
    rw [hadd]
    simp only [Option.map_some', int64_of_InInt64 hin]
  rw [hadd]
  simp only [Option.map_some', Len, hll, List.length_cons, List.length_append]
  exact congrArg some (by omega)

/-- Witness of C9, the scenario of `TestAdd`: `Add("key", "1")` then `Add("key", "111")` on a
1000-byte store gives `nBytes = len("key") + len("111") = 6`. -/
theorem C9_Add_updates_in_place_witness :
    WF (⟨1000, 4, [⟨0, ⟨"key", "1", Time.zero⟩⟩], [("key", 0)], false, [], 1⟩ : Cache String) ∧
    run (New String 1000 false) [Op.add "key" "1" Time.zero] =
      some ⟨1000, 4, [⟨0, ⟨"key", "1", Time.zero⟩⟩], [("key", 0)], false, [], 1⟩ ∧
    Add (⟨1000, 4, [⟨0, ⟨"key", "1", Time.zero⟩⟩], [("key", 0)], false, [], 1⟩ : Cache String)
      "key" "111" Time.zero =
      some ⟨1000, 6, [⟨0, ⟨"key", "111", Time.zero⟩⟩], [("key", 0)], false, [], 1⟩ :=
  have hwf : WF (⟨1000, 4, [⟨0, ⟨"key", "1", Time.zero⟩⟩], [("key", 0)], false, [], 1⟩ :
      Cache String) :=
    ⟨List.Perm.refl _, by decide, by decide, by decide⟩
  ⟨hwf, by decide,
    (C9_Add_updates_in_place _ hwf [] [] ⟨0, ⟨"key", "1", Time.zero⟩⟩ rfl "111" Time.zero
      (by decide)).1.trans (by decide)⟩

/-- C10: an unbounded store (`maxBytes = 0`) used with zero-instant expiries refines a finite
map.  Every sequence of `Add` and `Get` calls returns, and afterwards `Get(k)` returns the
value of the most recent `Add` for `k`, and absent for a key that was never added. -/
theorem C10_unbounded_store_is_a_map [Value V] (onEvicted : Bool) (ops : List (Op V))
    (hp : ∀ op ∈ ops, op.plain = true) :
    ∃ c, run (New V 0 onEvicted) ops = some c ∧
      ∀ k now, (Get c k now).1 = lastAdded ops k := by
  have h0 : Agrees (New V 0 onEvicted) (fun _ => none) := by
    intro k
    exact ⟨fun _ => rfl, fun v hv => by cases hv⟩
  obtain ⟨c, hc, hpl, hag⟩ := Agrees_run ops (Plain_New onEvicted) h0 hp
  refine ⟨c, hc, ?_⟩
  intro k now
  rw [Get_of_Agrees hpl hag k now]
  cases lastAdded ops k <;> rfl

/-- Witness of C10, the scenario of `TestGet`: after `Add("key1", "1234")`, `Get("key1")`
returns `"1234"` and `Get("key2")` is absent. -/
theorem C10_unbounded_store_is_a_map_witness :
    (∀ op ∈ [Op.add "key1" "1234" Time.zero], Op.plain op = true) ∧
    (∃ c, run (New String 0 false) [Op.add "key1" "1234" Time.zero] = some c ∧
      ∀ k now, (Get c k now).1 = lastAdded [Op.add "key1" "1234" Time.zero] k) ∧
    lastAdded [Op.add "key1" "1234" Time.zero] "key1" = some "1234" ∧
    lastAdded [Op.add "key1" "1234" Time.zero] "key2" = none ∧
    (run (New String 0 false) [Op.add "key1" "1234" Time.zero]).map
      (fun c => ((Get c "key1" ⟨9⟩).1, (Get (Get c "key1" ⟨9⟩).2 "key2" ⟨9⟩).1)) =
      some (some "1234", none) :=
  have hp : ∀ op ∈ [Op.add "key1" "1234" Time.zero], Op.plain op = true := by
    intro op hop
    simp only [List.mem_singleton] at hop
    subst hop
    rfl
  ⟨hp, C10_unbounded_store_is_a_map false _ hp, by decide, by decide, by decide⟩

/-- C11: after every sequence of `Get`, `Add` and `RemoveOldest` calls on a store built by
`New`, the keys of the map are exactly the keys of the order-list entries, the list holds no
key twice (and neither does the map), and the map has as many entries as the list, which is
`Len()`. -/
theorem C11_map_and_list_agree [Value V] (maxBytes : Int) (onEvicted : Bool)
    (ops : List (Op V)) (c : Cache V) (hrun : run (New V maxBytes onEvicted) ops = some c) :
    (∀ k, k ∈ c.cache.map Prod.fst ↔ k ∈ c.ll.map (fun e => e.Value.key)) ∧
    (c.ll.map (fun e => e.Value.key)).Nodup ∧
    (c.cache.map Prod.fst).Nodup ∧
    c.cache.length = c.ll.length ∧
    c.cache.length = Len c := by
  have h := WF_run ops (WF_New maxBytes onEvicted) hrun
  have hlen : c.cache.length = c.ll.length := by
    have := h.perm.length_eq
    simpa [index] using this
  refine ⟨?_, h.nodupKeys, h.nodupKey, hlen, hlen⟩
  intro k
  rw [← index_map_fst]
  exact (h.perm.map Prod.fst).mem_iff

/-- Witness of C11: an `Add`, a second `Add`, an expired `Get` and a `RemoveOldest`. -/
theorem C11_map_and_list_agree_witness :
    run (New String 0 true) [Op.add "a" "1" ⟨1⟩, Op.add "b" "2" Time.zero, Op.get "a" ⟨2⟩,
        Op.add "c" "3" Time.zero, Op.removeOldest] =
      some ⟨0, 4, [⟨2, ⟨"c", "3", Time.zero⟩⟩], [("c", 2)], true, [("a", "1"), ("b", "2")], 3⟩ ∧
    ((∀ k, k ∈ [("c", 2)].map Prod.fst ↔
        k ∈ [(⟨2, ⟨"c", "3", Time.zero⟩⟩ : Element String)].map (fun e => e.Value.key)) ∧
      ([(⟨2, ⟨"c", "3", Time.zero⟩⟩ : Element String)].map (fun e => e.Value.key)).Nodup ∧
      ([("c", 2)].map Prod.fst).Nodup ∧
      [("c", 2)].length = [(⟨2, ⟨"c", "3", Time.zero⟩⟩ : Element String)].length ∧
      [("c", 2)].length = Len (⟨0, 4, [⟨2, ⟨"c", "3", Time.zero⟩⟩], [("c", 2)], true,
        [("a", "1"), ("b", "2")], 3⟩ : Cache String)) :=
  ⟨by decide, C11_map_and_list_agree 0 true
    [Op.add "a" "1" ⟨1⟩, Op.add "b" "2" Time.zero, Op.get "a" ⟨2⟩, Op.add "c" "3" Time.zero,
      Op.removeOldest]
    ⟨0, 4, [⟨2, ⟨"c", "3", Time.zero⟩⟩], [("c", 2)], true, [("a", "1"), ("b", "2")], 3⟩
    (by decide)⟩

/-- C12 (violated by the code): every operation should return.  On a store built with
`maxBytes = -1`, `Add("k", "v")` accounts 2 bytes, the loop evicts the entry, and then
`nBytes = 0` is still above the limit while the list is empty: `RemoveOldest` changes nothing
and the condition of the loop stays true, whatever the number of rounds. -/
theorem C12_Add_loops_forever :
    Add (New String (-1) false) "k" "v" Time.zero = none ∧
    ∀ n, evictLoop n (upsert (New String (-1) false) "k" "v" Time.zero) = none := by
  have h : Add (New String (-1) false) "k" "v" Time.zero = none := by decide
  refine ⟨h, ?_⟩
  intro n
  exact evictLoop_none _ (WF_upsert (WF_New (-1) false) "k" "v" Time.zero) (le_refl _) h n


end lru

namespace consistenthash

/-! ## The binary search -/

/-- The loop of `sort.Search` keeps its invariant: everything before `i` fails the test and
everything from `j` on passes it. -/
theorem searchLoop_spec (f : Nat → Bool) (n : Nat)
    (hmono : ∀ a b, a ≤ b → b < n → f a = true → f b = true) :
    ∀ fuel i j, i ≤ j → j ≤ n → j - i ≤ fuel → (∀ a, a < i → f a = false) →
      (∀ a, j ≤ a → a < n → f a = true) →
      i ≤ searchLoop f fuel i j ∧ searchLoop f fuel i j ≤ j ∧
      (∀ a, a < searchLoop f fuel i j → f a = false) ∧
      (∀ a, searchLoop f fuel i j ≤ a → a < n → f a = true) := by
  intro fuel
  induction fuel with
  | zero =>
    intro i j hij _ hfuel hlo hhi
    have : i = j := by omega
    subst this
    exact ⟨le_refl _, le_refl _, hlo, hhi⟩
  | succ fuel ih =>
    intro i j hij hjn hfuel hlo hhi
    unfold searchLoop
    by_cases hlt : i < j
    · rw [if_pos hlt]
      have hh1 : i ≤ (i + j) / 2 := by omega
      have hh2 : (i + j) / 2 < j := by omega
      dsimp only
      cases hf : f ((i + j) / 2) with
      | false =>
        simp only [Bool.not_false, if_true]
        have hlo' : ∀ a, a < (i + j) / 2 + 1 → f a = false := by
          intro a ha
          cases hfa : f a with
          | false => rfl
          | true =>
            have := hmono a ((i + j) / 2) (by omega) (by omega) hfa
            rw [hf] at this
            cases this
        have := ih ((i + j) / 2 + 1) j (by omega) hjn (by omega) hlo' hhi
        exact ⟨by omega, this.2.1, this.2.2.1, this.2.2.2⟩
      | true =>
        simp only [Bool.not_true, Bool.false_eq_true, if_false]
        have hhi' : ∀ a, (i + j) / 2 ≤ a → a < n → f a = true :=
          fun a ha han => hmono ((i + j) / 2) a ha han hf
        have := ih i ((i + j) / 2) hh1 (by omega) (by omega) hlo hhi'
        exact ⟨this.1, by omega, this.2.2.1, this.2.2.2⟩
    · rw [if_neg hlt]
      have : i = j := by omega
      subst this
      exact ⟨le_refl _, le_refl _, hlo, hhi⟩

/-- On a test that stays true once it is true, `sort.Search` returns the first index that
passes, and `n` when none does. -/
theorem Search_spec (f : Nat → Bool) (n : Nat)
    (hmono : ∀ a b, a ≤ b → b < n → f a = true → f b = true) :
    Search n f ≤ n ∧ (∀ a, a < Search n f → f a = false) ∧
      (∀ a, Search n f ≤ a → a < n → f a = true) := by
  have := searchLoop_spec f n hmono n 0 n (Nat.zero_le _) (le_refl _) (by omega)
    (fun a ha => absurd ha (Nat.not_lt_zero _)) (fun a ha han => absurd han (by omega))
  exact ⟨this.2.1, this.2.2.1, this.2.2.2⟩

/-- The search probes indices below `n` only: two tests that agree there give the same
result. -/
theorem searchLoop_congr (f g : Nat → Bool) (n : Nat) (hfg : ∀ a, a < n → f a = g a) :
    ∀ fuel i j, j ≤ n → searchLoop f fuel i j = searchLoop g fuel i j := by
  intro fuel
  induction fuel with
  | zero => intro i j _; rfl
  | succ fuel ih =>
    intro i j hjn
    unfold searchLoop
    by_cases hlt : i < j
    · rw [if_pos hlt, if_pos hlt]
      have hh2 : (i + j) / 2 < n := by omega
      dsimp only
      rw [hfg _ hh2]
      rw [ih ((i + j) / 2 + 1) j hjn, ih i ((i + j) / 2) (by omega)]
    · rw [if_neg hlt, if_neg hlt]

/-! ## Lookup on a sorted ring -/

theorem sorted_getD_le {keys : List Int} (hs : keys.Sorted (fun a b => a ≤ b)) {a b : Nat}
    (hab : a ≤ b) (hb : b < keys.length) : keys.getD a 0 ≤ keys.getD b 0 := by
  have ha : a < keys.length := lt_of_le_of_lt hab hb
  rw [List.getD_eq_getElem _ _ ha, List.getD_eq_getElem _ _ hb]
  exact hs.rel_get_of_le (show (⟨a, ha⟩ : Fin keys.length) ≤ ⟨b, hb⟩ from hab)

theorem getD_mem {keys : List Int} {a : Nat} (ha : a < keys.length) : keys.getD a 0 ∈ keys := by
  rw [List.getD_eq_getElem _ _ ha]
  exact List.get_mem _ _ _

theorem exists_getD_of_mem {keys : List Int} {q : Int} (hq : q ∈ keys) :
    ∃ b, b < keys.length ∧ keys.getD b 0 = q := by
  obtain ⟨⟨b, hb⟩, hbq⟩ := List.mem_iff_get.1 hq
  exact ⟨b, hb, by rw [List.getD_eq_getElem _ _ hb]; exact hbq⟩

/-- On a sorted, non-empty vector the point `Get` reads is the clockwise successor of the
hash. -/
theorem successor_of_sorted (m : Map) (hs : m.keys.Sorted (fun a b => a ≤ b))
    (hne : m.keys ≠ []) (h : Int) :
    ∃ p, m.keys.get? (searchIndex m h % m.keys.length) = some p ∧ IsSuccessor m.keys h p := by
  have hlen : 0 < m.keys.length := List.length_pos.2 hne
  have hmono : ∀ a b, a ≤ b → b < m.keys.length →
      (fun i => decide (m.keys.getD i 0 ≥ h)) a = true →
      (fun i => decide (m.keys.getD i 0 ≥ h)) b = true := by
    intro a b hab hb hfa
    simp only [ge_iff_le, decide_eq_true_eq] at hfa ⊢
    exact le_trans hfa (sorted_getD_le hs hab hb)
  obtain ⟨h1, h2, h3⟩ := Search_spec _ m.keys.length hmono
  have hidx : searchIndex m h = Search m.keys.length (fun i => decide (m.keys.getD i 0 ≥ h)) :=
    rfl
  rw [← hidx] at h1 h2 h3
  by_cases hlt : searchIndex m h < m.keys.length
  · refine ⟨m.keys.getD (searchIndex m h) 0, ?_, Or.inl ⟨getD_mem hlt, ?_, ?_⟩⟩
    · rw [Nat.mod_eq_of_lt hlt, List.get?_eq_get hlt, List.getD_eq_getElem _ _ hlt]
      rfl
    · have := h3 _ (le_refl _) hlt
      simpa using this
    · intro q hq hhq
      obtain ⟨b, hb, hbq⟩ := exists_getD_of_mem hq
      by_cases hbi : b < searchIndex m h
      · have := h2 b hbi
        simp only [ge_iff_le, decide_eq_false_iff_not, not_le] at this
        rw [hbq] at this
        omega
      · rw [← hbq]
        exact sorted_getD_le hs (by omega) hb
  · have heq : searchIndex m h = m.keys.length := by omega
    refine ⟨m.keys.getD 0 0, ?_, Or.inr ⟨?_, getD_mem hlen, ?_⟩⟩
    · rw [heq, Nat.mod_self, List.get?_eq_get hlen, List.getD_eq_getElem _ _ hlen]
      rfl
    · intro q hq
      obtain ⟨b, hb, hbq⟩ := exists_getD_of_mem hq
      have := h2 b (by omega)
      simp only [ge_iff_le, decide_eq_false_iff_not, not_le] at this
      rw [hbq] at this
      exact this
    · intro q hq
      obtain ⟨b, hb, hbq⟩ := exists_getD_of_mem hq
      rw [← hbq]
      exact sorted_getD_le hs (Nat.zero_le _) hb

/-- A vector has at most one clockwise successor of a hash. -/
theorem IsSuccessor_unique {keys : List Int} {h p q : Int} (hp : IsSuccessor keys h p)
    (hq : IsSuccessor keys h q) : p = q := by
  rcases hp with ⟨hp1, hp2, hp3⟩ | ⟨hp1, hp2, hp3⟩ <;>
    rcases hq with ⟨hq1, hq2, hq3⟩ | ⟨hq1, hq2, hq3⟩
  · exact le_antisymm (hp3 q hq1 hq2) (hq3 p hp1 hp2)
  · have := hq1 p hp1
    omega
  · have := hp1 q hq1
    omega
  · exact le_antisymm (hp3 q hq2) (hq3 p hp2)

theorem Get_of_empty (m : Map) (h : m.keys = []) (key : String) : Get m key = some "" := by
  simp [Get, h]

/-- What `Get` returns on a sorted ring with at least one point. -/
theorem Get_of_sorted (m : Map) (hs : m.keys.Sorted (fun a b => a ≤ b)) (hne : m.keys ≠ [])
    (key : String) :
    ∃ p, IsSuccessor m.keys (hashInt m key) p ∧ Get m key = some (hashMapGet m.hashMap p) := by
  obtain ⟨p, hp1, hp2⟩ := successor_of_sorted m hs hne (hashInt m key)
  refine ⟨p, hp2, ?_⟩
  have hlen : ¬ m.keys.length = 0 := fun h => hne (List.length_eq_zero.1 h)
  simp only [Get, if_neg hlen, hp1, Option.map_some']

theorem Get_of_successor (m : Map) (hs : m.keys.Sorted (fun a b => a ≤ b)) (key : String)
    (p : Int) (hp : IsSuccessor m.keys (hashInt m key) p) :
    Get m key = some (hashMapGet m.hashMap p) := by
  have hne : m.keys ≠ [] := by
    rintro h
    rcases hp with ⟨hp1, _⟩ | ⟨_, hp1, _⟩ <;> simp [h] at hp1
  obtain ⟨q, hq1, hq2⟩ := Get_of_sorted m hs hne key
  rw [hq2, IsSuccessor_unique hp hq1]

/-! ## What `Add` does -/

theorem hashMapGet_hashMapSet (hm : List (Int × String)) (p q : Int) (node : String) :
    hashMapGet (hashMapSet hm p node) q = if q = p then node else hashMapGet hm q := by
  by_cases hq : q = p
  · subst hq
    simp [hashMapSet, hashMapGet]
  · have hq' : ¬ p = q := fun e => hq e.symm
    simp only [hashMapSet, hashMapGet, if_neg hq', if_neg hq]
    induction hm with
    | nil => simp [hashMapGet]
    | cons a rest ih =>
      obtain ⟨r, node'⟩ := a
      by_cases hr : r = p
      · subst hr
        simp only [List.filter_cons, ne_eq, not_true_eq_false, decide_False, Bool.false_eq_true,
          if_false, hashMapGet, if_neg hq']
        exact ih
      · by_cases hrq : r = q
        · subst hrq
          simp [List.filter_cons, hr, hashMapGet]
        · simp only [List.filter_cons, ne_eq, hr, not_false_eq_true, decide_True, if_true,
            hashMapGet, if_neg hrq]
          exact ih

theorem mem_keys_hashMapSet (hm : List (Int × String)) (p q : Int) (node : String) :
    q ∈ (hashMapSet hm p node).map Prod.fst ↔ q = p ∨ q ∈ hm.map Prod.fst := by
  simp only [hashMapSet, List.map_cons, List.mem_cons, List.mem_map, List.mem_filter,
    decide_eq_true_eq]
  constructor
  · rintro (h | ⟨a, ⟨ha, _⟩, rfl⟩)
    · exact Or.inl h
    · exact Or.inr ⟨a, ha, rfl⟩
  · rintro (h | ⟨a, ha, rfl⟩)
    · exact Or.inl h
    · by_cases hap : a.1 = p
      · exact Or.inl hap
      · exact Or.inr ⟨a, ⟨ha, hap⟩, rfl⟩

/-- The inner loop of `Add` over a list of indices. -/
theorem foldl_addPoint (key : String) (is : List Nat) (m : Map) :
    (is.foldl (addPoint key) m).hash = m.hash ∧
    (is.foldl (addPoint key) m).replicas = m.replicas ∧
    (is.foldl (addPoint key) m).keys = m.keys ++ is.map (fun i => virtualPoint m i key) ∧
    (∀ p, hashMapGet (is.foldl (addPoint key) m).hashMap p =
      if p ∈ is.map (fun i => virtualPoint m i key) then key else hashMapGet m.hashMap p) ∧
    (∀ p, p ∈ (is.foldl (addPoint key) m).hashMap.map Prod.fst ↔
      p ∈ m.hashMap.map Prod.fst ∨ p ∈ is.map (fun i => virtualPoint m i key)) := by
  induction is generalizing m with
  | nil => simp
  | cons i is ih =>
    obtain ⟨h1, h2, h3, h4, h5⟩ := ih (addPoint key m i)
    have hvp : ∀ j, virtualPoint (addPoint key m i) j key = virtualPoint m j key := fun _ => rfl
    simp only [hvp] at h3 h4 h5
    simp only [List.foldl_cons, List.map_cons, List.mem_cons]
    refine ⟨h1, h2, ?_, ?_, ?_⟩
    · rw [h3]
      simp [addPoint]
    · intro p
      rw [h4]
      by_cases hp : p ∈ is.map (fun i => virtualPoint m i key)
      · simp [hp]
      · simp [hp, addPoint, hashMapGet_hashMapSet]
    · intro p
      rw [h5]
      simp only [addPoint, mem_keys_hashMapSet]
      tauto

theorem pointsOf_eq (m : Map) (key : String) :
    pointsOf m.hash m.replicas key =
      (List.range m.replicas.toNat).map (fun i => virtualPoint m i key) := rfl

/-- One node added: its points are appended and mapped to it, nothing else changes. -/
theorem addNode_spec (m : Map) (key : String) :
    (addNode m key).hash = m.hash ∧
    (addNode m key).replicas = m.replicas ∧
    (addNode m key).keys = m.keys ++ pointsOf m.hash m.replicas key ∧
    (∀ p, hashMapGet (addNode m key).hashMap p =
      if p ∈ pointsOf m.hash m.replicas key then key else hashMapGet m.hashMap p) ∧
    (∀ p, p ∈ (addNode m key).hashMap.map Prod.fst ↔
      p ∈ m.hashMap.map Prod.fst ∨ p ∈ pointsOf m.hash m.replicas key) := by
  rw [pointsOf_eq]
  exact foldl_addPoint key _ m

/-- The outer loop of `Add`: the points of every node are appended, every new point is mapped
to a node it belongs to, and the other points keep their node. -/
theorem foldl_addNode (nodes : List String) (m : Map) :
    (nodes.foldl addNode m).hash = m.hash ∧
    (nodes.foldl addNode m).replicas = m.replicas ∧
    (nodes.foldl addNode m).keys = m.keys ++ nodes.flatMap (pointsOf m.hash m.replicas) ∧
    (∀ p, (∀ node ∈ nodes, p ∉ pointsOf m.hash m.replicas node) →
      hashMapGet (nodes.foldl addNode m).hashMap p = hashMapGet m.hashMap p) ∧
    (∀ p, (∃ node ∈ nodes, p ∈ pointsOf m.hash m.replicas node) →
      ∃ node ∈ nodes, p ∈ pointsOf m.hash m.replicas node ∧
        hashMapGet (nodes.foldl addNode m).hashMap p = node) ∧
    (∀ p, p ∈ (nodes.foldl addNode m).hashMap.map Prod.fst ↔
      p ∈ m.hashMap.map Prod.fst ∨ p ∈ nodes.flatMap (pointsOf m.hash m.replicas)) := by
  induction nodes generalizing m with
  | nil => simp
  | cons n nodes ih =>
    obtain ⟨a1, a2, a3, a4, a5⟩ := addNode_spec m n
    obtain ⟨h1, h2, h3, h4, h5, h6⟩ := ih (addNode m n)
    rw [a1, a2] at h3 h4 h5 h6
    simp only [List.foldl_cons]
    refine ⟨h1.trans a1, h2.trans a2, ?_, ?_, ?_, ?_⟩
    · rw [h3, a3]
      simp [List.flatMap_cons]
    · intro p hp
      rw [h4 p (fun node hn => hp node (List.mem_cons_of_mem _ hn)), a4,
        if_neg (hp n (List.mem_cons_self _ _))]
    · intro p hp
      by_cases hlater : ∃ node ∈ nodes, p ∈ pointsOf m.hash m.replicas node
      · obtain ⟨node, hn, hpn, hget⟩ := h5 p hlater
        exact ⟨node, List.mem_cons_of_mem _ hn, hpn, hget⟩
      · have hnone : ∀ node ∈ nodes, p ∉ pointsOf m.hash m.replicas node :=
          fun node hn hpn => hlater ⟨node, hn, hpn⟩
        obtain ⟨node, hn, hpn⟩ := hp
        have hpn' : p ∈ pointsOf m.hash m.replicas n := by
          rcases List.mem_cons.1 hn with rfl | hn
          · exact hpn
          · exact absurd hpn (hnone node hn)
        refine ⟨n, List.mem_cons_self _ _, hpn', ?_⟩
        rw [h4 p hnone, a4, if_pos hpn']
    · intro p
      rw [h6, a5]
      simp only [List.flatMap_cons, List.mem_append]
      tauto

/-- Go `m.Add(keys...)` in one statement. -/
theorem Add_spec (m : Map) (nodes : List String) :
    (Add m nodes).hash = m.hash ∧
    (Add m nodes).replicas = m.replicas ∧
    (Add m nodes).keys.Sorted (fun a b => a ≤ b) ∧
    (Add m nodes).keys.Perm (m.keys ++ nodes.flatMap (pointsOf m.hash m.replicas)) ∧
    (∀ p, (∀ node ∈ nodes, p ∉ pointsOf m.hash m.replicas node) →
      hashMapGet (Add m nodes).hashMap p = hashMapGet m.hashMap p) ∧
    (∀ p, (∃ node ∈ nodes, p ∈ pointsOf m.hash m.replicas node) →
      ∃ node ∈ nodes, p ∈ pointsOf m.hash m.replicas node ∧
        hashMapGet (Add m nodes).hashMap p = node) ∧
    (∀ p, p ∈ (Add m nodes).hashMap.map Prod.fst ↔
      p ∈ m.hashMap.map Prod.fst ∨ p ∈ nodes.flatMap (pointsOf m.hash m.replicas)) := by
  obtain ⟨h1, h2, h3, h4, h5, h6⟩ := foldl_addNode nodes m
  refine ⟨h1, h2, ?_, ?_, h4, h5, h6⟩
  · exact List.sorted_insertionSort _ _
  · show (List.insertionSort _ (nodes.foldl addNode m).keys).Perm _
    rw [← h3]
    exact List.perm_insertionSort _ _

theorem hashInt_congr {m m' : Map} (h : m'.hash = m.hash) (s : String) :
    hashInt m' s = hashInt m s := by
  unfold hashInt
  rw [h]

/-! ## Rings built by `New` and `Add` -/

theorem ring_snoc (R : Int) (fn : Option Hash) (calls : List (List String))
    (nodes : List String) : ring R fn (calls ++ [nodes]) = Add (ring R fn calls) nodes := by
  simp [ring, List.foldl_append]

/-- Every ring built by `New` and `Add` keeps the hash and multiplier it was created with, has
a sorted vector that holds the points of all nodes added, and maps every point of the vector
to a node that was added and that the point belongs to. -/
theorem ring_spec (R : Int) (fn : Option Hash) (calls : List (List String)) :
    (ring R fn calls).hash = fn.getD ChecksumIEEE ∧
    (ring R fn calls).replicas = R ∧
    (ring R fn calls).keys.Sorted (fun a b => a ≤ b) ∧
    (ring R fn calls).keys.Perm (calls.flatten.flatMap (pointsOf (fn.getD ChecksumIEEE) R)) ∧
    (∀ p ∈ (ring R fn calls).keys, p ∈ (ring R fn calls).hashMap.map Prod.fst) ∧
    (∀ p ∈ (ring R fn calls).keys, ∃ node ∈ calls.flatten,
      p ∈ pointsOf (fn.getD ChecksumIEEE) R node ∧
        hashMapGet (ring R fn calls).hashMap p = node) := by
  induction calls using List.reverseRecOn with
  | nil =>
    refine ⟨rfl, rfl, ?_, ?_, ?_, ?_⟩ <;> simp [ring, New]
  | append_singleton calls nodes ih =>
    obtain ⟨i1, i2, i3, i4, i5, i6⟩ := ih
    obtain ⟨a1, a2, a3, a4, a5, a6, a7⟩ := Add_spec (ring R fn calls) nodes
    rw [i1, i2] at a4 a5 a6 a7
    rw [ring_snoc]
    have hmem : ∀ p, p ∈ (Add (ring R fn calls) nodes).keys ↔
        p ∈ (ring R fn calls).keys ∨ p ∈ nodes.flatMap (pointsOf (fn.getD ChecksumIEEE) R) := by
      intro p
      rw [a4.mem_iff, List.mem_append]
    refine ⟨a1.trans i1, a2.trans i2, a3, ?_, ?_, ?_⟩
    · refine a4.trans ?_
      rw [List.flatten_append, List.flatMap_append]
      simp only [List.flatten_cons, List.flatten_nil, List.append_nil]
      exact List.Perm.append_right _ i4
    · intro p hp
      rw [a7]
      rcases (hmem p).1 hp with h | h
      · exact Or.inl (i5 p h)
      · exact Or.inr h
    · intro p hp
      by_cases hnew : ∃ node ∈ nodes, p ∈ pointsOf (fn.getD ChecksumIEEE) R node
      · obtain ⟨node, hn, hpn, hget⟩ := a6 p hnew
        exact ⟨node, by simp [hn], hpn, hget⟩
      · have hnone : ∀ node ∈ nodes, p ∉ pointsOf (fn.getD ChecksumIEEE) R node :=
          fun node hn hpn => hnew ⟨node, hn, hpn⟩
        have hold : p ∈ (ring R fn calls).keys := by
          rcases (hmem p).1 hp with h | h
          · exact h
          · obtain ⟨node, hn, hpn⟩ := List.mem_flatMap.1 h
            exact absurd hpn (hnone node hn)
        obtain ⟨node, hn, hpn, hget⟩ := i6 p hold
        refine ⟨node, by simp [hn], hpn, ?_⟩
        rw [a5 p hnone, hget]

end consistenthash

namespace consistenthash

/-- C13: ring lookup is the clockwise successor with wraparound.  On every ring built by `New`
and `Add`, `Get(key)` returns `""` when the ring has no virtual point; otherwise the ring has a
clockwise successor of `h = hash(key)` (the smallest point that is at least `h`, or the
smallest point overall when no point is at least `h`), and `Get(key)` returns the node mapped
to it. -/
theorem C13_Get_is_clockwise_successor (R : Int) (fn : Option Hash)
    (calls : List (List String)) (key : String) :
    ((ring R fn calls).keys = [] → Get (ring R fn calls) key = some "") ∧
    ((ring R fn calls).keys ≠ [] →
      ∃ p, IsSuccessor (ring R fn calls).keys (hashInt (ring R fn calls) key) p) ∧
    (∀ p, IsSuccessor (ring R fn calls).keys (hashInt (ring R fn calls) key) p →
      Get (ring R fn calls) key = some (hashMapGet (ring R fn calls).hashMap p)) := by
  have hs := (ring_spec R fn calls).2.2.1
  refine ⟨fun h => Get_of_empty _ h key, ?_, fun p hp => Get_of_successor _ hs key p hp⟩
  intro hne
  obtain ⟨p, hp, _⟩ := Get_of_sorted _ hs hne key
  exact ⟨p, hp⟩

/-- The scenario of `TestHashing` for C13: with the hash that reads decimal numerals, 3
replicas and the nodes 6, 4, 2, the keys 2, 11, 23 and 27 have the successors 2, 12, 24 and 2
and select the nodes 2, 2, 4 and 2. -/
theorem C13_Get_is_clockwise_successor_witness :
    Get testRing "2" = some "2" ∧ Get testRing "11" = some "2" ∧
    Get testRing "23" = some "4" ∧ Get testRing "27" = some "2" :=
  ⟨(C13_Get_is_clockwise_successor 3 (some testHash) [["6", "4", "2"]] "2").2.2 2 (by decide),
   (C13_Get_is_clockwise_successor 3 (some testHash) [["6", "4", "2"]] "11").2.2 12 (by decide),
   (C13_Get_is_clockwise_successor 3 (some testHash) [["6", "4", "2"]] "23").2.2 24 (by decide),
   (C13_Get_is_clockwise_successor 3 (some testHash) [["6", "4", "2"]] "27").2.2 2 (by decide)⟩

/-- C14: adding a node never moves a key between two nodes that were already there.  On every
ring built by `New` and `Add`, for every node `n` and key `k`, `Get(k)` after `Add(n)` is
`Get(k)` before it, or is `n`. -/
theorem C14_Add_moves_keys_to_the_new_node_only (R : Int) (fn : Option Hash)
    (calls : List (List String)) (n : String) (key : String) :
    Get (Add (ring R fn calls) [n]) key = Get (ring R fn calls) key ∨
    Get (Add (ring R fn calls) [n]) key = some n := by
  obtain ⟨_, _, hs, _, _, _⟩ := ring_spec R fn calls
  obtain ⟨a1, _, a3, a4, a5, a6, _⟩ := Add_spec (ring R fn calls) [n]
  have hh : hashInt (Add (ring R fn calls) [n]) key = hashInt (ring R fn calls) key :=
    hashInt_congr a1 key
  have hmem : ∀ p, p ∈ (Add (ring R fn calls) [n]).keys ↔ p ∈ (ring R fn calls).keys ∨
      p ∈ pointsOf (ring R fn calls).hash (ring R fn calls).replicas n := by
    intro p
    rw [a4.mem_iff, List.mem_append]
    simp
  by_cases hne : (Add (ring R fn calls) [n]).keys = []
  · left
    have hold : (ring R fn calls).keys = [] := by
      cases hk : (ring R fn calls).keys with
      | nil => rfl
      | cons x xs =>
        have : x ∈ (Add (ring R fn calls) [n]).keys := (hmem x).2 (Or.inl (by simp [hk]))
        rw [hne] at this
        cases this
    rw [Get_of_empty _ hne, Get_of_empty _ hold]
  · obtain ⟨p, hp, hget⟩ := Get_of_sorted _ a3 hne key
    rw [hh] at hp
    by_cases hpn : p ∈ pointsOf (ring R fn calls).hash (ring R fn calls).replicas n
    · right
      obtain ⟨node, hn, _, hnode⟩ := a6 p ⟨n, List.mem_singleton.2 rfl, hpn⟩
      rw [hget, hnode, List.mem_singleton.1 hn]
    · left
      have hkeep := a5 p (fun node hn => by rw [List.mem_singleton.1 hn]; exact hpn)
      have hsub : ∀ q, q ∈ (ring R fn calls).keys → q ∈ (Add (ring R fn calls) [n]).keys :=
        fun q hq => (hmem q).2 (Or.inl hq)
      have hpold : p ∈ (ring R fn calls).keys := by
        have hpin : p ∈ (Add (ring R fn calls) [n]).keys := by
          rcases hp with ⟨h1, _⟩ | ⟨_, h1, _⟩ <;> exact h1
        rcases (hmem p).1 hpin with h | h
        · exact h
        · exact absurd h hpn
      have hsucc : IsSuccessor (ring R fn calls).keys (hashInt (ring R fn calls) key) p := by
        rcases hp with ⟨_, h2, h3⟩ | ⟨h1, _, h3⟩
        · exact Or.inl ⟨hpold, h2, fun q hq hhq => h3 q (hsub q hq) hhq⟩
        · exact Or.inr ⟨fun q hq => h1 q (hsub q hq), hpold, fun q hq => h3 q (hsub q hq)⟩
      rw [hget, hkeep, Get_of_successor _ hs key p hsucc]

/-- The scenario of `TestHashing` for C14: after `Add("8")` the key 27 moves from node 2 to
node 8, and the keys 2, 11 and 23 keep their nodes. -/
theorem C14_Add_moves_keys_to_the_new_node_only_witness :
    (Get (Add (ring 3 (some testHash) [["6", "4", "2"]]) ["8"]) "27" =
        Get (ring 3 (some testHash) [["6", "4", "2"]]) "27" ∨
      Get (Add (ring 3 (some testHash) [["6", "4", "2"]]) ["8"]) "27" = some "8") ∧
    Get testRing "27" = some "2" ∧ Get (Add testRing ["8"]) "27" = some "8" ∧
    Get (Add testRing ["8"]) "2" = Get testRing "2" ∧
    Get (Add testRing ["8"]) "11" = Get testRing "11" ∧
    Get (Add testRing ["8"]) "23" = Get testRing "23" :=
  ⟨C14_Add_moves_keys_to_the_new_node_only 3 (some testHash) [["6", "4", "2"]] "8" "27",
    by decide, by decide, by decide, by decide, by decide⟩

/-- C15: after any sequence of `Add` calls on a ring created by `New(R, hash)`, the vector is
sorted ascending, every element of the vector is a key of the point-to-node mapping, and the
vector holds, for every node argument of every call, exactly the points
`hash(decimal(i) ++ node)` for `i` in `[0, R)` and nothing else. -/
theorem C15_Add_keeps_the_ring_well_formed (R : Int) (fn : Option Hash)
    (calls : List (List String)) :
    (ring R fn calls).keys.Sorted (fun a b => a ≤ b) ∧
    (∀ p ∈ (ring R fn calls).keys, p ∈ (ring R fn calls).hashMap.map Prod.fst) ∧
    (ring R fn calls).keys.Perm
      (calls.flatten.flatMap (pointsOf (fn.getD ChecksumIEEE) R)) ∧
    ∀ node, (pointsOf (fn.getD ChecksumIEEE) R node).length = R.toNat := by
  obtain ⟨_, _, h3, h4, h5, _⟩ := ring_spec R fn calls
  exact ⟨h3, h5, h4, fun node => by simp [pointsOf]⟩

/-- C16 as stated fails: with the hash of `TestHashing` and 3 replicas, the nodes 2 and 12
share the virtual point 12 (`"1" ++ "2"` and `"0" ++ "12"`).  The node added later owns the
point, so the rings built by `Add("2", "12")` and by `Add("12", "2")` hold the same nodes and
route the key 11 to different ones. -/
theorem C16_counterexample :
    Get (ring 3 (some testHash) [["2", "12"]]) "11" = some "12" ∧
    Get (ring 3 (some testHash) [["12", "2"]]) "11" = some "2" := by
  decide

set_option maxRecDepth 1000000 in
/-- The same failure with the default hash (CRC-32) and the default 50 replicas of
`server.Set`: the peers `1.2.3.4:80` and `11.2.3.4:80` share the virtual node
`"111.2.3.4:80"` (`"11" ++ "1.2.3.4:80"` and `"1" ++ "11.2.3.4:80"`), and the two orders of
the same peer set route the key `111.2.3.4:80` to different peers. -/
theorem C16_counterexample_default_hash :
    Get (ring 50 none [["1.2.3.4:80", "11.2.3.4:80"]]) "111.2.3.4:80" = some "11.2.3.4:80" ∧
    Get (ring 50 none [["11.2.3.4:80", "1.2.3.4:80"]]) "111.2.3.4:80" = some "1.2.3.4:80" := by
  decide

/-- Two rings created with the same hash and replica multiplier and populated with the same
set of nodes return the same node for every key, provided no virtual point belongs to two
different nodes of the set. -/
theorem Get_of_same_nodes (R : Int) (fn : Option Hash)
    (calls1 calls2 : List (List String))
    (hsame : ∀ node, node ∈ calls1.flatten ↔ node ∈ calls2.flatten)
    (hfree : ∀ a ∈ calls1.flatten, ∀ b ∈ calls1.flatten,
      ∀ p ∈ pointsOf (fn.getD ChecksumIEEE) R a, p ∈ pointsOf (fn.getD ChecksumIEEE) R b → a = b)
    (key : String) :
    Get (ring R fn calls1) key = Get (ring R fn calls2) key := by
  obtain ⟨x1, _, x3, x4, _, x6⟩ := ring_spec R fn calls1
  obtain ⟨y1, _, y3, y4, _, y6⟩ := ring_spec R fn calls2
  have hh : hashInt (ring R fn calls2) key = hashInt (ring R fn calls1) key :=
    hashInt_congr (y1.trans x1.symm) key
  have hmem : ∀ p, p ∈ (ring R fn calls1).keys ↔ p ∈ (ring R fn calls2).keys := by
    intro p
    rw [x4.mem_iff, y4.mem_iff, List.mem_flatMap, List.mem_flatMap]
    constructor
    · rintro ⟨node, hn, hp⟩
      exact ⟨node, (hsame node).1 hn, hp⟩
    · rintro ⟨node, hn, hp⟩
      exact ⟨node, (hsame node).2 hn, hp⟩
  have hnode : ∀ p, p ∈ (ring R fn calls1).keys →
      hashMapGet (ring R fn calls1).hashMap p = hashMapGet (ring R fn calls2).hashMap p := by
    intro p hp
    obtain ⟨a, ha, hpa, hga⟩ := x6 p hp
    obtain ⟨b, hb, hpb, hgb⟩ := y6 p ((hmem p).1 hp)
    rw [hga, hgb]
    exact hfree a ha b ((hsame b).2 hb) p hpa hpb
  by_cases hne : (ring R fn calls1).keys = []
  · have hne2 : (ring R fn calls2).keys = [] := by
      cases hk : (ring R fn calls2).keys with
      | nil => rfl
      | cons x xs =>
        have : x ∈ (ring R fn calls1).keys := (hmem x).2 (by simp [hk])
        rw [hne] at this
        cases this
    rw [Get_of_empty _ hne, Get_of_empty _ hne2]
  · obtain ⟨p, hp, hget⟩ := Get_of_sorted _ x3 hne key
    have hpin : p ∈ (ring R fn calls1).keys := by
      rcases hp with ⟨h1, _⟩ | ⟨_, h1, _⟩ <;> exact h1
    have hsucc : IsSuccessor (ring R fn calls2).keys (hashInt (ring R fn calls2) key) p := by
      rw [hh]
      rcases hp with ⟨h1, h2, h3⟩ | ⟨h1, h2, h3⟩
      · exact Or.inl ⟨(hmem p).1 h1, h2, fun q hq hhq => h3 q ((hmem q).2 hq) hhq⟩
      · exact Or.inr ⟨fun q hq => h1 q ((hmem q).2 hq), (hmem p).1 h2,
          fun q hq => h3 q ((hmem q).2 hq)⟩
    rw [hget, Get_of_successor _ y3 key p hsucc, hnode p hpin]

end consistenthash

namespace consistenthash

/-- A ring with a positive multiplier to which a node was added has a virtual point. -/
theorem ring_keys_ne_nil (R : Int) (fn : Option Hash) (calls : List (List String))
    (hR : 1 ≤ R) (hnode : calls.flatten ≠ []) : (ring R fn calls).keys ≠ [] := by
  obtain ⟨_, _, _, hperm, _, _⟩ := ring_spec R fn calls
  obtain ⟨node, hn⟩ := List.exists_mem_of_ne_nil _ hnode
  have hlen : 0 < (pointsOf (fn.getD ChecksumIEEE) R node).length := by
    simp only [pointsOf, List.length_map, List.length_range]
    omega
  obtain ⟨p, hp⟩ := List.exists_mem_of_length_pos hlen
  have hmem : p ∈ (ring R fn calls).keys :=
    hperm.mem_iff.2 (List.mem_flatMap.2 ⟨node, hn, hp⟩)
  exact List.ne_nil_of_mem hmem

/-- On a ring with a positive multiplier to which a node was added, `Get` returns one of the
nodes added. -/
theorem ring_Get_mem (R : Int) (fn : Option Hash) (calls : List (List String)) (key : String)
    (hR : 1 ≤ R) (hnode : calls.flatten ≠ []) :
    ∃ node ∈ calls.flatten, Get (ring R fn calls) key = some node := by
  have hne := ring_keys_ne_nil R fn calls hR hnode
  obtain ⟨_, _, hs, _, _, hnodes⟩ := ring_spec R fn calls
  obtain ⟨p, hsucc, hget⟩ := Get_of_sorted _ hs hne key
  have hmem : p ∈ (ring R fn calls).keys := by
    rcases hsucc with ⟨h, _⟩ | ⟨_, h, _⟩ <;> exact h
  obtain ⟨node, hn, _, hmap⟩ := hnodes p hmem
  exact ⟨node, hn, by rw [hget, hmap]⟩

/-- C25: ring lookup is in bounds and lands on a member.  On every ring built by `New(R, hash)`
with `R ≥ 1` and `Add` calls that passed at least one node, for every key: the vector is not
empty and `idx % len(keys)` is an index of it; the virtual point `p` at that index is a key
of the point-to-node mapping; and `Get` returns the node the mapping holds for `p`, which is a
node that was passed to `Add`. -/
theorem C25_Get_lands_on_a_member (R : Int) (fn : Option Hash) (calls : List (List String))
    (key : String) (hR : 1 ≤ R) (hnode : calls.flatten ≠ []) :
    (ring R fn calls).keys ≠ [] ∧
    searchIndex (ring R fn calls) (hashInt (ring R fn calls) key) %
        (ring R fn calls).keys.length < (ring R fn calls).keys.length ∧
    ∃ p node,
      (ring R fn calls).keys.get? (searchIndex (ring R fn calls)
        (hashInt (ring R fn calls) key) % (ring R fn calls).keys.length) = some p ∧
      p ∈ (ring R fn calls).hashMap.map Prod.fst ∧
      node ∈ calls.flatten ∧
      hashMapGet (ring R fn calls).hashMap p = node ∧
      Get (ring R fn calls) key = some node := by
  have hne := ring_keys_ne_nil R fn calls hR hnode
  obtain ⟨_, _, hs, _, hkey, hnodes⟩ := ring_spec R fn calls
  have hlen : 0 < (ring R fn calls).keys.length := List.length_pos.2 hne
  obtain ⟨p, hp, hsucc⟩ := successor_of_sorted _ hs hne (hashInt (ring R fn calls) key)
  have hmem : p ∈ (ring R fn calls).keys := by
    rcases hsucc with ⟨h, _⟩ | ⟨_, h, _⟩ <;> exact h
  obtain ⟨node, hn, _, hget⟩ := hnodes p hmem
  refine ⟨hne, Nat.mod_lt _ hlen, p, node, hp, hkey p hmem, hn, hget, ?_⟩
  have hlen0 : ¬ (ring R fn calls).keys.length = 0 := by omega
  simp only [Get, if_neg hlen0, hp, Option.map_some', hget]

/-- Witness of C25, the ring of `TestHashing` (3 replicas, nodes 6, 4, 2): the key 27 is past
the last point, the index 9 wraps to 0, the point there is 2, and `Get` returns the node 2. -/
theorem C25_Get_lands_on_a_member_witness :
    (1 : Int) ≤ 3 ∧ [["6", "4", "2"]].flatten ≠ [] ∧
    searchIndex (ring 3 (some testHash) [["6", "4", "2"]])
      (hashInt (ring 3 (some testHash) [["6", "4", "2"]]) "27") = 9 ∧
    (ring 3 (some testHash) [["6", "4", "2"]]).keys.get? (9 % 9) = some 2 ∧
    Get (ring 3 (some testHash) [["6", "4", "2"]]) "27" = some "2" ∧
    ((ring 3 (some testHash) [["6", "4", "2"]]).keys ≠ [] ∧
    searchIndex (ring 3 (some testHash) [["6", "4", "2"]])
        (hashInt (ring 3 (some testHash) [["6", "4", "2"]]) "27") %
        (ring 3 (some testHash) [["6", "4", "2"]]).keys.length <
      (ring 3 (some testHash) [["6", "4", "2"]]).keys.length ∧
    ∃ p node,
      (ring 3 (some testHash) [["6", "4", "2"]]).keys.get?
        (searchIndex (ring 3 (some testHash) [["6", "4", "2"]])
          (hashInt (ring 3 (some testHash) [["6", "4", "2"]]) "27") %
          (ring 3 (some testHash) [["6", "4", "2"]]).keys.length) = some p ∧
      p ∈ (ring 3 (some testHash) [["6", "4", "2"]]).hashMap.map Prod.fst ∧
      node ∈ [["6", "4", "2"]].flatten ∧
      hashMapGet (ring 3 (some testHash) [["6", "4", "2"]]).hashMap p = node ∧
      Get (ring 3 (some testHash) [["6", "4", "2"]]) "27" = some node) :=
  ⟨by decide, by decide, by decide, by decide, by decide,
    C25_Get_lands_on_a_member 3 (some testHash) [["6", "4", "2"]] "27" (by decide) (by decide)⟩

end consistenthash

namespace singleflight

variable {α ε σ : Type}

/-- The group a lone `Do` leaves behind: the record it made is completed and its key is
deleted again. -/
theorem Do_of_free (g : Group α ε) (key : String)
    (fn : σ → Option ((Option α × Option ε) × σ)) (s s1 : σ) (val : Option α) (err : Option ε)
    (hfree : g.record key = none) (hfn : fn s = some ((val, err), s1)) :
    Do g key fn s = some ((val, err),
      (⟨some (lru.mapDelete (lru.mapSet (g.m.getD []) key g.calls.length) key),
        (g.calls ++ [(⟨1, none, none⟩ : call α ε)]).set g.calls.length ⟨0, val, err⟩⟩ :
        Group α ε), s1) := by
  have hfree' : lru.mapGet (g.m.getD []) key = none := hfree
  simp only [Do, hfree', hfn]

theorem record_after_Do (g : Group α ε) (key : String) (calls : List (call α ε)) (c : Nat)
    (k : String) :
    Group.record (⟨some (lru.mapDelete (lru.mapSet (g.m.getD []) key c) key), calls⟩ :
      Group α ε) k = if k = key then none else g.record k := by
  simp only [Group.record, Option.getD_some, lru.mapGet_mapDelete, lru.mapGet_mapSet]
  by_cases hk : k = key <;> simp [hk]

/-- A lone `Do` on a key without a record, in terms of what `fn` does: it returns when `fn`
returns, with the pair of `fn`. -/
theorem Do_of_free_eq (g : Group α ε) (key : String)
    (fn : σ → Option ((Option α × Option ε) × σ)) (s : σ) (hfree : g.record key = none) :
    Do g key fn s = (fn s).map (fun r => (r.1,
      (⟨some (lru.mapDelete (lru.mapSet (g.m.getD []) key g.calls.length) key),
        (g.calls ++ [(⟨1, none, none⟩ : call α ε)]).set g.calls.length ⟨0, r.1.1, r.1.2⟩⟩ :
        Group α ε), r.2)) := by
  have hfree' : lru.mapGet (g.m.getD []) key = none := hfree
  cases hfn : fn s with
  | none => simp only [Do, hfree', hfn, Option.map_none']
  | some r =>
    obtain ⟨⟨val, err⟩, s1⟩ := r
    simp only [Do, hfree', hfn, Option.map_some']

/-- A lone `Do` on a key without a record returns what `fn` returns and leaves no record for
the key. -/
theorem Do_of_idle (g : Group α ε) (key : String)
    (fn : σ → Option ((Option α × Option ε) × σ)) (s s1 : σ) (val : Option α) (err : Option ε)
    (hfree : g.record key = none) (hfn : fn s = some ((val, err), s1)) :
    ∃ g1 : Group α ε, Do g key fn s = some ((val, err), g1, s1) ∧ g1.record key = none := by
  have hdo := Do_of_free g key fn s s1 val err hfree hfn
  refine ⟨_, hdo, ?_⟩
  rw [record_after_Do, if_pos rfl]

/-- C17: single-flight without contention.  When the group holds no record for `key` and `fn`
returns `r`, taking the state it acts on from `s` to `s1`, then `Do(key, fn)` returns exactly
`r` with the state `s1` that one run of `fn` leaves; on return the group holds no record for
`key` and the records of all other keys are as before; and a following `Do(key, fn2)` runs
`fn2` again, on `s1`. -/
theorem C17_Do_without_contention (g : Group α ε) (key : String)
    (fn : σ → Option ((Option α × Option ε) × σ)) (s s1 : σ) (r : Option α × Option ε)
    (hfree : g.record key = none) (hfn : fn s = some (r, s1)) :
    ∃ g1, Do g key fn s = some (r, g1, s1) ∧
      g1.record key = none ∧
      (∀ k, k ≠ key → g1.record k = g.record k) ∧
      ∀ (fn2 : σ → Option ((Option α × Option ε) × σ)) r2 s2, fn2 s1 = some (r2, s2) →
        ∃ g2, Do g1 key fn2 s1 = some (r2, g2, s2) := by
  obtain ⟨val, err⟩ := r
  have hdo := Do_of_free g key fn s s1 val err hfree hfn
  refine ⟨_, hdo, ?_, ?_, ?_⟩
  · rw [record_after_Do, if_pos rfl]
  · intro k hk
    rw [record_after_Do, if_neg hk]
  · intro fn2 r2 s2 hfn2
    obtain ⟨val2, err2⟩ := r2
    have hfree2 := record_after_Do g key
      ((g.calls ++ [(⟨1, none, none⟩ : call α ε)]).set g.calls.length ⟨0, val, err⟩)
      g.calls.length key
    rw [if_pos rfl] at hfree2
    exact ⟨_, Do_of_free _ key fn2 s1 s2 val2 err2 hfree2 hfn2⟩

/-- Witness of C17: `fn` counts its runs and fails with an error; the group holds a record for
another key; two calls of `Do` in a row run `fn` twice and pass the error through. -/
theorem C17_Do_without_contention_witness :
    Group.record (⟨some [("other", 0)], [⟨1, none, none⟩]⟩ : Group Nat String) "k" = none ∧
    (fun n : Nat => some (((none : Option Nat), some "boom"), n + 1)) 0 =
      some ((none, some "boom"), 1) ∧
    ∃ g1, Do (⟨some [("other", 0)], [⟨1, none, none⟩]⟩ : Group Nat String) "k"
        (fun n : Nat => some ((none, some "boom"), n + 1)) 0 = some ((none, some "boom"), g1, 1) ∧
      g1.record "k" = none ∧
      (∀ k, k ≠ "k" → g1.record k =
        Group.record (⟨some [("other", 0)], [⟨1, none, none⟩]⟩ : Group Nat String) k) ∧
      ∀ (fn2 : Nat → Option ((Option Nat × Option String) × Nat)) r2 s2,
        fn2 1 = some (r2, s2) → ∃ g2, Do g1 "k" fn2 1 = some (r2, g2, s2) :=
  ⟨by decide, rfl,
    C17_Do_without_contention (⟨some [("other", 0)], [⟨1, none, none⟩]⟩ : Group Nat String) "k"
      (fun n : Nat => some ((none, some "boom"), n + 1)) 0 1 (none, some "boom") (by decide) rfl⟩

end singleflight

namespace singleflight

variable {α ε : Type}

/-! ## Several callers: the invariant -/

theorem getElem?_set_of_some {β : Type} {l : List β} {t : Nat} {x : β} (h : l[t]? = some x)
    (a : β) (u : Nat) : (l.set t a)[u]? = if u = t then some a else l[u]? := by
  have ht : t < l.length := by
    by_contra hlt
    rw [List.getElem?_eq_none (by omega)] at h
    cases h
  rw [List.getElem?_set]
  by_cases hu : u = t
  · subst hu
    simp [ht]
  · have hne : ¬ t = u := fun e => hu e.symm
    simp [hu, hne]

theorem getElem?_append_one {β : Type} (l : List β) (a : β) (u : Nat) :
    (l ++ [a])[u]? = if u < l.length then l[u]? else if u = l.length then some a else none := by
  by_cases h1 : u < l.length
  · rw [if_pos h1, List.getElem?_append_left h1]
  · rw [if_neg h1]
    by_cases h2 : u = l.length
    · subst h2
      simp
    · rw [if_neg h2, List.getElem?_eq_none]
      simp only [List.length_append, List.length_singleton]
      omega

theorem Inv_init (res : Nat → Option α × Option ε) (keys : List String) :
    Inv res (System.init keys) := by
  have hstart : ∀ (t : Nat) (x : Caller α ε),
      (System.init keys : System α ε).callers[t]? = some x → x.pc = PC.start := by
    intro t x hx
    simp only [System.init, List.getElem?_map, Option.map_eq_some'] at hx
    obtain ⟨k, _, rfl⟩ := hx
    rfl
  refine ⟨?_, ?_, rfl, ?_, ?_, ?_, ?_, ?_⟩
  · intro t x c hx hc
    rw [hstart t x hx] at hc
    cases hc
  · intro t u x y c d hx _ hc
    rw [hstart t x hx] at hc
    cases hc
  · intro c r hr
    simp [System.init, Group.zero] at hr
  · intro c r hr
    simp [System.init, Group.zero] at hr
  · intro t x c hx hc
    rw [hstart t x hx] at hc
    cases hc
  · intro t x c hx hc
    rw [hstart t x hx] at hc
    cases hc
  · intro t x c v e hx hc
    rw [hstart t x hx] at hc
    cases hc

/-- A caller that finds a record for its key goes to wait for it. -/
theorem Inv_join (res : Nat → Option α × Option ε) {s : System α ε} (h : Inv res s) {t : Nat}
    {x : Caller α ε} (hx : s.callers[t]? = some x) (c : Nat) :
    Inv res { s with g := { s.g with m := some (s.g.m.getD []) },
                     callers := s.callers.set t { x with pc := PC.waiting c } } := by
  have hcall := getElem?_set_of_some hx ({ x with pc := PC.waiting c } : Caller α ε)
  refine ⟨?_, ?_, h.execs, h.counter, h.result, ?_, ?_, ?_⟩
  · intro u y d hy hd
    simp only [hcall] at hy
    by_cases hu : u = t
    · rw [if_pos hu] at hy
      cases hy
      cases hd
    · rw [if_neg hu] at hy
      exact h.owner u y d hy hd
  · intro u v y z d e hy hz hd he hk
    simp only [hcall] at hy hz
    by_cases hu : u = t
    · rw [if_pos hu] at hy
      cases hy
      cases hd
    · by_cases hv : v = t
      · rw [if_pos hv] at hz
        cases hz
        cases he
      · rw [if_neg hu] at hy
        rw [if_neg hv] at hz
        exact h.single u v y z d e hy hz hd he hk
  · intro u y d hy hd
    simp only [hcall] at hy
    by_cases hu : u = t
    · rw [if_pos hu] at hy
      cases hy
      cases hd
    · rw [if_neg hu] at hy
      exact h.wrote u y d hy hd
  · intro u y d hy hd
    simp only [hcall] at hy
    by_cases hu : u = t
    · rw [if_pos hu] at hy
      cases hy
      cases hd
    · rw [if_neg hu] at hy
      exact h.done u y d hy hd
  · intro u y d v e hy hd
    simp only [hcall] at hy
    by_cases hu : u = t
    · rw [if_pos hu] at hy
      cases hy
      cases hd
    · rw [if_neg hu] at hy
      exact h.returned u y d v e hy hd

theorem record_mapSet (g : Group α ε) (key : String) (c : Nat)
    (calls : List (call α ε)) (k : String) :
    Group.record (⟨some (lru.mapSet (g.m.getD []) key c), calls⟩ : Group α ε) k =
      if k = key then some c else g.record k := by
  simp only [Group.record, Option.getD_some, lru.mapGet_mapSet]

theorem record_mapDelete (g : Group α ε) (key : String) (calls : List (call α ε))
    (k : String) :
    Group.record (⟨some (lru.mapDelete (g.m.getD []) key), calls⟩ : Group α ε) k =
      if k = key then none else g.record k := by
  simp only [Group.record, Option.getD_some, lru.mapGet_mapDelete]

/-- A caller that finds no record for its key makes one and enters `fn`. -/
theorem Inv_alloc (res : Nat → Option α × Option ε) {s : System α ε} (h : Inv res s) {t : Nat}
    {x : Caller α ε} (hx : s.callers[t]? = some x) (hm : s.g.record x.key = none) :
    Inv res { g := { m := some (lru.mapSet (s.g.m.getD []) x.key s.g.calls.length),
                     calls := s.g.calls ++ [{ wg := 1, val := none, err := none }] },
              callers := s.callers.set t { x with pc := PC.running s.g.calls.length },
              execs := s.execs ++ [s.g.calls.length] } := by
  have hcall := getElem?_set_of_some hx
    ({ x with pc := PC.running s.g.calls.length } : Caller α ε)
  have hrec := record_mapSet s.g x.key s.g.calls.length
    (s.g.calls ++ [{ wg := 1, val := none, err := none }])
  have hheap := getElem?_append_one s.g.calls ({ wg := 1, val := none, err := none } : call α ε)
  have hother : ∀ (u : Nat) (y : Caller α ε) (d : Nat), s.callers[u]? = some y →
      y.pc.owns = some d → y.key ≠ x.key := by
    intro u y d hy hd hk
    have := h.owner u y d hy hd
    rw [hk, hm] at this
    cases this
  have hold : ∀ (d : Nat) (r : call α ε), s.g.calls[d]? = some r →
      (s.g.calls ++ [({ wg := 1, val := none, err := none } : call α ε)])[d]? = some r := by
    intro d r hr
    have hd : d < s.g.calls.length := by
      by_contra hlt
      rw [List.getElem?_eq_none (by omega)] at hr
      cases hr
    rw [hheap, if_pos hd, hr]
  refine ⟨?_, ?_, ?_, ?_, ?_, ?_, ?_, ?_⟩
  · intro u y d hy hd
    simp only [hcall] at hy
    simp only [hrec]
    by_cases hu : u = t
    · rw [if_pos hu] at hy
      cases hy
      simp only [PC.owns, Option.some.injEq] at hd
      rw [if_pos rfl, hd]
    · rw [if_neg hu] at hy
      rw [if_neg (hother u y d hy hd)]
      exact h.owner u y d hy hd
  · intro u v y z d e hy hz hd he hk
    simp only [hcall] at hy hz
    by_cases hu : u = t
    · by_cases hv : v = t
      · rw [hu, hv]
      · rw [if_pos hu] at hy
        rw [if_neg hv] at hz
        cases hy
        exact absurd hk.symm (hother v z e hz he)
    · by_cases hv : v = t
      · rw [if_neg hu] at hy
        rw [if_pos hv] at hz
        cases hz
        exact absurd hk (hother u y d hy hd)
      · rw [if_neg hu] at hy
        rw [if_neg hv] at hz
        exact h.single u v y z d e hy hz hd he hk
  · show s.execs ++ [s.g.calls.length] =
      List.range (s.g.calls ++ [({ wg := 1, val := none, err := none } : call α ε)]).length
    rw [List.length_append, List.length_singleton, List.range_succ, h.execs]
  · intro d r hr
    simp only [hheap] at hr
    by_cases hd : d < s.g.calls.length
    · rw [if_pos hd] at hr
      exact h.counter d r hr
    · rw [if_neg hd] at hr
      by_cases hd2 : d = s.g.calls.length
      · rw [if_pos hd2] at hr
        cases hr
        exact le_refl _
      · rw [if_neg hd2] at hr
        cases hr
  · intro d r hr hwg
    simp only [hheap] at hr
    by_cases hd : d < s.g.calls.length
    · rw [if_pos hd] at hr
      exact h.result d r hr hwg
    · rw [if_neg hd] at hr
      by_cases hd2 : d = s.g.calls.length
      · rw [if_pos hd2] at hr
        cases hr
        cases hwg
      · rw [if_neg hd2] at hr
        cases hr
  · intro u y d hy hd
    simp only [hcall] at hy
    by_cases hu : u = t
    · rw [if_pos hu] at hy
      cases hy
      cases hd
    · rw [if_neg hu] at hy
      obtain ⟨r, hr, hres⟩ := h.wrote u y d hy hd
      exact ⟨r, hold d r hr, hres⟩
  · intro u y d hy hd
    simp only [hcall] at hy
    by_cases hu : u = t
    · rw [if_pos hu] at hy
      cases hy
      cases hd
    · rw [if_neg hu] at hy
      obtain ⟨r, hr, hres⟩ := h.done u y d hy hd
      exact ⟨r, hold d r hr, hres⟩
  · intro u y d v e hy hd
    simp only [hcall] at hy
    by_cases hu : u = t
    · rw [if_pos hu] at hy
      cases hy
      cases hd
    · rw [if_neg hu] at hy
      exact h.returned u y d v e hy hd

/-- A caller whose wait is over returns the pair of the record. -/
theorem Inv_wake (res : Nat → Option α × Option ε) {s : System α ε} (h : Inv res s) {t : Nat}
    {x : Caller α ε} (hx : s.callers[t]? = some x) {c : Nat}
    {r : call α ε} (hr : s.g.calls[c]? = some r) (hwg : r.wg = 0) :
    Inv res { s with callers := s.callers.set t { x with pc := PC.returned c r.val r.err } } := by
  have hcall := getElem?_set_of_some hx
    ({ x with pc := PC.returned c r.val r.err } : Caller α ε)
  refine ⟨?_, ?_, h.execs, h.counter, h.result, ?_, ?_, ?_⟩
  · intro u y d hy hd
    simp only [hcall] at hy
    by_cases hu : u = t
    · rw [if_pos hu] at hy
      cases hy
      cases hd
    · rw [if_neg hu] at hy
      exact h.owner u y d hy hd
  · intro u v y z d e hy hz hd he hk
    simp only [hcall] at hy hz
    by_cases hu : u = t
    · rw [if_pos hu] at hy
      cases hy
      cases hd
    · by_cases hv : v = t
      · rw [if_pos hv] at hz
        cases hz
        cases he
      · rw [if_neg hu] at hy
        rw [if_neg hv] at hz
        exact h.single u v y z d e hy hz hd he hk
  · intro u y d hy hd
    simp only [hcall] at hy
    by_cases hu : u = t
    · rw [if_pos hu] at hy
      cases hy
      cases hd
    · rw [if_neg hu] at hy
      exact h.wrote u y d hy hd
  · intro u y d hy hd
    simp only [hcall] at hy
    by_cases hu : u = t
    · rw [if_pos hu] at hy
      cases hy
      cases hd
    · rw [if_neg hu] at hy
      exact h.done u y d hy hd
  · intro u y d v e hy hd
    simp only [hcall] at hy
    by_cases hu : u = t
    · rw [if_pos hu] at hy
      cases hy
      simp only [PC.returned.injEq] at hd
      obtain ⟨rfl, rfl, rfl⟩ := hd
      exact h.result _ r hr hwg
    · rw [if_neg hu] at hy
      exact h.returned u y d v e hy hd

/-- The caller inside `fn` gets its result and writes it to the record. -/
theorem Inv_write (res : Nat → Option α × Option ε) {s : System α ε} (h : Inv res s) {t : Nat}
    {x : Caller α ε} (hx : s.callers[t]? = some x) {c : Nat} (hpc : x.pc = PC.running c)
    {r : call α ε} (hr : s.g.calls[c]? = some r) :
    Inv res { s with g := { s.g with calls :=
                              (s.g.calls.set c { r with val := (res c).1, err := (res c).2 }) },
                     callers := s.callers.set t { x with pc := PC.wrote c } } := by
  have hcall := getElem?_set_of_some hx ({ x with pc := PC.wrote c } : Caller α ε)
  have hheap := getElem?_set_of_some hr
    ({ r with val := (res c).1, err := (res c).2 } : call α ε)
  have hown : x.pc.owns = some c := by rw [hpc]; rfl
  refine ⟨?_, ?_, ?_, ?_, ?_, ?_, ?_, ?_⟩
  · intro u y d hy hd
    simp only [hcall] at hy
    by_cases hu : u = t
    · rw [if_pos hu] at hy
      cases hy
      simp only [PC.owns, Option.some.injEq] at hd
      rw [← hd]
      exact h.owner t x c hx hown
    · rw [if_neg hu] at hy
      exact h.owner u y d hy hd
  · intro u v y z d e hy hz hd he hk
    simp only [hcall] at hy hz
    by_cases hu : u = t
    · by_cases hv : v = t
      · rw [hu, hv]
      · rw [if_pos hu] at hy
        rw [if_neg hv] at hz
        cases hy
        rw [hu]
        exact h.single t v x z c e hx hz hown he hk
    · by_cases hv : v = t
      · rw [if_neg hu] at hy
        rw [if_pos hv] at hz
        cases hz
        rw [hv]
        exact h.single u t y x d c hy hx hd hown hk
      · rw [if_neg hu] at hy
        rw [if_neg hv] at hz
        exact h.single u v y z d e hy hz hd he hk
  · show s.execs = List.range (s.g.calls.set c _).length
    rw [List.length_set]
    exact h.execs
  · intro d r' hr'
    simp only [hheap] at hr'
    by_cases hd : d = c
    · rw [if_pos hd] at hr'
      cases hr'
      exact h.counter c r hr
    · rw [if_neg hd] at hr'
      exact h.counter d r' hr'
  · intro d r' hr' hwg
    simp only [hheap] at hr'
    by_cases hd : d = c
    · rw [if_pos hd] at hr'
      cases hr'
      rw [hd]
    · rw [if_neg hd] at hr'
      exact h.result d r' hr' hwg
  · intro u y d hy hd
    simp only [hcall] at hy
    simp only [hheap]
    by_cases hdc : d = c
    · rw [if_pos hdc, hdc]
      exact ⟨_, rfl, rfl⟩
    · rw [if_neg hdc]
      by_cases hu : u = t
      · rw [if_pos hu] at hy
        cases hy
        simp only [PC.wrote.injEq] at hd
        exact absurd hd.symm hdc
      · rw [if_neg hu] at hy
        exact h.wrote u y d hy hd
  · intro u y d hy hd
    simp only [hcall] at hy
    simp only [hheap]
    by_cases hu : u = t
    · rw [if_pos hu] at hy
      cases hy
      cases hd
    · rw [if_neg hu] at hy
      obtain ⟨r0, hr0, hwg⟩ := h.done u y d hy hd
      by_cases hdc : d = c
      · rw [if_pos hdc]
        rw [hdc, hr] at hr0
        cases hr0
        exact ⟨_, rfl, hwg⟩
      · rw [if_neg hdc]
        exact ⟨r0, hr0, hwg⟩
  · intro u y d v e hy hd
    simp only [hcall] at hy
    by_cases hu : u = t
    · rw [if_pos hu] at hy
      cases hy
      cases hd
    · rw [if_neg hu] at hy
      exact h.returned u y d v e hy hd

/-- The caller that wrote the result releases the waiters with `c.wg.Done()`. -/
theorem Inv_signal (res : Nat → Option α × Option ε) {s : System α ε} (h : Inv res s) {t : Nat}
    {x : Caller α ε} (hx : s.callers[t]? = some x) {c : Nat} (hpc : x.pc = PC.wrote c)
    {r : call α ε} (hr : s.g.calls[c]? = some r) :
    Inv res { s with g := { s.g with calls := s.g.calls.set c { r with wg := r.wg - 1 } },
                     callers := s.callers.set t { x with pc := PC.done c } } := by
  have hcall := getElem?_set_of_some hx ({ x with pc := PC.done c } : Caller α ε)
  have hheap := getElem?_set_of_some hr ({ r with wg := r.wg - 1 } : call α ε)
  have hown : x.pc.owns = some c := by rw [hpc]; rfl
  have hres : (r.val, r.err) = res c := by
    obtain ⟨r0, hr0, h0⟩ := h.wrote t x c hx hpc
    rw [hr] at hr0
    cases hr0
    exact h0
  have hle : r.wg ≤ 1 := h.counter c r hr
  refine ⟨?_, ?_, ?_, ?_, ?_, ?_, ?_, ?_⟩
  · intro u y d hy hd
    simp only [hcall] at hy
    by_cases hu : u = t
    · rw [if_pos hu] at hy
      cases hy
      simp only [PC.owns, Option.some.injEq] at hd
      rw [← hd]
      exact h.owner t x c hx hown
    · rw [if_neg hu] at hy
      exact h.owner u y d hy hd
  · intro u v y z d e hy hz hd he hk
    simp only [hcall] at hy hz
    by_cases hu : u = t
    · by_cases hv : v = t
      · rw [hu, hv]
      · rw [if_pos hu] at hy
        rw [if_neg hv] at hz
        cases hy
        rw [hu]
        exact h.single t v x z c e hx hz hown he hk
    · by_cases hv : v = t
      · rw [if_neg hu] at hy
        rw [if_pos hv] at hz
        cases hz
        rw [hv]
        exact h.single u t y x d c hy hx hd hown hk
      · rw [if_neg hu] at hy
        rw [if_neg hv] at hz
        exact h.single u v y z d e hy hz hd he hk
  · show s.execs = List.range (s.g.calls.set c _).length
    rw [List.length_set]
    exact h.execs
  · intro d r' hr'
    simp only [hheap] at hr'
    by_cases hd : d = c
    · rw [if_pos hd] at hr'
      cases hr'
      show r.wg - 1 ≤ 1
      omega
    · rw [if_neg hd] at hr'
      exact h.counter d r' hr'
  · intro d r' hr' hwg
    simp only [hheap] at hr'
    by_cases hd : d = c
    · rw [if_pos hd] at hr'
      cases hr'
      rw [hd]
      exact hres
    · rw [if_neg hd] at hr'
      exact h.result d r' hr' hwg
  · intro u y d hy hd
    simp only [hcall] at hy
    simp only [hheap]
    by_cases hu : u = t
    · rw [if_pos hu] at hy
      cases hy
      cases hd
    · rw [if_neg hu] at hy
      obtain ⟨r0, hr0, h0⟩ := h.wrote u y d hy hd
      by_cases hdc : d = c
      · rw [if_pos hdc]
        rw [hdc, hr] at hr0
        cases hr0
        rw [hdc] at h0
        exact ⟨_, rfl, by rw [hdc]; exact h0⟩
      · rw [if_neg hdc]
        exact ⟨r0, hr0, h0⟩
  · intro u y d hy hd
    simp only [hcall] at hy
    simp only [hheap]
    by_cases hdc : d = c
    · rw [if_pos hdc]
      exact ⟨_, rfl, by show r.wg - 1 = 0; omega⟩
    · rw [if_neg hdc]
      by_cases hu : u = t
      · rw [if_pos hu] at hy
        cases hy
        simp only [PC.done.injEq] at hd
        exact absurd hd.symm hdc
      · rw [if_neg hu] at hy
        exact h.done u y d hy hd
  · intro u y d v e hy hd
    simp only [hcall] at hy
    by_cases hu : u = t
    · rw [if_pos hu] at hy
      cases hy
      cases hd
    · rw [if_neg hu] at hy
      exact h.returned u y d v e hy hd

/-- The caller that made the record deletes it from the map and returns its pair. -/
theorem Inv_delete (res : Nat → Option α × Option ε) {s : System α ε} (h : Inv res s) {t : Nat}
    {x : Caller α ε} (hx : s.callers[t]? = some x) {c : Nat} (hpc : x.pc = PC.done c)
    {r : call α ε} (hr : s.g.calls[c]? = some r) :
    Inv res { s with g := { s.g with m := some (lru.mapDelete (s.g.m.getD []) x.key) },
                     callers := s.callers.set t { x with pc := PC.returned c r.val r.err } } := by
  have hcall := getElem?_set_of_some hx
    ({ x with pc := PC.returned c r.val r.err } : Caller α ε)
  have hrec := record_mapDelete s.g x.key s.g.calls
  have hown : x.pc.owns = some c := by rw [hpc]; rfl
  have hres : (r.val, r.err) = res c := by
    obtain ⟨r0, hr0, h0⟩ := h.done t x c hx hpc
    rw [hr] at hr0
    cases hr0
    exact h.result c r hr h0
  refine ⟨?_, ?_, h.execs, h.counter, h.result, ?_, ?_, ?_⟩
  · intro u y d hy hd
    simp only [hcall] at hy
    by_cases hu : u = t
    · rw [if_pos hu] at hy
      cases hy
      cases hd
    · rw [if_neg hu] at hy
      have hk : y.key ≠ x.key := fun hk => hu (h.single u t y x d c hy hx hd hown hk)
      show Group.record (⟨some (lru.mapDelete (s.g.m.getD []) x.key), s.g.calls⟩ : Group α ε)
        y.key = some d
      rw [hrec, if_neg hk]
      exact h.owner u y d hy hd
  · intro u v y z d e hy hz hd he hk
    simp only [hcall] at hy hz
    by_cases hu : u = t
    · rw [if_pos hu] at hy
      cases hy
      cases hd
    · by_cases hv : v = t
      · rw [if_pos hv] at hz
        cases hz
        cases he
      · rw [if_neg hu] at hy
        rw [if_neg hv] at hz
        exact h.single u v y z d e hy hz hd he hk
  · intro u y d hy hd
    simp only [hcall] at hy
    by_cases hu : u = t
    · rw [if_pos hu] at hy
      cases hy
      cases hd
    · rw [if_neg hu] at hy
      exact h.wrote u y d hy hd
  · intro u y d hy hd
    simp only [hcall] at hy
    by_cases hu : u = t
    · rw [if_pos hu] at hy
      cases hy
      cases hd
    · rw [if_neg hu] at hy
      exact h.done u y d hy hd
  · intro u y d v e hy hd
    simp only [hcall] at hy
    by_cases hu : u = t
    · rw [if_pos hu] at hy
      cases hy
      simp only [PC.returned.injEq] at hd
      obtain ⟨rfl, rfl, rfl⟩ := hd
      exact hres
    · rw [if_neg hu] at hy
      exact h.returned u y d v e hy hd

/-- Every step of every caller keeps the invariant. -/
theorem Inv_step (res : Nat → Option α × Option ε) {s s' : System α ε} (h : Inv res s)
    (t : Nat) (hs : step res s t = some s') : Inv res s' := by
  unfold step at hs
  cases hx : s.callers[t]? with
  | none => simp only [hx] at hs; cases hs
  | some x =>
    cases hpc : x.pc with
    | start =>
      cases hm : lru.mapGet (s.g.m.getD []) x.key with
      | some c =>
        simp only [hx, hpc, hm, Option.some.injEq] at hs
        rw [← hs]
        exact Inv_join res h hx c
      | none =>
        simp only [hx, hpc, hm, Option.some.injEq] at hs
        rw [← hs]
        exact Inv_alloc res h hx hm
    | waiting c =>
      cases hr : s.g.calls[c]? with
      | none => simp only [hx, hpc, hr] at hs; cases hs
      | some r =>
        by_cases hwg : r.wg = 0
        · simp only [hx, hpc, hr, hwg, if_true, Option.some.injEq] at hs
          rw [← hs]
          exact Inv_wake res h hx hr hwg
        · simp only [hx, hpc, hr, hwg, if_false] at hs
          cases hs
    | running c =>
      cases hr : s.g.calls[c]? with
      | none => simp only [hx, hpc, hr] at hs; cases hs
      | some r =>
        simp only [hx, hpc, hr, Option.some.injEq] at hs
        rw [← hs]
        exact Inv_write res h hx hpc hr
    | wrote c =>
      cases hr : s.g.calls[c]? with
      | none => simp only [hx, hpc, hr] at hs; cases hs
      | some r =>
        by_cases hwg : r.wg = 0
        · simp only [hx, hpc, hr, hwg, if_true] at hs
          cases hs
        · simp only [hx, hpc, hr, hwg, if_false, Option.some.injEq] at hs
          rw [← hs]
          exact Inv_signal res h hx hpc hr
    | done c =>
      cases hr : s.g.calls[c]? with
      | none => simp only [hx, hpc, hr] at hs; cases hs
      | some r =>
        simp only [hx, hpc, hr, Option.some.injEq] at hs
        rw [← hs]
        exact Inv_delete res h hx hpc hr
    | returned c v e =>
      simp only [hx, hpc] at hs
      cases hs

/-- Every schedule keeps the invariant. -/
theorem Inv_exec (res : Nat → Option α × Option ε) (sched : List Nat) {s : System α ε}
    (h : Inv res s) : Inv res (exec res s sched) := by
  induction sched generalizing s with
  | nil => exact h
  | cons t ts ih =>
    simp only [exec]
    apply ih
    cases hs : step res s t with
    | none => exact h
    | some s' => exact Inv_step res h t hs

/-- The first step of a caller that finds a record for its key. -/
theorem step_join (res : Nat → Option α × Option ε) (s : System α ε) (t : Nat)
    (x : Caller α ε) (c : Nat) (hx : s.callers[t]? = some x) (hpc : x.pc = PC.start)
    (hrec : s.g.record x.key = some c) :
    step res s t = some { s with g := { s.g with m := some (s.g.m.getD []) },
                                 callers := s.callers.set t { x with pc := PC.waiting c } } := by
  have hrec' : lru.mapGet (s.g.m.getD []) x.key = some c := hrec
  simp only [step, hx, hpc, hrec']

end singleflight

namespace singleflight

variable {α ε : Type}

/-! ## Several callers: nobody gets stuck -/

theorem Live_init (keys : List String) : Live (System.init keys : System α ε) := by
  have hstart : ∀ (t : Nat) (x : Caller α ε),
      (System.init keys : System α ε).callers[t]? = some x → x.pc = PC.start := by
    intro t x hx
    simp only [System.init, List.getElem?_map, Option.map_eq_some'] at hx
    obtain ⟨k, _, rfl⟩ := hx
    rfl
  refine ⟨?_, ?_, ?_, ?_, ?_⟩
  · intro t x c hx hc
    rw [hstart t x hx] at hc
    rcases hc with hc | hc <;> cases hc
  · intro t u x y c hx _ hc
    rw [hstart t x hx] at hc
    cases hc
  · intro t x c hx hc
    rw [hstart t x hx] at hc
    rcases hc with hc | hc <;> cases hc
  · intro k c hc
    simp [System.init, Group.zero, Group.record, lru.mapGet] at hc
  · intro t x c hx hc
    rw [hstart t x hx] at hc
    cases hc

theorem lt_of_getElem?_some {β : Type} {l : List β} {c : Nat} {r : β} (h : l[c]? = some r) :
    c < l.length := by
  by_contra hlt
  rw [List.getElem?_eq_none (by omega)] at h
  cases h

theorem Live_join (res : Nat → Option α × Option ε) {s : System α ε} (h : Inv res s)
    (l : Live s) {t : Nat} {x : Caller α ε} (hx : s.callers[t]? = some x)
    (hpc : x.pc = PC.start) {c : Nat} (hrec : s.g.record x.key = some c) :
    Live { s with g := { s.g with m := some (s.g.m.getD []) },
                  callers := s.callers.set t { x with pc := PC.waiting c } } := by
  have hcall := getElem?_set_of_some hx ({ x with pc := PC.waiting c } : Caller α ε)
  obtain ⟨o, y0, hy0, _, hown0⟩ := l.mapped x.key c hrec
  have hot : o ≠ t := by
    rintro rfl
    rw [hx] at hy0
    cases hy0
    rw [hpc] at hown0
    cases hown0
  have hkeep : ∀ (u : Nat) (y : Caller α ε), s.callers[u]? = some y → y.pc.owns.isSome →
      (s.callers.set t { x with pc := PC.waiting c })[u]? = some y := by
    intro u y hy hown
    rw [hcall, if_neg]
    · exact hy
    · rintro rfl
      rw [hx] at hy
      cases hy
      rw [hpc] at hown
      cases hown
  refine ⟨?_, ?_, ?_, ?_, ?_⟩
  · intro u y d hy hd
    simp only [hcall] at hy
    by_cases hu : u = t
    · rw [if_pos hu] at hy
      cases hy
      rcases hd with hd | hd
      · simp only [PC.waiting.injEq] at hd
        rw [← hd]
        exact l.bound o y0 c hy0 (Or.inr hown0)
      · cases hd
    · rw [if_neg hu] at hy
      exact l.bound u y d hy hd
  · intro u v y z d hy hz hd he
    simp only [hcall] at hy hz
    by_cases hu : u = t
    · rw [if_pos hu] at hy
      cases hy
      cases hd
    · by_cases hv : v = t
      · rw [if_pos hv] at hz
        cases hz
        cases he
      · rw [if_neg hu] at hy
        rw [if_neg hv] at hz
        exact l.unique u v y z d hy hz hd he
  · intro u y d hy hd
    simp only [hcall] at hy
    by_cases hu : u = t
    · rw [if_pos hu] at hy
      cases hy
      rcases hd with hd | hd <;> cases hd
    · rw [if_neg hu] at hy
      exact l.pending u y d hy hd
  · intro k d hk
    obtain ⟨u, y, hy, hyk, hown⟩ := l.mapped k d hk
    exact ⟨u, y, hkeep u y hy (by rw [hown]; rfl), hyk, hown⟩
  · intro u y d hy hd
    simp only [hcall] at hy
    have hfrom : ∀ (o' : Nat) (y' : Caller α ε) (d' : Nat), s.callers[o']? = some y' →
        (y'.pc = PC.running d' ∨ y'.pc = PC.wrote d') →
        ∃ (u : Nat) (y : Caller α ε),
          (s.callers.set t { x with pc := PC.waiting c })[u]? = some y ∧
          (y.pc = PC.running d' ∨ y.pc = PC.wrote d') := by
      intro o' y' d' hy' hpc'
      refine ⟨o', y', hkeep o' y' hy' ?_, hpc'⟩
      rcases hpc' with h1 | h1 <;> rw [h1] <;> rfl
    by_cases hu : u = t
    · rw [if_pos hu] at hy
      cases hy
      simp only [PC.waiting.injEq] at hd
      subst hd
      cases hp0 : y0.pc with
      | start => rw [hp0] at hown0; cases hown0
      | waiting c' => rw [hp0] at hown0; cases hown0
      | returned c' v e => rw [hp0] at hown0; cases hown0
      | running c' =>
        rw [hp0] at hown0
        simp only [PC.owns, Option.some.injEq] at hown0
        subst hown0
        exact Or.inr (hfrom o y0 c' hy0 (Or.inl hp0))
      | wrote c' =>
        rw [hp0] at hown0
        simp only [PC.owns, Option.some.injEq] at hown0
        subst hown0
        exact Or.inr (hfrom o y0 c' hy0 (Or.inr hp0))
      | done c' =>
        rw [hp0] at hown0
        simp only [PC.owns, Option.some.injEq] at hown0
        subst hown0
        exact Or.inl (h.done o y0 c' hy0 hp0)
    · rw [if_neg hu] at hy
      rcases l.waits u y d hy hd with hl | ⟨o', y', hy', hpc'⟩
      · exact Or.inl hl
      · exact Or.inr (hfrom o' y' d hy' hpc')

theorem Live_alloc {s : System α ε} (l : Live s) {t : Nat} {x : Caller α ε}
    (hx : s.callers[t]? = some x) (hpc : x.pc = PC.start) :
    Live ({ g := { m := some (lru.mapSet (s.g.m.getD []) x.key s.g.calls.length),
                   calls := s.g.calls ++ [{ wg := 1, val := none, err := none }] },
            callers := s.callers.set t { x with pc := PC.running s.g.calls.length },
            execs := s.execs ++ [s.g.calls.length] } : System α ε) := by
  have hcall := getElem?_set_of_some hx
    ({ x with pc := PC.running s.g.calls.length } : Caller α ε)
  have hrec := record_mapSet s.g x.key s.g.calls.length
    (s.g.calls ++ [{ wg := 1, val := none, err := none }])
  have hheap := getElem?_append_one s.g.calls ({ wg := 1, val := none, err := none } : call α ε)
  have hold : ∀ (d : Nat) (r : call α ε), s.g.calls[d]? = some r →
      (s.g.calls ++ [({ wg := 1, val := none, err := none } : call α ε)])[d]? = some r := by
    intro d r hr
    rw [hheap, if_pos (lt_of_getElem?_some hr), hr]
  have hkeep : ∀ (u : Nat) (y : Caller α ε), s.callers[u]? = some y → y.pc ≠ PC.start →
      (s.callers.set t { x with pc := PC.running s.g.calls.length })[u]? = some y := by
    intro u y hy hne
    rw [hcall, if_neg]
    · exact hy
    · rintro rfl
      rw [hx] at hy
      cases hy
      exact hne hpc
  have hlen : (s.g.calls ++ [({ wg := 1, val := none, err := none } : call α ε)]).length =
      s.g.calls.length + 1 := by simp
  refine ⟨?_, ?_, ?_, ?_, ?_⟩
  · intro u y d hy hd
    show d < (s.g.calls ++ [({ wg := 1, val := none, err := none } : call α ε)]).length
    rw [hlen]
    simp only [hcall] at hy
    by_cases hu : u = t
    · rw [if_pos hu] at hy
      cases hy
      rcases hd with hd | hd
      · cases hd
      · simp only [PC.owns, Option.some.injEq] at hd
        omega
    · rw [if_neg hu] at hy
      have := l.bound u y d hy hd
      omega
  · intro u v y z d hy hz hd he
    simp only [hcall] at hy hz
    by_cases hu : u = t
    · by_cases hv : v = t
      · rw [hu, hv]
      · rw [if_pos hu] at hy
        rw [if_neg hv] at hz
        cases hy
        simp only [PC.owns, Option.some.injEq] at hd
        have := l.bound v z d hz (Or.inr he)
        omega
    · by_cases hv : v = t
      · rw [if_neg hu] at hy
        rw [if_pos hv] at hz
        cases hz
        simp only [PC.owns, Option.some.injEq] at he
        have := l.bound u y d hy (Or.inr hd)
        omega
      · rw [if_neg hu] at hy
        rw [if_neg hv] at hz
        exact l.unique u v y z d hy hz hd he
  · intro u y d hy hd
    simp only [hcall] at hy
    by_cases hu : u = t
    · rw [if_pos hu] at hy
      cases hy
      rcases hd with hd | hd
      · simp only [PC.running.injEq] at hd
        refine ⟨{ wg := 1, val := none, err := none }, ?_, rfl⟩
        show (s.g.calls ++ [({ wg := 1, val := none, err := none } : call α ε)])[d]? = _
        rw [hheap, ← hd]
        simp
      · cases hd
    · rw [if_neg hu] at hy
      obtain ⟨r, hr, hwg⟩ := l.pending u y d hy hd
      exact ⟨r, hold d r hr, hwg⟩
  · intro k d hk
    have hk' : (if k = x.key then some s.g.calls.length else s.g.record k) = some d := by
      rw [← hrec]
      exact hk
    by_cases hkx : k = x.key
    · rw [if_pos hkx] at hk'
      simp only [Option.some.injEq] at hk'
      refine ⟨t, { x with pc := PC.running s.g.calls.length }, ?_, hkx.symm, ?_⟩
      · show (s.callers.set t { x with pc := PC.running s.g.calls.length })[t]? = _
        rw [hcall, if_pos rfl]
      · rw [← hk']
        rfl
    · rw [if_neg hkx] at hk'
      obtain ⟨u, y, hy, hyk, hown⟩ := l.mapped k d hk'
      refine ⟨u, y, hkeep u y hy ?_, hyk, hown⟩
      intro hst
      rw [hst] at hown
      cases hown
  · intro u y d hy hd
    simp only [hcall] at hy
    by_cases hu : u = t
    · rw [if_pos hu] at hy
      cases hy
      cases hd
    · rw [if_neg hu] at hy
      rcases l.waits u y d hy hd with ⟨r, hr, hwg⟩ | ⟨o, y', hy', hpc'⟩
      · exact Or.inl ⟨r, hold d r hr, hwg⟩
      · refine Or.inr ⟨o, y', hkeep o y' hy' ?_, hpc'⟩
        intro hst
        rw [hst] at hpc'
        rcases hpc' with h1 | h1 <;> cases h1

theorem Live_wake {s : System α ε} (l : Live s) {t : Nat} {x : Caller α ε}
    (hx : s.callers[t]? = some x) {c : Nat} (hpc : x.pc = PC.waiting c) (v : Option α)
    (e : Option ε) :
    Live { s with callers := s.callers.set t { x with pc := PC.returned c v e } } := by
  have hcall := getElem?_set_of_some hx ({ x with pc := PC.returned c v e } : Caller α ε)
  have hkeep : ∀ (u : Nat) (y : Caller α ε), s.callers[u]? = some y → y.pc ≠ PC.waiting c →
      (s.callers.set t { x with pc := PC.returned c v e })[u]? = some y := by
    intro u y hy hne
    rw [hcall, if_neg]
    · exact hy
    · rintro rfl
      rw [hx] at hy
      cases hy
      exact hne hpc
  refine ⟨?_, ?_, ?_, ?_, ?_⟩
  · intro u y d hy hd
    simp only [hcall] at hy
    by_cases hu : u = t
    · rw [if_pos hu] at hy
      cases hy
      rcases hd with hd | hd <;> cases hd
    · rw [if_neg hu] at hy
      exact l.bound u y d hy hd
  · intro u w y z d hy hz hd he
    simp only [hcall] at hy hz
    by_cases hu : u = t
    · rw [if_pos hu] at hy
      cases hy
      cases hd
    · by_cases hw : w = t
      · rw [if_pos hw] at hz
        cases hz
        cases he
      · rw [if_neg hu] at hy
        rw [if_neg hw] at hz
        exact l.unique u w y z d hy hz hd he
  · intro u y d hy hd
    simp only [hcall] at hy
    by_cases hu : u = t
    · rw [if_pos hu] at hy
      cases hy
      rcases hd with hd | hd <;> cases hd
    · rw [if_neg hu] at hy
      exact l.pending u y d hy hd
  · intro k d hk
    obtain ⟨u, y, hy, hyk, hown⟩ := l.mapped k d hk
    refine ⟨u, y, hkeep u y hy ?_, hyk, hown⟩
    intro hst
    rw [hst] at hown
    cases hown
  · intro u y d hy hd
    simp only [hcall] at hy
    by_cases hu : u = t
    · rw [if_pos hu] at hy
      cases hy
      cases hd
    · rw [if_neg hu] at hy
      rcases l.waits u y d hy hd with hl | ⟨o, y', hy', hpc'⟩
      · exact Or.inl hl
      · refine Or.inr ⟨o, y', hkeep o y' hy' ?_, hpc'⟩
        intro hst
        rw [hst] at hpc'
        rcases hpc' with h1 | h1 <;> cases h1

/-- The callers after caller `t`, which made record `c`, has moved on to a point where it
still holds `c`: everybody else is where it was. -/
theorem owner_after_move {s : System α ε} {t : Nat} {x : Caller α ε}
    (hx : s.callers[t]? = some x) {c : Nat} (hown : x.pc.owns = some c) (p : PC α ε)
    (hp : p.owns = some c) (u : Nat) (y : Caller α ε)
    (hy : (s.callers.set t { x with pc := p })[u]? = some y) (d : Nat) (hd : y.pc.owns = some d) :
    ∃ y0, s.callers[u]? = some y0 ∧ y0.key = y.key ∧ y0.pc.owns = some d := by
  rw [getElem?_set_of_some hx] at hy
  by_cases hu : u = t
  · rw [if_pos hu] at hy
    cases hy
    rw [hu]
    refine ⟨x, hx, rfl, ?_⟩
    rw [hown, ← hp]
    exact hd
  · rw [if_neg hu] at hy
    exact ⟨y, hy, rfl, hd⟩

theorem Live_write (res : Nat → Option α × Option ε) {s : System α ε} (l : Live s) {t : Nat}
    {x : Caller α ε} (hx : s.callers[t]? = some x) {c : Nat} (hpc : x.pc = PC.running c)
    {r : call α ε} (hr : s.g.calls[c]? = some r) :
    Live { s with g := { s.g with calls :=
                           (s.g.calls.set c { r with val := (res c).1, err := (res c).2 }) },
                  callers := s.callers.set t { x with pc := PC.wrote c } } := by
  have hcall := getElem?_set_of_some hx ({ x with pc := PC.wrote c } : Caller α ε)
  have hheap := getElem?_set_of_some hr
    ({ r with val := (res c).1, err := (res c).2 } : call α ε)
  have hown : x.pc.owns = some c := by rw [hpc]; rfl
  have hback := owner_after_move hx hown (PC.wrote c) rfl
  have hwgkeep : ∀ (d : Nat) (r0 : call α ε), s.g.calls[d]? = some r0 →
      ∃ r1, (s.g.calls.set c { r with val := (res c).1, err := (res c).2 })[d]? = some r1 ∧
        r1.wg = r0.wg := by
    intro d r0 hr0
    rw [hheap]
    by_cases hdc : d = c
    · rw [if_pos hdc]
      rw [hdc, hr] at hr0
      cases hr0
      exact ⟨_, rfl, rfl⟩
    · rw [if_neg hdc]
      exact ⟨r0, hr0, rfl⟩
  refine ⟨?_, ?_, ?_, ?_, ?_⟩
  · intro u y d hy hd
    show d < (s.g.calls.set c _).length
    rw [List.length_set]
    simp only [hcall] at hy
    by_cases hu : u = t
    · rw [if_pos hu] at hy
      cases hy
      rcases hd with hd | hd
      · cases hd
      · simp only [PC.owns, Option.some.injEq] at hd
        rw [← hd]
        exact l.bound t x c hx (Or.inr hown)
    · rw [if_neg hu] at hy
      exact l.bound u y d hy hd
  · intro u v y z d hy hz hd he
    obtain ⟨y0, hy0, _, hd0⟩ := hback u y hy d hd
    obtain ⟨z0, hz0, _, he0⟩ := hback v z hz d he
    exact l.unique u v y0 z0 d hy0 hz0 hd0 he0
  · intro u y d hy hd
    simp only [hcall] at hy
    by_cases hu : u = t
    · rw [if_pos hu] at hy
      cases hy
      rcases hd with hd | hd
      · cases hd
      · simp only [PC.wrote.injEq] at hd
        obtain ⟨r0, hr0, hwg⟩ := l.pending t x c hx (Or.inl hpc)
        obtain ⟨r1, hr1, hwg1⟩ := hwgkeep c r0 hr0
        rw [← hd]
        exact ⟨r1, hr1, hwg1.trans hwg⟩
    · rw [if_neg hu] at hy
      obtain ⟨r0, hr0, hwg⟩ := l.pending u y d hy hd
      obtain ⟨r1, hr1, hwg1⟩ := hwgkeep d r0 hr0
      exact ⟨r1, hr1, hwg1.trans hwg⟩
  · intro k d hk
    obtain ⟨u, y, hy, hyk, hyown⟩ := l.mapped k d hk
    by_cases hu : u = t
    · rw [hu, hx] at hy
      cases hy
      rw [hown] at hyown
      simp only [Option.some.injEq] at hyown
      refine ⟨t, { x with pc := PC.wrote c }, ?_, hyk, ?_⟩
      · show (s.callers.set t { x with pc := PC.wrote c })[t]? = _
        rw [hcall, if_pos rfl]
      · rw [← hyown]
        rfl
    · refine ⟨u, y, ?_, hyk, hyown⟩
      show (s.callers.set t { x with pc := PC.wrote c })[u]? = _
      rw [hcall, if_neg hu]
      exact hy
  · intro u y d hy hd
    simp only [hcall] at hy
    by_cases hu : u = t
    · rw [if_pos hu] at hy
      cases hy
      cases hd
    · rw [if_neg hu] at hy
      rcases l.waits u y d hy hd with ⟨r0, hr0, hwg⟩ | ⟨o, y', hy', hpc'⟩
      · obtain ⟨r1, hr1, hwg1⟩ := hwgkeep d r0 hr0
        exact Or.inl ⟨r1, hr1, hwg1.trans hwg⟩
      · right
        by_cases ho : o = t
        · rw [ho, hx] at hy'
          cases hy'
          have hdc : d = c := by
            rcases hpc' with h1 | h1 <;> rw [hpc] at h1 <;> cases h1
            rfl
          refine ⟨t, { x with pc := PC.wrote c }, ?_, Or.inr (by rw [hdc])⟩
          show (s.callers.set t { x with pc := PC.wrote c })[t]? = _
          rw [hcall, if_pos rfl]
        · refine ⟨o, y', ?_, hpc'⟩
          show (s.callers.set t { x with pc := PC.wrote c })[o]? = _
          rw [hcall, if_neg ho]
          exact hy'

theorem Live_signal {s : System α ε} (l : Live s) {t : Nat}
    {x : Caller α ε} (hx : s.callers[t]? = some x) {c : Nat} (hpc : x.pc = PC.wrote c)
    {r : call α ε} (hr : s.g.calls[c]? = some r) :
    Live { s with g := { s.g with calls := s.g.calls.set c { r with wg := r.wg - 1 } },
                  callers := s.callers.set t { x with pc := PC.done c } } := by
  have hcall := getElem?_set_of_some hx ({ x with pc := PC.done c } : Caller α ε)
  have hheap := getElem?_set_of_some hr ({ r with wg := r.wg - 1 } : call α ε)
  have hown : x.pc.owns = some c := by rw [hpc]; rfl
  have hback := owner_after_move hx hown (PC.done c) rfl
  have hone : r.wg = 1 := by
    obtain ⟨r0, hr0, hwg⟩ := l.pending t x c hx (Or.inr hpc)
    rw [hr] at hr0
    cases hr0
    exact hwg
  have hnew : (s.g.calls.set c { r with wg := r.wg - 1 })[c]? =
      some ({ r with wg := r.wg - 1 } : call α ε) := by
    rw [hheap, if_pos rfl]
  refine ⟨?_, ?_, ?_, ?_, ?_⟩
  · intro u y d hy hd
    show d < (s.g.calls.set c _).length
    rw [List.length_set]
    simp only [hcall] at hy
    by_cases hu : u = t
    · rw [if_pos hu] at hy
      cases hy
      rcases hd with hd | hd
      · cases hd
      · simp only [PC.owns, Option.some.injEq] at hd
        rw [← hd]
        exact l.bound t x c hx (Or.inr hown)
    · rw [if_neg hu] at hy
      exact l.bound u y d hy hd
  · intro u v y z d hy hz hd he
    obtain ⟨y0, hy0, _, hd0⟩ := hback u y hy d hd
    obtain ⟨z0, hz0, _, he0⟩ := hback v z hz d he
    exact l.unique u v y0 z0 d hy0 hz0 hd0 he0
  · intro u y d hy hd
    simp only [hcall] at hy
    by_cases hu : u = t
    · rw [if_pos hu] at hy
      cases hy
      rcases hd with hd | hd <;> cases hd
    · rw [if_neg hu] at hy
      obtain ⟨r0, hr0, hwg⟩ := l.pending u y d hy hd
      have hdc : d ≠ c := by
        rintro rfl
        have hyown : y.pc.owns = some d := by
          rcases hd with h1 | h1 <;> rw [h1] <;> rfl
        exact hu (l.unique u t y x d hy hx hyown hown)
      refine ⟨r0, ?_, hwg⟩
      show (s.g.calls.set c { r with wg := r.wg - 1 })[d]? = _
      rw [hheap, if_neg hdc]
      exact hr0
  · intro k d hk
    obtain ⟨u, y, hy, hyk, hyown⟩ := l.mapped k d hk
    by_cases hu : u = t
    · rw [hu, hx] at hy
      cases hy
      rw [hown] at hyown
      simp only [Option.some.injEq] at hyown
      refine ⟨t, { x with pc := PC.done c }, ?_, hyk, ?_⟩
      · show (s.callers.set t { x with pc := PC.done c })[t]? = _
        rw [hcall, if_pos rfl]
      · rw [← hyown]
        rfl
    · refine ⟨u, y, ?_, hyk, hyown⟩
      show (s.callers.set t { x with pc := PC.done c })[u]? = _
      rw [hcall, if_neg hu]
      exact hy
  · intro u y d hy hd
    simp only [hcall] at hy
    by_cases hu : u = t
    · rw [if_pos hu] at hy
      cases hy
      cases hd
    · rw [if_neg hu] at hy
      by_cases hdc : d = c
      · left
        rw [hdc]
        exact ⟨_, hnew, by show r.wg - 1 = 0; omega⟩
      · rcases l.waits u y d hy hd with ⟨r0, hr0, hwg⟩ | ⟨o, y', hy', hpc'⟩
        · left
          refine ⟨r0, ?_, hwg⟩
          show (s.g.calls.set c { r with wg := r.wg - 1 })[d]? = _
          rw [hheap, if_neg hdc]
          exact hr0
        · right
          have ho : o ≠ t := by
            rintro rfl
            rw [hx] at hy'
            cases hy'
            rcases hpc' with h1 | h1 <;> rw [hpc] at h1 <;> cases h1
            exact hdc rfl
          refine ⟨o, y', ?_, hpc'⟩
          show (s.callers.set t { x with pc := PC.done c })[o]? = _
          rw [hcall, if_neg ho]
          exact hy'

theorem Live_delete {s : System α ε}
    (l : Live s) {t : Nat} {x : Caller α ε} (hx : s.callers[t]? = some x) {c : Nat}
    (hpc : x.pc = PC.done c) (v : Option α) (e : Option ε) :
    Live { s with g := { s.g with m := some (lru.mapDelete (s.g.m.getD []) x.key) },
                  callers := s.callers.set t { x with pc := PC.returned c v e } } := by
  have hcall := getElem?_set_of_some hx ({ x with pc := PC.returned c v e } : Caller α ε)
  have hrec := record_mapDelete s.g x.key s.g.calls
  have hown : x.pc.owns = some c := by rw [hpc]; rfl
  refine ⟨?_, ?_, ?_, ?_, ?_⟩
  · intro u y d hy hd
    simp only [hcall] at hy
    by_cases hu : u = t
    · rw [if_pos hu] at hy
      cases hy
      rcases hd with hd | hd <;> cases hd
    · rw [if_neg hu] at hy
      exact l.bound u y d hy hd
  · intro u w y z d hy hz hd he
    simp only [hcall] at hy hz
    by_cases hu : u = t
    · rw [if_pos hu] at hy
      cases hy
      cases hd
    · by_cases hw : w = t
      · rw [if_pos hw] at hz
        cases hz
        cases he
      · rw [if_neg hu] at hy
        rw [if_neg hw] at hz
        exact l.unique u w y z d hy hz hd he
  · intro u y d hy hd
    simp only [hcall] at hy
    by_cases hu : u = t
    · rw [if_pos hu] at hy
      cases hy
      rcases hd with hd | hd <;> cases hd
    · rw [if_neg hu] at hy
      exact l.pending u y d hy hd
  · intro k d hk
    have hk' : (if k = x.key then none else s.g.record k) = some d := by
      rw [← hrec]
      exact hk
    by_cases hkx : k = x.key
    · rw [if_pos hkx] at hk'
      cases hk'
    · rw [if_neg hkx] at hk'
      obtain ⟨u, y, hy, hyk, hyown⟩ := l.mapped k d hk'
      have hu : u ≠ t := by
        rintro rfl
        rw [hx] at hy
        cases hy
        exact hkx hyk.symm
      refine ⟨u, y, ?_, hyk, hyown⟩
      show (s.callers.set t { x with pc := PC.returned c v e })[u]? = _
      rw [hcall, if_neg hu]
      exact hy
  · intro u y d hy hd
    simp only [hcall] at hy
    by_cases hu : u = t
    · rw [if_pos hu] at hy
      cases hy
      cases hd
    · rw [if_neg hu] at hy
      rcases l.waits u y d hy hd with hl | ⟨o, y', hy', hpc'⟩
      · exact Or.inl hl
      · have ho : o ≠ t := by
          rintro rfl
          rw [hx] at hy'
          cases hy'
          rcases hpc' with h1 | h1 <;> rw [hpc] at h1 <;> cases h1
        refine Or.inr ⟨o, y', ?_, hpc'⟩
        show (s.callers.set t { x with pc := PC.returned c v e })[o]? = _
        rw [hcall, if_neg ho]
        exact hy'

/-- A step keeps both invariants. -/
theorem Live_step (res : Nat → Option α × Option ε) {s s' : System α ε} (h : Inv res s)
    (l : Live s) (t : Nat) (hs : step res s t = some s') : Live s' := by
  unfold step at hs
  cases hx : s.callers[t]? with
  | none => simp only [hx] at hs; cases hs
  | some x =>
    cases hpc : x.pc with
    | start =>
      cases hm : lru.mapGet (s.g.m.getD []) x.key with
      | some c =>
        simp only [hx, hpc, hm, Option.some.injEq] at hs
        rw [← hs]
        exact Live_join res h l hx hpc hm
      | none =>
        simp only [hx, hpc, hm, Option.some.injEq] at hs
        rw [← hs]
        exact Live_alloc l hx hpc
    | waiting c =>
      cases hr : s.g.calls[c]? with
      | none => simp only [hx, hpc, hr] at hs; cases hs
      | some r =>
        by_cases hwg : r.wg = 0
        · simp only [hx, hpc, hr, hwg, if_true, Option.some.injEq] at hs
          rw [← hs]
          exact Live_wake l hx hpc r.val r.err
        · simp only [hx, hpc, hr, hwg, if_false] at hs
          cases hs
    | running c =>
      cases hr : s.g.calls[c]? with
      | none => simp only [hx, hpc, hr] at hs; cases hs
      | some r =>
        simp only [hx, hpc, hr, Option.some.injEq] at hs
        rw [← hs]
        exact Live_write res l hx hpc hr
    | wrote c =>
      cases hr : s.g.calls[c]? with
      | none => simp only [hx, hpc, hr] at hs; cases hs
      | some r =>
        by_cases hwg : r.wg = 0
        · simp only [hx, hpc, hr, hwg, if_true] at hs
          cases hs
        · simp only [hx, hpc, hr, hwg, if_false, Option.some.injEq] at hs
          rw [← hs]
          exact Live_signal l hx hpc hr
    | done c =>
      cases hr : s.g.calls[c]? with
      | none => simp only [hx, hpc, hr] at hs; cases hs
      | some r =>
        simp only [hx, hpc, hr, Option.some.injEq] at hs
        rw [← hs]
        exact Live_delete l hx hpc r.val r.err
    | returned c v e =>
      simp only [hx, hpc] at hs
      cases hs

/-- Every schedule keeps both invariants. -/
theorem Live_exec (res : Nat → Option α × Option ε) (sched : List Nat) {s : System α ε}
    (h : Inv res s) (l : Live s) : Live (exec res s sched) := by
  induction sched generalizing s with
  | nil => exact l
  | cons t ts ih =>
    simp only [exec]
    cases hs : step res s t with
    | none => exact ih h l
    | some s' => exact ih (Inv_step res h t hs) (Live_step res h l t hs)

theorem exec_append (res : Nat → Option α × Option ε) (s : System α ε) (a b : List Nat) :
    exec res s (a ++ b) = exec res (exec res s a) b := by
  induction a generalizing s with
  | nil => rfl
  | cons t ts ih => exact ih _

/-- No deadlock: while a caller is not back from `Do`, some caller can move. -/
theorem Live.progress (res : Nat → Option α × Option ε) {s : System α ε} (l : Live s) {t : Nat}
    {x : Caller α ε} (hx : s.callers[t]? = some x) (hpc : x.pc.isReturned = false) :
    ∃ (u : Nat) (s' : System α ε), step res s u = some s' := by
  have hsome : ∀ u : Nat, (step res s u).isSome = true →
      ∃ (u : Nat) (s' : System α ε), step res s u = some s' :=
    fun u hu => ⟨u, Option.isSome_iff_exists.mp hu⟩
  have hrun : ∀ (u : Nat) (y : Caller α ε) (c : Nat), s.callers[u]? = some y →
      (y.pc = PC.running c ∨ y.pc = PC.wrote c) → (step res s u).isSome = true := by
    intro u y c hy hc
    obtain ⟨r, hr, hwg⟩ := l.pending u y c hy hc
    have hne : ¬ r.wg = 0 := by omega
    rcases hc with hc | hc
    · simp only [step, hy, hc, hr, Option.isSome_some]
    · simp only [step, hy, hc, hr, hne, if_false, Option.isSome_some]
  cases hp : x.pc with
  | start =>
    apply hsome t
    cases hm : lru.mapGet (s.g.m.getD []) x.key with
    | some c => simp only [step, hx, hp, hm, Option.isSome_some]
    | none => simp only [step, hx, hp, hm, Option.isSome_some]
  | waiting c =>
    rcases l.waits t x c hx hp with ⟨r, hr, hwg⟩ | ⟨u, y, hy, hc⟩
    · apply hsome t
      simp only [step, hx, hp, hr, hwg, if_true, Option.isSome_some]
    · exact hsome u (hrun u y c hy hc)
  | running c => exact hsome t (hrun t x c hx (Or.inl hp))
  | wrote c => exact hsome t (hrun t x c hx (Or.inr hp))
  | done c =>
    have hlt := l.bound t x c hx (Or.inr (by rw [hp]; rfl))
    have hr : s.g.calls[c]? = some s.g.calls[c] := List.getElem?_eq_getElem hlt
    apply hsome t
    simp only [step, hx, hp, hr, Option.isSome_some]
  | returned c v e =>
    rw [hp] at hpc
    cases hpc

theorem sum_rank_set {l : List (Caller α ε)} {t : Nat} {x : Caller α ε}
    (hx : l[t]? = some x) (p : PC α ε) (hp : p.rank < x.pc.rank) :
    ((l.set t { x with pc := p }).map (fun y => y.pc.rank)).sum <
      (l.map (fun y => y.pc.rank)).sum := by
  induction l generalizing t with
  | nil => simp at hx
  | cons a as ih =>
    cases t with
    | zero =>
      simp only [List.getElem?_cons_zero, Option.some.injEq] at hx
      subst hx
      simp only [List.set_cons_zero, List.map_cons, List.sum_cons]
      omega
    | succ n =>
      simp only [List.getElem?_cons_succ] at hx
      simp only [List.set_cons_succ, List.map_cons, List.sum_cons]
      have := ih hx
      omega

/-- Every step brings the callers nearer to their return. -/
theorem rank_step (res : Nat → Option α × Option ε) {s s' : System α ε} (t : Nat)
    (hs : step res s t = some s') : s'.rank < s.rank := by
  unfold step at hs
  cases hx : s.callers[t]? with
  | none => simp only [hx] at hs; cases hs
  | some x =>
    cases hpc : x.pc with
    | start =>
      cases hm : lru.mapGet (s.g.m.getD []) x.key with
      | some c =>
        simp only [hx, hpc, hm, Option.some.injEq] at hs
        rw [← hs]
        exact sum_rank_set hx _ (by rw [hpc]; simp [PC.rank])
      | none =>
        simp only [hx, hpc, hm, Option.some.injEq] at hs
        rw [← hs]
        exact sum_rank_set hx _ (by rw [hpc]; simp [PC.rank])
    | waiting c =>
      cases hr : s.g.calls[c]? with
      | none => simp only [hx, hpc, hr] at hs; cases hs
      | some r =>
        by_cases hwg : r.wg = 0
        · simp only [hx, hpc, hr, hwg, if_true, Option.some.injEq] at hs
          rw [← hs]
          exact sum_rank_set hx _ (by rw [hpc]; simp [PC.rank])
        · simp only [hx, hpc, hr, hwg, if_false] at hs
          cases hs
    | running c =>
      cases hr : s.g.calls[c]? with
      | none => simp only [hx, hpc, hr] at hs; cases hs
      | some r =>
        simp only [hx, hpc, hr, Option.some.injEq] at hs
        rw [← hs]
        exact sum_rank_set hx _ (by rw [hpc]; simp [PC.rank])
    | wrote c =>
      cases hr : s.g.calls[c]? with
      | none => simp only [hx, hpc, hr] at hs; cases hs
      | some r =>
        by_cases hwg : r.wg = 0
        · simp only [hx, hpc, hr, hwg, if_true] at hs
          cases hs
        · simp only [hx, hpc, hr, hwg, if_false, Option.some.injEq] at hs
          rw [← hs]
          exact sum_rank_set hx _ (by rw [hpc]; simp [PC.rank])
    | done c =>
      cases hr : s.g.calls[c]? with
      | none => simp only [hx, hpc, hr] at hs; cases hs
      | some r =>
        simp only [hx, hpc, hr, Option.some.injEq] at hs
        rw [← hs]
        exact sum_rank_set hx _ (by rw [hpc]; simp [PC.rank])
    | returned c v e =>
      simp only [hx, hpc] at hs
      cases hs

/-- From any state that satisfies the invariants the callers can be run to the end: there is
a schedule after which every caller is back from `Do`. -/
theorem completes (res : Nat → Option α × Option ε) (n : Nat) {s : System α ε}
    (h : Inv res s) (l : Live s) (hn : s.rank ≤ n) :
    ∃ sched : List Nat, ∀ (t : Nat) (x : Caller α ε),
      (exec res s sched).callers[t]? = some x → x.pc.isReturned = true := by
  induction n generalizing s with
  | zero =>
    by_cases hall : ∀ (t : Nat) (x : Caller α ε), s.callers[t]? = some x →
        x.pc.isReturned = true
    · exact ⟨[], hall⟩
    · push_neg at hall
      obtain ⟨t, x, hx, hpc⟩ := hall
      obtain ⟨u, s', hs⟩ := l.progress res hx (by simpa using hpc)
      have := rank_step res u hs
      omega
  | succ n ih =>
    by_cases hall : ∀ (t : Nat) (x : Caller α ε), s.callers[t]? = some x →
        x.pc.isReturned = true
    · exact ⟨[], hall⟩
    · push_neg at hall
      obtain ⟨t, x, hx, hpc⟩ := hall
      obtain ⟨u, s', hs⟩ := l.progress res hx (by simpa using hpc)
      have hlt := rank_step res u hs
      obtain ⟨sched, hsched⟩ := ih (Inv_step res h u hs) (Live_step res h l u hs) (by omega)
      refine ⟨u :: sched, ?_⟩
      simp only [exec, hs, Option.getD_some]
      exact hsched

theorem map_key_set {l : List (Caller α ε)} {t : Nat} {x : Caller α ε}
    (hx : l[t]? = some x) (p : PC α ε) :
    (l.set t { x with pc := p }).map Caller.key = l.map Caller.key := by
  induction l generalizing t with
  | nil => rfl
  | cons a as ih =>
    cases t with
    | zero =>
      simp only [List.getElem?_cons_zero, Option.some.injEq] at hx
      subst hx
      rfl
    | succ n =>
      simp only [List.getElem?_cons_succ] at hx
      simp only [List.set_cons_succ, List.map_cons, ih hx]

/-- A step changes no caller's key and adds or removes no caller. -/
theorem keys_step (res : Nat → Option α × Option ε) {s s' : System α ε} (t : Nat)
    (hs : step res s t = some s') : s'.callers.map Caller.key = s.callers.map Caller.key := by
  unfold step at hs
  cases hx : s.callers[t]? with
  | none => simp only [hx] at hs; cases hs
  | some x =>
    cases hpc : x.pc with
    | start =>
      cases hm : lru.mapGet (s.g.m.getD []) x.key with
      | some c =>
        simp only [hx, hpc, hm, Option.some.injEq] at hs
        rw [← hs]
        exact map_key_set hx _
      | none =>
        simp only [hx, hpc, hm, Option.some.injEq] at hs
        rw [← hs]
        exact map_key_set hx _
    | waiting c =>
      cases hr : s.g.calls[c]? with
      | none => simp only [hx, hpc, hr] at hs; cases hs
      | some r =>
        by_cases hwg : r.wg = 0
        · simp only [hx, hpc, hr, hwg, if_true, Option.some.injEq] at hs
          rw [← hs]
          exact map_key_set hx _
        · simp only [hx, hpc, hr, hwg, if_false] at hs
          cases hs
    | running c =>
      cases hr : s.g.calls[c]? with
      | none => simp only [hx, hpc, hr] at hs; cases hs
      | some r =>
        simp only [hx, hpc, hr, Option.some.injEq] at hs
        rw [← hs]
        exact map_key_set hx _
    | wrote c =>
      cases hr : s.g.calls[c]? with
      | none => simp only [hx, hpc, hr] at hs; cases hs
      | some r =>
        by_cases hwg : r.wg = 0
        · simp only [hx, hpc, hr, hwg, if_true] at hs
          cases hs
        · simp only [hx, hpc, hr, hwg, if_false, Option.some.injEq] at hs
          rw [← hs]
          exact map_key_set hx _
    | done c =>
      cases hr : s.g.calls[c]? with
      | none => simp only [hx, hpc, hr] at hs; cases hs
      | some r =>
        simp only [hx, hpc, hr, Option.some.injEq] at hs
        rw [← hs]
        exact map_key_set hx _
    | returned c v e =>
      simp only [hx, hpc] at hs
      cases hs

theorem keys_exec (res : Nat → Option α × Option ε) (sched : List Nat) (s : System α ε) :
    (exec res s sched).callers.map Caller.key = s.callers.map Caller.key := by
  induction sched generalizing s with
  | nil => rfl
  | cons t ts ih =>
    simp only [exec]
    cases hs : step res s t with
    | none => exact ih s
    | some s' => exact (ih s').trans (keys_step res t hs)

theorem keys_init (keys : List String) :
    (System.init keys : System α ε).callers.map Caller.key = keys := by
  simp only [System.init, List.map_map]
  exact List.map_id keys

/-- From any state a group of callers reaches, the callers can be run to the end: some
continuation of the schedule brings every caller back from `Do` with the pair of the run of
`fn` made for the record it used. -/
theorem all_return (res : Nat → Option α × Option ε) (keys : List String) (sched : List Nat) :
    ∃ rest : List Nat, ∀ (t : Nat) (k : String), keys[t]? = some k →
      ∃ (c : Nat) (v : Option α) (e : Option ε),
        (exec res (System.init keys) (sched ++ rest)).callers[t]? =
          some { key := k, pc := PC.returned c v e } ∧ (v, e) = res c := by
  have h := Inv_exec res sched (Inv_init res keys)
  have l := Live_exec res sched (Inv_init res keys) (Live_init keys)
  obtain ⟨rest, hrest⟩ := completes res _ h l (le_refl _)
  refine ⟨rest, ?_⟩
  intro t k hk
  have hkeys := (keys_exec res (sched ++ rest) (System.init keys)).trans (keys_init keys)
  have hfin := Inv_exec res (sched ++ rest) (Inv_init res keys)
  rw [exec_append] at hkeys hfin ⊢
  rw [← hkeys, List.getElem?_map, Option.map_eq_some'] at hk
  obtain ⟨x, hx, hxk⟩ := hk
  have hret := hrest t x hx
  cases hp : x.pc with
  | returned c v e =>
    refine ⟨c, v, e, ?_, hfin.returned t x c v e hx hp⟩
    rw [hx, ← hxk, ← hp]
  | start => rw [hp] at hret; cases hret
  | waiting c => rw [hp] at hret; cases hret
  | running c => rw [hp] at hret; cases hret
  | wrote c => rw [hp] at hret; cases hret
  | done c => rw [hp] at hret; cases hret

end singleflight
namespace singleflight

variable {α ε : Type}

/-! ## Claim C18 -/

/-- C18: single-flight coalescing, for any number of callers of `Do` on a zero group, any keys,
any results of `fn` and any interleaving of the callers' steps.  In every state reached:
two callers are never inside `fn` for the same key; while a caller is between making its
record and deleting it, the map holds that record for the key; a caller that arrives while the
map holds a record for its key waits for that record and starts no run of `fn`; every record
has had exactly one run of `fn` started for it; every caller that has returned from a
record, the one that ran `fn` or one that waited, returned the pair of that one run; while a
caller is not back from `Do` some caller can move; and some continuation of the schedule
brings every one of the callers back from `Do` with the pair of the run made for the record it
used. -/
theorem C18_coalescing (res : Nat → Option α × Option ε) (keys : List String)
    (sched : List Nat) :
    (∀ (t u : Nat) (x y : Caller α ε) (c d : Nat),
      (exec res (System.init keys) sched).callers[t]? = some x →
      (exec res (System.init keys) sched).callers[u]? = some y →
      x.pc = PC.running c → y.pc = PC.running d → x.key = y.key → t = u) ∧
    (∀ (t : Nat) (x : Caller α ε) (c : Nat),
      (exec res (System.init keys) sched).callers[t]? = some x → x.pc.owns = some c →
      (exec res (System.init keys) sched).g.record x.key = some c) ∧
    (∀ (t : Nat) (x : Caller α ε) (c : Nat),
      (exec res (System.init keys) sched).callers[t]? = some x → x.pc = PC.start →
      (exec res (System.init keys) sched).g.record x.key = some c →
      ∃ s', step res (exec res (System.init keys) sched) t = some s' ∧
        s'.execs = (exec res (System.init keys) sched).execs ∧
        s'.callers[t]? = some { key := x.key, pc := PC.waiting c }) ∧
    (exec res (System.init keys) sched).execs =
      List.range (exec res (System.init keys) sched).g.calls.length ∧
    (∀ (t : Nat) (x : Caller α ε) (c : Nat) (v : Option α) (e : Option ε),
      (exec res (System.init keys) sched).callers[t]? = some x →
      x.pc = PC.returned c v e → (v, e) = res c) ∧
    (∀ (t : Nat) (x : Caller α ε),
      (exec res (System.init keys) sched).callers[t]? = some x → x.pc.isReturned = false →
      ∃ (u : Nat) (s' : System α ε), step res (exec res (System.init keys) sched) u = some s') ∧
    (∃ rest : List Nat, ∀ (t : Nat) (k : String), keys[t]? = some k →
      ∃ (c : Nat) (v : Option α) (e : Option ε),
        (exec res (System.init keys) (sched ++ rest)).callers[t]? =
          some { key := k, pc := PC.returned c v e } ∧ (v, e) = res c) := by
  have h := Inv_exec res sched (Inv_init res keys)
  have l := Live_exec res sched (Inv_init res keys) (Live_init keys)
  refine ⟨?_, h.owner, ?_, h.execs, h.returned, fun t x hx hpc => l.progress res hx hpc,
    all_return res keys sched⟩
  · intro t u x y c d hx hy hc hd hk
    exact h.single t u x y c d hx hy (by rw [hc]; rfl) (by rw [hd]; rfl) hk
  · intro t x c hx hpc hrec
    refine ⟨_, step_join res _ t x c hx hpc hrec, rfl, ?_⟩
    simp only [getElem?_set_of_some hx, if_true]

/-- A run of C18: three callers of `Do("k", fn)`.  Caller 0 makes the record and enters `fn`,
callers 1 and 2 arrive and wait, caller 0 gets `(100, nil)` from `fn`, releases the waiters,
caller 1 returns, caller 0 deletes the record and returns, caller 2 returns.  `fn` ran once
and the three callers returned `(100, nil)`. -/
theorem C18_coalescing_witness :
    exec (fun c => (some (100 + c), (none : Option String))) (System.init ["k", "k", "k"])
        [0, 1, 2, 0, 0, 1, 0, 2] =
      { g := { m := some [], calls := [{ wg := 0, val := some 100, err := none }] },
        callers := [{ key := "k", pc := PC.returned 0 (some 100) none },
                    { key := "k", pc := PC.returned 0 (some 100) none },
                    { key := "k", pc := PC.returned 0 (some 100) none }],
        execs := [0] } ∧
    (exec (fun c => (some (100 + c), (none : Option String))) (System.init ["k", "k", "k"])
        [0, 1, 2, 0, 0, 1, 0, 2]).execs =
      List.range (exec (fun c => (some (100 + c), (none : Option String)))
        (System.init ["k", "k", "k"]) [0, 1, 2, 0, 0, 1, 0, 2]).g.calls.length :=
  ⟨by decide,
    (C18_coalescing (fun c => (some (100 + c), (none : Option String))) ["k", "k", "k"]
      [0, 1, 2, 0, 0, 1, 0, 2]).2.2.2.1⟩

end singleflight

namespace DistributedCache

/-- C19: `Get("", expiry)` returns the zero payload and an error; the namespace, with its cache,
its loader and the traces of the calls to the backing source and to the peers, is unchanged. -/
theorem C19_Get_rejects_the_empty_key (g : Group) (expir now : lru.Time) :
    g.Get "" expir now = some ((ByteView.zero, some "key is required"), g) ∧
    ByteView.zero.b = [] := by
  exact ⟨by simp only [Group.Get, if_true], rfl⟩

theorem cache_eta (c : cache) (l : lru.Cache ByteView) (h : c.lru = some l) :
    ({ c with lru := some l } : cache) = c := by
  cases c
  simp_all

/-- A hit: `Get` of a cached key without expiry returns the payload and changes nothing. -/
theorem Get_of_Cached (g : Group) (key : String) (v : ByteView) (hk : key ≠ "")
    (hc : Cached g key v) (expir now : lru.Time) :
    g.Get key expir now = some ((v, none), g) := by
  obtain ⟨l, e, rest, hl, hwf, hll, he⟩ := hc
  have hmem : e ∈ l.ll := by rw [hll]; exact List.mem_cons_self _ _
  have hkey : e.Value.key = key := by rw [he]
  have hval : e.Value.value = v := by rw [he]
  have hrem : lru.Remove l.ll e.ptr = rest := by
    have hnd : ((([] : List (lru.Element ByteView)) ++ e :: rest).map lru.Element.ptr).Nodup := by
      rw [List.nil_append, ← hll]
      exact hwf.nodupPtr
    have hsplit := lru.Remove_split hnd
    rw [List.nil_append, List.nil_append, ← hll] at hsplit
    exact hsplit
  have hget := lru.Get_of_mem hwf hmem now
  rw [if_neg (lru.not_expired_of_zero _ now (by rw [he])), hkey, hval, hrem, ← hll] at hget
  have hsame : ({ l with ll := l.ll } : lru.Cache ByteView) = l := by cases l; rfl
  rw [hsame] at hget
  have hcache : g.mainCache.get key now = (some v, g.mainCache) := by
    simp only [cache.get, hl, hget]
    rw [cache_eta _ _ hl]
  simp only [Group.Get, if_neg hk, hcache]

theorem gets_of_Cached (g : Group) (key : String) (v : ByteView) (hk : key ≠ "")
    (hc : Cached g key v) (expir : lru.Time) (nows : List lru.Time) :
    g.gets key expir nows = some (List.replicate nows.length (v, none), g) := by
  induction nows with
  | nil => rfl
  | cons now rest ih =>
    simp only [Group.gets, Get_of_Cached g key v hk hc expir now, ih, Option.map_some',
      List.length_cons, List.replicate_succ]

/-- A miss on a namespace without peers whose store accounts exactly: the backing source is
asked once, and the payload is returned and cached at the front of the store. -/
theorem Get_of_miss (g : Group) (key : String) (b : List UInt8) (expir now : lru.Time)
    (hpeers : g.peers = none) (hidle : g.loader.record key = none)
    (hstore : ∀ l, g.mainCache.lru = some l →
      lru.Exact g.mainCache.cacheBytes false l ∧ lru.mapGet l.cache key = none)
    (hk : key ≠ "") (hb : g.getter key = (b, none))
    (hfit : g.mainCache.cacheBytes = 0 ∨
      (key.utf8ByteSize : Int) + (b.length : Int) ≤ g.mainCache.cacheBytes)
    (hfits : lru.addFits (g.mainCache.lru.getD (lru.New ByteView g.mainCache.cacheBytes false))
      key (⟨b, lru.Time.zero⟩ : ByteView) expir = true) :
    ∃ g1, g.Get key expir now = some ((⟨b, lru.Time.zero⟩, none), g1) ∧
      g1.loads = g.loads ++ [key] ∧
      ∃ l e rest, g1.mainCache.lru = some l ∧ lru.WF l ∧ l.ll = e :: rest ∧
        e.Value = ⟨key, ⟨b, lru.Time.zero⟩, expir⟩ := by
  have hcache : g.mainCache.get key now = (none, g.mainCache) := by
    cases hl : g.mainCache.lru with
    | none => simp only [cache.get, hl]
    | some l =>
      simp only [cache.get, hl, lru.Get_of_absent now (hstore l hl).2]
      rw [cache_eta _ _ hl]
  have hexact : lru.Exact g.mainCache.cacheBytes false
      (g.mainCache.lru.getD (lru.New ByteView g.mainCache.cacheBytes false)) := by
    cases hl : g.mainCache.lru with
    | none => exact lru.Exact_New _ _
    | some l => exact (hstore l hl).1
  obtain ⟨l1, p, rest, hadd, hex1, hll1⟩ := lru.Exact_Add_keeps_entry hexact key
    (⟨b, lru.Time.zero⟩ : ByteView) expir hfits hfit
  have hsame : ({ g with mainCache := g.mainCache } : Group) = g := by cases g; rfl
  have hfn : Group.loadFn key expir g = some ((some ⟨b, lru.Time.zero⟩, none),
      { g with loads := g.loads ++ [key],
               mainCache := { g.mainCache with lru := some l1 } }) := by
    simp only [Group.loadFn, hpeers, Group.getLocally, hb, cloneBytes, Group.populateCache,
      cache.add, hadd, Option.map_some']
  obtain ⟨loader1, hdo⟩ : ∃ loader1, singleflight.Do g.loader key (Group.loadFn key expir) g =
      some ((some ⟨b, lru.Time.zero⟩, none), loader1,
        { g with loads := g.loads ++ [key],
                 mainCache := { g.mainCache with lru := some l1 } }) :=
    ⟨_, singleflight.Do_of_free g.loader key (Group.loadFn key expir) g _ _ _ hidle hfn⟩
  refine ⟨{ ({ g with loads := g.loads ++ [key],
                      mainCache := { g.mainCache with lru := some l1 } } : Group) with
            loader := loader1 }, ?_, rfl, l1, _, rest, rfl, hex1.wf, hll1, rfl⟩
  simp only [Group.Get, if_neg hk, hcache, hsame, Group.load, hdo]

/-- On a namespace without a peer picker whose store accounts exactly and does not hold `k`
(a namespace fresh from `NewGroup` is one), for a non-empty key `k` for which the backing
source returns the bytes `b` and no error, with `len(k) + len(b)` within the capacity or the
capacity 0 and no assignment to `nBytes` wrapping around, every one of `N ≥ 1` successive
`Get(k)` calls with the zero expiry returns a payload with the bytes `b` and no error, and the
backing source has been invoked exactly once, for `k`. -/
theorem gets_of_exact_store (g : Group) (k : String) (b : List UInt8)
    (nows : List lru.Time)
    (hpeers : g.peers = none) (hidle : g.loader.record k = none)
    (hstore : ∀ l, g.mainCache.lru = some l →
      lru.Exact g.mainCache.cacheBytes false l ∧ lru.mapGet l.cache k = none)
    (hk : k ≠ "") (hb : g.getter k = (b, none))
    (hfit : g.mainCache.cacheBytes = 0 ∨
      (k.utf8ByteSize : Int) + (b.length : Int) ≤ g.mainCache.cacheBytes)
    (hfits : lru.addFits (g.mainCache.lru.getD (lru.New ByteView g.mainCache.cacheBytes false))
      k (⟨b, lru.Time.zero⟩ : ByteView) lru.Time.zero = true)
    (hN : nows ≠ []) :
    ∃ g1, g.gets k lru.Time.zero nows =
        some (List.replicate nows.length (⟨b, lru.Time.zero⟩, none), g1) ∧
      g1.loads = g.loads ++ [k] := by
  cases nows with
  | nil => exact absurd rfl hN
  | cons now rest =>
    obtain ⟨g1, hget, hloads, hc⟩ :=
      Get_of_miss g k b lru.Time.zero now hpeers hidle hstore hk hb hfit hfits
    refine ⟨g1, ?_, hloads⟩
    simp only [Group.gets, hget, gets_of_Cached g1 k ⟨b, lru.Time.zero⟩ hk hc lru.Time.zero rest,
      Option.map_some', List.length_cons, List.replicate_succ]

/-- The scenario of `TestGet`: on the namespace fresh from `NewGroup("mussic", 2<<10, db1)`,
two `Get` calls for each key of `db1` return without error and ask the source once per key,
and `Get("unknow")` returns the error of the source. -/
theorem TestGet_scenario :
    testGet = some ([none, none, none, none, none, none, some "unknow not exist"],
      ["Leslie", "Lam", "Sam", "unknow"]) := by
  decide

/-- C20 (violated by the code): successive `Get(k)` calls should ask the backing source
once.  On the namespace made by `NewGroup("mussic", 20, db1)`, `Get("Sam", t10)` at the
instant 0 caches the 15 bytes of Sam until the instant 10.  Two `Get("Sam")` calls with the
zero expiry follow, at the instants 20 and 21.  The first finds the entry expired and removes
it, which leaves its 15 bytes in `nBytes` (the defect of C1); the reload accounts 30 bytes,
above the limit 20, so the loop evicts the entry just loaded.  The second call misses again:
both calls return the bytes of the source, the source has been asked for Sam three times, and
the cache is empty. -/
theorem C20_leaked_bytes_evict_the_loaded_entry :
    leakedGets =
      some ([(consistenthash.bytesOf "浪子心声", none), (consistenthash.bytesOf "浪子心声", none)],
        ["Sam", "Sam", "Sam"], []) := by
  decide

end DistributedCache

namespace DistributedCache

/-! ## The load pipeline -/

/-- A `Get` of the store that misses leaves a sublist of the order list. -/
theorem ll_of_Get_miss (l : lru.Cache ByteView) (key : String) (now : lru.Time)
    (hmiss : (lru.Get l key now).1 = none) : (lru.Get l key now).2.ll.Sublist l.ll := by
  cases hm : lru.mapGet l.cache key with
  | none => simp only [lru.Get, hm, List.Sublist.refl]
  | some p =>
    cases hd : lru.deref l.ll p with
    | none => simp only [lru.Get, hm, hd, List.Sublist.refl]
    | some ele =>
      by_cases hexp : (!ele.Value.expire.IsZero && ele.Value.expire.Before now) = true
      · simp only [lru.Get, hm, hd, hexp, if_true, lru.removeElement]
        rw [(lru.deref_some hd).2, lru.Remove_MoveToFront]
        exact lru.Remove_sublist l.ll p
      · simp only [lru.Get, hm, hd, hexp] at hmiss
        cases hmiss

/-- A lookup that misses inserts nothing: what the store holds afterwards it held before, in
the same order. -/
theorem entries_of_lookup_miss (c : cache) (key : String) (now : lru.Time)
    (hmiss : (c.get key now).1 = none) : (c.get key now).2.entries.Sublist c.entries := by
  cases hl : c.lru with
  | none => simp only [cache.get, cache.entries, hl, List.Sublist.refl]
  | some l =>
    simp only [cache.get, hl] at hmiss
    simp only [cache.get, cache.entries, hl]
    exact (ll_of_Get_miss l key now hmiss).map _

/-- A lookup of a key the store does not hold changes nothing. -/
theorem lookup_of_absent (c : cache) (key : String) (now : lru.Time)
    (habs : ∀ l, c.lru = some l → lru.mapGet l.cache key = none) :
    c.get key now = (none, c) := by
  cases hl : c.lru with
  | none => simp only [cache.get, hl]
  | some l =>
    simp only [cache.get, hl, lru.Get_of_absent now (habs l hl)]
    rw [cache_eta _ _ hl]

/-- After a lookup that misses, `Get` is the load on the namespace as the lookup left it. -/
theorem Get_of_lookup_miss (g : Group) (key : String) (expir now : lru.Time) (hk : key ≠ "")
    (hmiss : (g.mainCache.get key now).1 = none) :
    g.Get key expir now =
      Group.load { g with mainCache := (g.mainCache.get key now).2 } key expir := by
  have hpair : g.mainCache.get key now = (none, (g.mainCache.get key now).2) := by
    rw [← hmiss]
  simp only [Group.Get, if_neg hk]
  rw [hpair]

/-- The load when nobody else loads the key and the function handed to `Do` returns an
error: the error is returned with the zero payload, and the record of the key is gone. -/
theorem load_of_error (g g1 : Group) (key : String) (expir : lru.Time)
    (view : Option ByteView) (e : String) (hidle : g.loader.record key = none)
    (hfn : Group.loadFn key expir g = some ((view, some e), g1)) :
    ∃ loader1 : singleflight.Group ByteView String,
      Group.load g key expir = some ((ByteView.zero, some e), { g1 with loader := loader1 }) ∧
      loader1.record key = none := by
  obtain ⟨loader1, hdo, hrec⟩ := singleflight.Do_of_idle g.loader key (Group.loadFn key expir)
    g g1 view (some e) hidle hfn
  refine ⟨loader1, ?_, hrec⟩
  simp only [Group.load, hdo]

/-- The load when nobody else loads the key and the function handed to `Do` returns a
payload: the payload is returned, and the record of the key is gone. -/
theorem load_of_payload (g g1 : Group) (key : String) (expir : lru.Time)
    (v : ByteView) (hidle : g.loader.record key = none)
    (hfn : Group.loadFn key expir g = some ((some v, none), g1)) :
    ∃ loader1 : singleflight.Group ByteView String,
      Group.load g key expir = some ((v, none), { g1 with loader := loader1 }) ∧
      loader1.record key = none := by
  obtain ⟨loader1, hdo, hrec⟩ := singleflight.Do_of_idle g.loader key (Group.loadFn key expir)
    g g1 (some v) none hidle hfn
  refine ⟨loader1, ?_, hrec⟩
  simp only [Group.load, hdo]

end DistributedCache

namespace DistributedCache

/-- On each of the three ways to the local load, a source that fails makes the function handed
to `Do` return the error of the source; the cache is not touched and the source was asked
once. -/
theorem loadFn_of_source_error (g : Group) (key : String) (expir : lru.Time) (b : List UInt8)
    (err : String) (hlocal : g.LoadsLocally key) (herr : g.getter key = (b, some err)) :
    ∃ g1 : Group, Group.loadFn key expir g = some ((some ByteView.zero, some err), g1) ∧
      g1.mainCache = g.mainCache ∧ g1.loads = g.loads ++ [key] := by
  rcases hlocal with hp | ⟨p, f, hp, hpick⟩ | ⟨p, f, b', e', hp, hpick, hfetch⟩
  · refine ⟨{ g with loads := g.loads ++ [key] }, ?_, rfl, rfl⟩
    simp only [Group.loadFn, hp, Group.getLocally, herr, Option.map_some']
  · refine ⟨{ g with picks := g.picks ++ [key], loads := g.loads ++ [key] }, ?_, rfl, rfl⟩
    simp only [Group.loadFn, hp, hpick, Group.getLocally, herr, Option.map_some']
    rfl
  · refine ⟨{ g with picks := g.picks ++ [key], fetches := g.fetches ++ [(g.name, key)],
                     loads := g.loads ++ [key] }, ?_, rfl, rfl⟩
    simp only [Group.loadFn, hp, hpick, hfetch, Group.getLocally, herr, Option.map_some']
    rfl

/-- C21, as amended: a source error is returned and nothing is cached.  For every namespace
and non-empty key `k` whose lookup in the cache misses, with no load of `k` under way and the
load going to the backing source (no picker, a picker that answers `false`, or a fetcher
that fails), if the source returns the error `err` then `Get(k, expiry)` returns the zero
payload and `err`; the cache is as the lookup left it, which holds no entry it did not
hold before and is the cache before the call when `k` was not in the store; the loader
holds no record for `k`; and the source was asked once, for `k`. -/
theorem C21_source_error_is_returned (g : Group) (k : String) (expir now : lru.Time)
    (b : List UInt8) (err : String) (hk : k ≠ "")
    (hmiss : (g.mainCache.get k now).1 = none) (hidle : g.loader.record k = none)
    (hlocal : g.LoadsLocally k) (herr : g.getter k = (b, some err)) :
    ∃ g1 : Group, g.Get k expir now = some ((ByteView.zero, some err), g1) ∧
      g1.mainCache = (g.mainCache.get k now).2 ∧
      g1.mainCache.entries.Sublist g.mainCache.entries ∧
      ((∀ l, g.mainCache.lru = some l → lru.mapGet l.cache k = none) →
        g1.mainCache = g.mainCache) ∧
      g1.loader.record k = none ∧
      g1.loads = g.loads ++ [k] := by
  obtain ⟨g1, hfn, hcache, hloads⟩ := loadFn_of_source_error
    { g with mainCache := (g.mainCache.get k now).2 } k expir b err hlocal herr
  obtain ⟨loader1, hload, hrec⟩ := load_of_error
    { g with mainCache := (g.mainCache.get k now).2 } g1 k expir _ err hidle hfn
  refine ⟨{ g1 with loader := loader1 }, ?_, hcache, ?_, ?_, hrec, hloads⟩
  · rw [Get_of_lookup_miss g k expir now hk hmiss, hload]
  · show g1.mainCache.entries.Sublist g.mainCache.entries
    rw [hcache]
    exact entries_of_lookup_miss g.mainCache k now hmiss
  · intro habs
    show g1.mainCache = g.mainCache
    rw [hcache]
    show (g.mainCache.get k now).2 = g.mainCache
    rw [lookup_of_absent g.mainCache k now habs]

/-- Witness of C21, the last call of `TestGet`: on the namespace fresh from
`NewGroup("mussic", 2<<10, db1)`, `Get("unknow")` returns the error of the source and leaves
the cache as it was. -/
theorem C21_source_error_is_returned_witness :
    "unknow" ≠ "" ∧
    ((NewGroup "mussic" 2048 db1).mainCache.get "unknow" lru.Time.zero).1 = none ∧
    (NewGroup "mussic" 2048 db1).loader.record "unknow" = none ∧
    (NewGroup "mussic" 2048 db1).LoadsLocally "unknow" ∧
    (NewGroup "mussic" 2048 db1).getter "unknow" = ([], some "unknow not exist") ∧
    ∃ g1 : Group, (NewGroup "mussic" 2048 db1).Get "unknow" lru.Time.zero lru.Time.zero =
        some ((ByteView.zero, some "unknow not exist"), g1) ∧
      g1.mainCache = ((NewGroup "mussic" 2048 db1).mainCache.get "unknow" lru.Time.zero).2 ∧
      g1.mainCache.entries.Sublist (NewGroup "mussic" 2048 db1).mainCache.entries ∧
      ((∀ l, (NewGroup "mussic" 2048 db1).mainCache.lru = some l →
          lru.mapGet l.cache "unknow" = none) →
        g1.mainCache = (NewGroup "mussic" 2048 db1).mainCache) ∧
      g1.loader.record "unknow" = none ∧
      g1.loads = (NewGroup "mussic" 2048 db1).loads ++ ["unknow"] :=
  ⟨by decide, rfl, by decide, Or.inl rfl, by decide,
    C21_source_error_is_returned (NewGroup "mussic" 2048 db1) "unknow" lru.Time.zero
      lru.Time.zero [] "unknow not exist" (by decide) rfl (by decide) (Or.inl rfl) (by decide)⟩

/-- C21 as stated fails: the key Sam is in the cache with an expiry that has passed, and its
row is gone from the source.  The lookup of `Get("Sam")` misses, the source returns an error
and `Get` returns it, and the cache, which held the entry of Sam before the call, is empty
after it: the lookup that missed removed the expired entry. -/
theorem C21_counterexample :
    staleThenSourceError =
      some { found := none, result := (ByteView.zero, some "Sam not exist"),
             loads := ["Sam", "Sam"],
             before := [⟨"Sam", ⟨consistenthash.bytesOf "浪子心声", lru.Time.zero⟩, ⟨10⟩⟩],
             after := [] } := by
  decide

end DistributedCache

namespace DistributedCache

/-- C22, as amended: the remote success path.  For every namespace with a registered picker
and every non-empty key `k` whose lookup in the cache misses, with no load of `k` under way,
if `PickPeer(k)` returns a fetcher and `true` and `Fetch(namespace, k)` returns the bytes `b`
without error, then `Get(k, expiry)` returns a payload with the bytes `b` and no error; the
backing source is not asked; the picker and the fetcher were asked once; the cache is as the
lookup left it, which holds no entry it did not hold before and is the cache before the call
when `k` was not in the store; and the loader holds no record for `k`. -/
theorem C22_remote_fetch_is_returned (g : Group) (p : PeerPicker) (f : Fetcher) (k : String)
    (expir now : lru.Time) (b : List UInt8) (hk : k ≠ "")
    (hmiss : (g.mainCache.get k now).1 = none) (hidle : g.loader.record k = none)
    (hp : g.peers = some p) (hpick : p.PickPeer k = some (some f, true))
    (hfetch : f.Fetch g.name k = some (b, none)) :
    ∃ g1 : Group, g.Get k expir now = some ((⟨b, lru.Time.zero⟩, none), g1) ∧
      g1.loads = g.loads ∧
      g1.picks = g.picks ++ [k] ∧
      g1.fetches = g.fetches ++ [(g.name, k)] ∧
      g1.mainCache = (g.mainCache.get k now).2 ∧
      g1.mainCache.entries.Sublist g.mainCache.entries ∧
      ((∀ l, g.mainCache.lru = some l → lru.mapGet l.cache k = none) →
        g1.mainCache = g.mainCache) ∧
      g1.loader.record k = none := by
  have hfn : Group.loadFn k expir { g with mainCache := (g.mainCache.get k now).2 } =
      some ((some ⟨b, lru.Time.zero⟩, none),
        { g with mainCache := (g.mainCache.get k now).2, picks := g.picks ++ [k],
                 fetches := g.fetches ++ [(g.name, k)] }) := by
    simp only [Group.loadFn, hp, hpick, hfetch, if_true, cloneBytes]
  obtain ⟨loader1, hload, hrec⟩ := load_of_payload
    { g with mainCache := (g.mainCache.get k now).2 } _ k expir _ hidle hfn
  refine ⟨{ ({ g with mainCache := (g.mainCache.get k now).2, picks := g.picks ++ [k],
                       fetches := g.fetches ++ [(g.name, k)] } : Group) with loader := loader1 },
    ?_, rfl, rfl, rfl, rfl, ?_, ?_, hrec⟩
  · rw [Get_of_lookup_miss g k expir now hk hmiss, hload]
  · exact entries_of_lookup_miss g.mainCache k now hmiss
  · intro habs
    show (g.mainCache.get k now).2 = g.mainCache
    rw [lookup_of_absent g.mainCache k now habs]

/-- Witness of C22: on the namespace fresh from `NewGroup("mussic", 2<<10, db1)` with
`remotePicker` registered, `Get("Sam")` returns the bytes of the peer, the source `db1` is not
asked although it holds a row for Sam, and the cache stays without a store. -/
theorem C22_remote_fetch_is_returned_witness :
    (NewGroup "mussic" 2048 db1).RegisterPeers remotePicker =
      some { NewGroup "mussic" 2048 db1 with peers := some remotePicker } ∧
    ∃ g1 : Group,
      ({ NewGroup "mussic" 2048 db1 with peers := some remotePicker } : Group).Get "Sam"
          lru.Time.zero lru.Time.zero =
        some ((⟨consistenthash.bytesOf "remote", lru.Time.zero⟩, none), g1) ∧
      g1.loads = [] ∧
      g1.picks = [] ++ ["Sam"] ∧
      g1.fetches = [] ++ [("mussic", "Sam")] ∧
      g1.mainCache = ((⟨none, 2048⟩ : cache).get "Sam" lru.Time.zero).2 ∧
      g1.mainCache.entries.Sublist [] ∧
      ((∀ l, (⟨none, 2048⟩ : cache).lru = some l → lru.mapGet l.cache "Sam" = none) →
        g1.mainCache = ⟨none, 2048⟩) ∧
      g1.loader.record "Sam" = none :=
  ⟨rfl,
    C22_remote_fetch_is_returned { NewGroup "mussic" 2048 db1 with peers := some remotePicker }
      remotePicker remoteFetcher "Sam" lru.Time.zero lru.Time.zero
      (consistenthash.bytesOf "remote") (by decide) rfl (by decide) rfl rfl rfl⟩

/-- C22 as stated fails: the key Sam is in the cache with an expiry that has passed when the
picker is registered.  The lookup of `Get("Sam")` misses, the peer returns its bytes and `Get`
returns them without asking the source again, and the cache, which held the entry of Sam
before the call, is empty after it: the lookup that missed removed the expired entry. -/
theorem C22_counterexample :
    staleThenRemote =
      some { found := none, result := (⟨consistenthash.bytesOf "remote", lru.Time.zero⟩, none),
             loads := ["Sam"],
             before := [⟨"Sam", ⟨consistenthash.bytesOf "浪子心声", lru.Time.zero⟩, ⟨10⟩⟩],
             after := [] } := by
  decide

end DistributedCache

namespace DistributedCache

/-- The local load does not look at the picker or at the traces of the calls to the peers: it
carries them along. -/
theorem getLocally_carries (g : Group) (key : String) (expir : lru.Time)
    (peers : Option PeerPicker) (picks : List String) (fetches : List (String × String)) :
    ({ g with peers := peers, picks := picks, fetches := fetches } : Group).getLocally key expir =
      (g.getLocally key expir).map
        (fun r => (r.1, { r.2 with peers := peers, picks := picks, fetches := fetches })) := by
  cases hg : g.getter key with
  | mk bytes err =>
    cases err with
    | some e => simp only [Group.getLocally, hg, Option.map_some']
    | none =>
      cases hadd : g.mainCache.add key ⟨cloneBytes bytes, lru.Time.zero⟩ expir with
      | none => simp only [Group.getLocally, hg, Group.populateCache, hadd, Option.map_none']
      | some c => simp only [Group.getLocally, hg, Group.populateCache, hadd, Option.map_some']

/-- When the fetcher fails, the function handed to `Do` does what it does on the namespace
without a picker, and records the calls to the picker and the fetcher. -/
theorem loadFn_of_fetch_error (g : Group) (p : PeerPicker) (f : Fetcher) (key : String)
    (expir : lru.Time) (b : List UInt8) (e : String) (hp : g.peers = some p)
    (hpick : p.PickPeer key = some (some f, true))
    (hfetch : f.Fetch g.name key = some (b, some e)) :
    Group.loadFn key expir g =
      (Group.loadFn key expir { g with peers := none }).map
        (fun r => (r.1, { r.2 with peers := some p, picks := g.picks ++ [key],
                                   fetches := g.fetches ++ [(g.name, key)] })) := by
  have h := getLocally_carries { g with peers := none } key expir (some p) (g.picks ++ [key])
    (g.fetches ++ [(g.name, key)])
  have hsame : ({ ({ g with peers := none } : Group) with
      peers := some p, picks := g.picks ++ [key], fetches := g.fetches ++ [(g.name, key)] } :
      Group) = { g with peers := g.peers, picks := g.picks ++ [key],
                        fetches := g.fetches ++ [(g.name, key)] } := by
    rw [hp]
  rw [hsame] at h
  simp only [Group.loadFn, hp, hpick, hfetch, if_true]
  rw [hp] at h
  rw [h]
  simp only [Option.map_map]
  rfl

/-- The load on a namespace whose fetcher fails is the load on the namespace without a
picker. -/
theorem load_of_fetch_error (g : Group) (p : PeerPicker) (f : Fetcher) (key : String)
    (expir : lru.Time) (b : List UInt8) (e : String) (hidle : g.loader.record key = none)
    (hp : g.peers = some p) (hpick : p.PickPeer key = some (some f, true))
    (hfetch : f.Fetch g.name key = some (b, some e)) :
    Group.load g key expir =
      (Group.load { g with peers := none } key expir).map
        (fun r => (r.1, { r.2 with peers := some p, picks := g.picks ++ [key],
                                   fetches := g.fetches ++ [(g.name, key)] })) := by
  have hidle0 : ({ g with peers := none } : Group).loader.record key = none := hidle
  simp only [Group.load, singleflight.Do_of_free_eq _ key _ _ hidle,
    singleflight.Do_of_free_eq _ key _ _ hidle0,
    loadFn_of_fetch_error g p f key expir b e hp hpick hfetch]
  cases hfn : Group.loadFn key expir { g with peers := none } with
  | none => rfl
  | some r =>
    obtain ⟨⟨view, err⟩, g1⟩ := r
    cases err with
    | some e1 => rfl
    | none =>
      cases view with
      | none => rfl
      | some v => rfl

/-- An error that the load returns on a namespace without a picker is the error of the
backing source. -/
theorem error_of_local_load (g g1 : Group) (key : String) (expir : lru.Time) (v : ByteView)
    (e1 : String) (hpeers : g.peers = none) (hidle : g.loader.record key = none)
    (h : Group.load g key expir = some ((v, some e1), g1)) : (g.getter key).2 = some e1 := by
  simp only [Group.load, singleflight.Do_of_free_eq _ key _ _ hidle, Group.loadFn, hpeers,
    Group.getLocally] at h
  cases hg : g.getter key with
  | mk bytes err =>
    cases err with
    | some e =>
      simp only [hg, Option.map_some', Option.some.injEq, Prod.mk.injEq] at h
      rw [h.1.2]
    | none =>
      simp only [hg, Group.populateCache] at h
      cases hadd : ({ g with loads := g.loads ++ [key] } : Group).mainCache.add key
          ⟨cloneBytes bytes, lru.Time.zero⟩ expir with
      | none =>
        simp only [hadd, Option.map_none'] at h
        cases h
      | some c =>
        simp only [hadd, Option.map_some', Option.some.injEq, Prod.mk.injEq] at h
        exact absurd h.1.2 (by simp)

/-- C23: a remote failure falls back to the local load.  For every namespace with a picker and
every non-empty key `k` whose lookup in the cache misses, with no load of `k` under way, if
`PickPeer(k)` returns a fetcher and `true` and `Fetch(namespace, k)` returns an error, then
`Get(k, expiry)` does what it does on the same namespace without a picker: it returns when
that call returns, with the same payload or error, the same cache, loader and calls to the
backing source; only the picker stays registered and the calls to the picker and to the
fetcher are recorded.  An error that `Get` returns is the error of the backing source, not
the one of the fetcher. -/
theorem C23_fetch_error_falls_back (g : Group) (p : PeerPicker) (f : Fetcher) (k : String)
    (expir now : lru.Time) (b : List UInt8) (e : String) (hk : k ≠ "")
    (hmiss : (g.mainCache.get k now).1 = none) (hidle : g.loader.record k = none)
    (hp : g.peers = some p) (hpick : p.PickPeer k = some (some f, true))
    (hfetch : f.Fetch g.name k = some (b, some e)) :
    g.Get k expir now =
      (({ g with peers := none } : Group).Get k expir now).map
        (fun r => (r.1, { r.2 with peers := some p, picks := g.picks ++ [k],
                                   fetches := g.fetches ++ [(g.name, k)] })) ∧
    ∀ (v : ByteView) (e1 : String) (g1 : Group),
      g.Get k expir now = some ((v, some e1), g1) → (g.getter k).2 = some e1 := by
  have hmiss0 : (({ g with peers := none } : Group).mainCache.get k now).1 = none := hmiss
  have heq : g.Get k expir now =
      (({ g with peers := none } : Group).Get k expir now).map
        (fun r => (r.1, { r.2 with peers := some p, picks := g.picks ++ [k],
                                   fetches := g.fetches ++ [(g.name, k)] })) := by
    rw [Get_of_lookup_miss g k expir now hk hmiss,
      Get_of_lookup_miss { g with peers := none } k expir now hk hmiss0]
    exact load_of_fetch_error { g with mainCache := (g.mainCache.get k now).2 } p f k expir b e
      hidle hp hpick hfetch
  refine ⟨heq, ?_⟩
  intro v e1 g1 hget
  rw [heq] at hget
  cases h0 : ({ g with peers := none } : Group).Get k expir now with
  | none =>
    simp only [h0, Option.map_none'] at hget
    cases hget
  | some r =>
    obtain ⟨⟨v0, err0⟩, g0⟩ := r
    simp only [h0, Option.map_some', Option.some.injEq, Prod.mk.injEq] at hget
    rw [Get_of_lookup_miss { g with peers := none } k expir now hk hmiss0] at h0
    rw [hget.1.1, hget.1.2] at h0
    exact error_of_local_load
      { g with peers := none, mainCache := (g.mainCache.get k now).2 } g0 k expir v e1 rfl hidle
      h0

/-- Witness of C23: on the namespace fresh from `NewGroup("mussic", 2<<10, db1)` with
`failingPicker` registered, `Get("unknow")` does what it does without the picker and returns
the error of the source, `unknow not exist`; and `Get("Sam")` returns the row of the source
and caches it. -/
theorem C23_fetch_error_falls_back_witness :
    (NewGroup "mussic" 2048 db1).RegisterPeers failingPicker =
      some { NewGroup "mussic" 2048 db1 with peers := some failingPicker } ∧
    failingFetcher.Fetch "mussic" "unknow" =
      some ([], some "could not get mussic/unknow from peer geecache/10.0.0.2:8002") ∧
    (({ NewGroup "mussic" 2048 db1 with peers := some failingPicker } : Group).Get "unknow"
        lru.Time.zero lru.Time.zero =
      ((NewGroup "mussic" 2048 db1).Get "unknow" lru.Time.zero lru.Time.zero).map
        (fun r => (r.1, { r.2 with peers := some failingPicker, picks := [] ++ ["unknow"],
                                   fetches := [] ++ [("mussic", "unknow")] })) ∧
    ∀ (v : ByteView) (e1 : String) (g1 : Group),
      ({ NewGroup "mussic" 2048 db1 with peers := some failingPicker } : Group).Get "unknow"
        lru.Time.zero lru.Time.zero = some ((v, some e1), g1) →
      (db1 "unknow").2 = some e1) ∧
    seenOfGet { NewGroup "mussic" 2048 db1 with peers := some failingPicker } "unknow" =
      some { found := none, result := (ByteView.zero, some "unknow not exist"),
             loads := ["unknow"], before := [], after := [] } ∧
    seenOfGet { NewGroup "mussic" 2048 db1 with peers := some failingPicker } "Sam" =
      some { found := none,
             result := (⟨consistenthash.bytesOf "浪子心声", lru.Time.zero⟩, none),
             loads := ["Sam"], before := [],
             after := [⟨"Sam", ⟨consistenthash.bytesOf "浪子心声", lru.Time.zero⟩,
               lru.Time.zero⟩] } :=
  ⟨rfl, by decide,
    C23_fetch_error_falls_back { NewGroup "mussic" 2048 db1 with peers := some failingPicker }
      failingPicker failingFetcher "unknow" lru.Time.zero lru.Time.zero []
      "could not get mussic/unknow from peer geecache/10.0.0.2:8002" (by decide) rfl (by decide)
      rfl rfl (by decide),
    by decide, by decide⟩

end DistributedCache

namespace DistributedCache

/-! ## The node server -/

theorem clientsGet_clientsSet (m : List (String × client)) (a b : String) (c : client) :
    clientsGet (clientsSet m a c) b = if b = a then some c else clientsGet m b := by
  by_cases hb : b = a
  · subst hb
    simp [clientsSet, clientsGet]
  · have hb' : ¬ a = b := fun e => hb e.symm
    simp only [clientsSet, clientsGet, if_neg hb', if_neg hb]
    induction m with
    | nil => simp [clientsGet]
    | cons x rest ih =>
      obtain ⟨k, v⟩ := x
      by_cases hk : k = a
      · subst hk
        simp only [List.filter_cons, ne_eq, not_true_eq_false, decide_False, Bool.false_eq_true,
          if_false, clientsGet, if_neg hb']
        exact ih
      · by_cases hkb : k = b
        · subst hkb
          simp [List.filter_cons, hk, clientsGet]
        · simp only [List.filter_cons, ne_eq, hk, not_false_eq_true, decide_True, if_true,
            clientsGet, if_neg hkb]
          exact ih

/-- The loop of `Set` returns when every address is valid, and then every peer has its
client, named `geecache/` followed by the address. -/
theorem setClients_spec (validPeerAddr : String → Bool) (peers : List String)
    (m : List (String × client)) :
    (setClients validPeerAddr peers m).isSome = peers.all validPeerAddr ∧
    ∀ m1, setClients validPeerAddr peers m = some m1 →
      ∀ a, clientsGet m1 a =
        if a ∈ peers then some (NewClient ("geecache/" ++ a)) else clientsGet m a := by
  induction peers generalizing m with
  | nil =>
    refine ⟨rfl, ?_⟩
    intro m1 h a
    simp only [setClients, Option.some.injEq] at h
    simp [h]
  | cons p rest ih =>
    by_cases hv : validPeerAddr p = true
    · simp only [setClients, hv, Bool.not_true, Bool.false_eq_true, if_false, List.all_cons,
        Bool.true_and]
      refine ⟨(ih _).1, ?_⟩
      intro m1 h a
      rw [(ih _).2 m1 h a, clientsGet_clientsSet]
      by_cases har : a ∈ rest
      · simp [har]
      · by_cases hap : a = p
        · simp [hap]
        · simp [har, hap]
    · have hv' : validPeerAddr p = false := by simpa using hv
      simp only [setClients, hv', Bool.not_false, if_true, List.all_cons, Bool.false_and]
      refine ⟨rfl, ?_⟩
      intro m1 h
      cases h

/-- What `Set` leaves when it returns: the mutex was free and is free again, the ring is the
one `New(50, nil)` and `Add(peers...)` build, and every peer has its client. -/
theorem Set_spec (validPeerAddr : String → Bool) (h h1 : server) (peers : List String)
    (hset : h.Set validPeerAddr peers = some h1) :
    h.mu = false ∧ h1.mu = false ∧ h1.addr = h.addr ∧
    h1.peers = some (consistenthash.ring 50 none [peers]) ∧
    ∃ m1, h1.clients = some m1 ∧
      ∀ a, clientsGet m1 a = if a ∈ peers then some (NewClient ("geecache/" ++ a)) else none := by
  unfold server.Set at hset
  cases hmu : h.mu with
  | true => simp [hmu, Lock] at hset
  | false =>
    cases hc : setClients validPeerAddr peers [] with
    | none => simp [hmu, Lock, hc] at hset
    | some m1 =>
      simp only [hmu, Lock, hc, Unlock, if_true, Bool.false_eq_true, if_false,
        Option.some.injEq] at hset
      subst hset
      refine ⟨rfl, rfl, rfl, rfl, m1, rfl, ?_⟩
      intro a
      rw [(setClients_spec validPeerAddr peers []).2 m1 hc a]
      rfl

/-- `Set` returns on a server whose mutex is free when every address is valid. -/
theorem Set_returns (validPeerAddr : String → Bool) (h : server) (peers : List String)
    (hmu : h.mu = false) (hv : peers.all validPeerAddr = true) :
    ∃ h1, h.Set validPeerAddr peers = some h1 := by
  have hsome := (setClients_spec validPeerAddr peers []).1
  rw [hv] at hsome
  obtain ⟨m1, hm1⟩ := Option.isSome_iff_exists.1 hsome
  refine ⟨{ h with mu := false,
                   peers := some (consistenthash.Add (consistenthash.New defaultReplicas none)
                     peers),
                   clients := some m1 }, ?_⟩
  simp only [server.Set, hmu, Lock, hm1, Unlock, if_true, Bool.false_eq_true, if_false]

/-- The pair the body of `PickPeer` computes after `Set(peers...)` with at least one peer: the
ring returns one of the peers; for the address of the server the pair is `(nil, false)`, and
for another peer it is the client stored for that peer and `true`. -/
theorem pick_after_Set (validPeerAddr : String → Bool) (h h1 : server) (peers : List String)
    (key : String) (hset : h.Set validPeerAddr peers = some h1) (hne : peers ≠ []) :
    ∃ a ∈ peers, consistenthash.Get (consistenthash.ring 50 none [peers]) key = some a ∧
      h1.pick key = some (if a = h1.addr then (none, false)
        else (some (NewClient ("geecache/" ++ a)), true)) := by
  obtain ⟨_, _, _, hring, m1, hm1, hget⟩ := Set_spec validPeerAddr h h1 peers hset
  obtain ⟨a, ha, hga⟩ := consistenthash.ring_Get_mem 50 none [peers] key (by decide)
    (by simpa using hne)
  have ha' : a ∈ peers := by simpa using ha
  refine ⟨a, ha', hga, ?_⟩
  simp only [server.pick, hring, hga, hm1, Option.getD_some, hget a, if_pos ha']
  by_cases hself : a = h1.addr
  · simp only [if_pos hself]
  · simp only [if_neg hself]

/-- C24: `PickPeer` does not return.  For every server, whatever `Set` put into it, and every
key, the call `PickPeer(key)` does not return to its caller: when it reaches its deferred
`h.mu.Lock()` the mutex is held, by its own `h.mu.Lock()`.  The pair its body computes
before that is the one the ring and the clients give: nothing when the ring is `nil`, and
otherwise `(nil, false)` when `h.peers.Get(key)` is the address of the server, and
`(h.clients[address], true)` when it is another address. -/
theorem C24_PickPeer_never_returns (h : server) (key : String) :
    h.PickPeer key = none ∧
    h.pick key =
      (h.peers.bind (fun ring => consistenthash.Get ring key)).map
        (fun a => if a = h.addr then (none, false)
          else (clientsGet (h.clients.getD []) a, true)) := by
  constructor
  · cases hmu : h.mu with
    | true => simp only [server.PickPeer, hmu, Lock, if_true]
    | false => simp only [server.PickPeer, hmu, Lock, Bool.false_eq_true, if_false, if_true]
  · cases hp : h.peers with
    | none => simp only [server.pick, hp, Option.none_bind, Option.map_none']
    | some ring =>
      cases hg : consistenthash.Get ring key with
      | none => simp only [server.pick, hp, hg, Option.some_bind, Option.map_none']
      | some a =>
        by_cases hself : a = h.addr
        · simp only [server.pick, hp, hg, Option.some_bind, Option.map_some', if_pos hself]
        · simp only [server.pick, hp, hg, Option.some_bind, Option.map_some', if_neg hself]

/-- The run `h, _ := NewServer(""); h.Set("127.0.0.1:6324"); h.PickPeer(key)` with a
`validPeerAddr` that accepts the default address: `NewServer` and `Set` return, the mutex is
free, the body of `PickPeer` computes `(nil, false)`, and `PickPeer` does not return. -/
theorem PickPeer_after_Set (validPeerAddr : String → Bool)
    (hv : validPeerAddr defaultAddr = true) (key : String) :
    ∃ h0 h1, NewServer validPeerAddr "" = some h0 ∧
      h0.Set validPeerAddr [defaultAddr] = some h1 ∧ h1.mu = false ∧
      h1.pick key = some (none, false) ∧ h1.PickPeer key = none := by
  have hnew : NewServer validPeerAddr "" = some
      { addr := defaultAddr, status := false, mu := false, peers := none, clients := none } := by
    simp only [NewServer, if_true, hv, Bool.not_true, Bool.false_eq_true, if_false]
  obtain ⟨h1, hset⟩ := Set_returns validPeerAddr
    { addr := defaultAddr, status := false, mu := false, peers := none, clients := none }
    [defaultAddr] rfl (by simp [hv])
  obtain ⟨_, hmu, haddr, _, _⟩ := Set_spec validPeerAddr _ h1 [defaultAddr] hset
  obtain ⟨a, ha, _, hpick⟩ := pick_after_Set validPeerAddr _ h1 [defaultAddr] key hset
    (by simp)
  have hself : a = h1.addr := by
    rw [haddr]
    simpa using ha
  rw [if_pos hself] at hpick
  refine ⟨_, h1, hnew, hset, hmu, hpick, ?_⟩
  simp only [server.PickPeer, hmu, Lock, Bool.false_eq_true, if_false, if_true]

end DistributedCache

namespace consistenthash

/-- C16, as amended: routing by the ring depends only on membership.  Two rings created with
the same hash and replica multiplier and populated with the same set of nodes (in any order,
in any number of `Add` calls) return the same node from `Get` for every key, provided no
virtual point belongs to two different nodes of the set.  Hence, under the same proviso, the
rings that `Set` installs in two servers from the same set of peers return the same node from
`Get` for every key. -/
theorem C16_routing_depends_on_membership (R : Int) (fn : Option Hash)
    (calls1 calls2 : List (List String))
    (hsame : ∀ node, node ∈ calls1.flatten ↔ node ∈ calls2.flatten)
    (hfree : ∀ a ∈ calls1.flatten, ∀ b ∈ calls1.flatten,
      ∀ p ∈ pointsOf (fn.getD ChecksumIEEE) R a, p ∈ pointsOf (fn.getD ChecksumIEEE) R b → a = b)
    (key : String) :
    Get (ring R fn calls1) key = Get (ring R fn calls2) key ∧
    ∀ (validPeerAddr : String → Bool) (h1 h2 s1 s2 : DistributedCache.server),
      R = DistributedCache.defaultReplicas → fn = none →
      h1.Set validPeerAddr calls1.flatten = some s1 →
      h2.Set validPeerAddr calls2.flatten = some s2 →
      ∃ r1 r2, s1.peers = some r1 ∧ s2.peers = some r2 ∧ Get r1 key = Get r2 key := by
  refine ⟨Get_of_same_nodes R fn calls1 calls2 hsame hfree key, ?_⟩
  intro validPeerAddr h1 h2 s1 s2 hR hfn hs1 hs2
  obtain ⟨_, _, _, hr1, _⟩ := DistributedCache.Set_spec validPeerAddr h1 s1 _ hs1
  obtain ⟨_, _, _, hr2, _⟩ := DistributedCache.Set_spec validPeerAddr h2 s2 _ hs2
  refine ⟨_, _, hr1, hr2, ?_⟩
  subst hfn
  have hR' : R = 50 := hR
  subst hR'
  exact Get_of_same_nodes 50 none [calls1.flatten] [calls2.flatten]
    (by simpa using hsame) (by simpa using hfree) key

set_option maxRecDepth 1000000 in
/-- Witness of C16 (amended): the peers `10.0.0.1:8001` and `10.0.0.2:8002`, whose virtual
points under CRC-32 with 50 replicas are all different, given to `Set` in the two orders on
two servers; and the nodes 6, 4, 2 of `TestHashing`, added in one call or in two calls in
another order. -/
theorem C16_routing_depends_on_membership_witness :
    (∀ node, node ∈ [["10.0.0.1:8001", "10.0.0.2:8002"]].flatten ↔
      node ∈ [["10.0.0.2:8002", "10.0.0.1:8001"]].flatten) ∧
    (∀ a ∈ [["10.0.0.1:8001", "10.0.0.2:8002"]].flatten,
      ∀ b ∈ [["10.0.0.1:8001", "10.0.0.2:8002"]].flatten,
      ∀ p ∈ pointsOf ((none : Option Hash).getD ChecksumIEEE) 50 a,
        p ∈ pointsOf ((none : Option Hash).getD ChecksumIEEE) 50 b → a = b) ∧
    DistributedCache.server.Set (fun _ => true)
        ⟨"10.0.0.1:8001", false, false, none, none⟩ ["10.0.0.1:8001", "10.0.0.2:8002"] =
      some ⟨"10.0.0.1:8001", false, false,
        some (Add (New 50 none) ["10.0.0.1:8001", "10.0.0.2:8002"]),
        some [("10.0.0.2:8002", ⟨"geecache/10.0.0.2:8002"⟩),
          ("10.0.0.1:8001", ⟨"geecache/10.0.0.1:8001"⟩)]⟩ ∧
    DistributedCache.server.Set (fun _ => true)
        ⟨"10.0.0.2:8002", false, false, none, none⟩ ["10.0.0.2:8002", "10.0.0.1:8001"] =
      some ⟨"10.0.0.2:8002", false, false,
        some (Add (New 50 none) ["10.0.0.2:8002", "10.0.0.1:8001"]),
        some [("10.0.0.1:8001", ⟨"geecache/10.0.0.1:8001"⟩),
          ("10.0.0.2:8002", ⟨"geecache/10.0.0.2:8002"⟩)]⟩ ∧
    (∃ r1 r2,
      some (Add (New 50 none) ["10.0.0.1:8001", "10.0.0.2:8002"]) = some r1 ∧
      some (Add (New 50 none) ["10.0.0.2:8002", "10.0.0.1:8001"]) = some r2 ∧
      Get r1 "Sam" = Get r2 "Sam") ∧
    (∀ node, node ∈ [["6", "4", "2"]].flatten ↔ node ∈ [["2"], ["4", "6"]].flatten) ∧
    (∀ a ∈ [["6", "4", "2"]].flatten, ∀ b ∈ [["6", "4", "2"]].flatten,
      ∀ p ∈ pointsOf ((some testHash).getD ChecksumIEEE) 3 a,
        p ∈ pointsOf ((some testHash).getD ChecksumIEEE) 3 b → a = b) ∧
    Get (ring 3 (some testHash) [["6", "4", "2"]]) "27" =
      Get (ring 3 (some testHash) [["2"], ["4", "6"]]) "27" :=
  have hsame : ∀ node, node ∈ [["6", "4", "2"]].flatten ↔ node ∈ [["2"], ["4", "6"]].flatten := by
    intro node
    simp only [List.flatten_cons, List.flatten_nil, List.append_nil, List.cons_append,
      List.nil_append, List.mem_cons, List.mem_singleton, List.not_mem_nil, or_false]
    tauto
  have hfree : ∀ a ∈ [["6", "4", "2"]].flatten, ∀ b ∈ [["6", "4", "2"]].flatten,
      ∀ p ∈ pointsOf ((some testHash).getD ChecksumIEEE) 3 a,
        p ∈ pointsOf ((some testHash).getD ChecksumIEEE) 3 b → a = b := by
    decide
  have hsameP : ∀ node, node ∈ [["10.0.0.1:8001", "10.0.0.2:8002"]].flatten ↔
      node ∈ [["10.0.0.2:8002", "10.0.0.1:8001"]].flatten := by
    intro node
    simp only [List.flatten_cons, List.flatten_nil, List.append_nil, List.mem_cons,
      List.mem_singleton, List.not_mem_nil, or_false]
    tauto
  have hfreeP : ∀ a ∈ [["10.0.0.1:8001", "10.0.0.2:8002"]].flatten,
      ∀ b ∈ [["10.0.0.1:8001", "10.0.0.2:8002"]].flatten,
      ∀ p ∈ pointsOf ((none : Option Hash).getD ChecksumIEEE) 50 a,
        p ∈ pointsOf ((none : Option Hash).getD ChecksumIEEE) 50 b → a = b := by
    decide
  ⟨hsameP, hfreeP, rfl, rfl,
    (C16_routing_depends_on_membership 50 none [["10.0.0.1:8001", "10.0.0.2:8002"]]
      [["10.0.0.2:8002", "10.0.0.1:8001"]] hsameP hfreeP "Sam").2 (fun _ => true)
      ⟨"10.0.0.1:8001", false, false, none, none⟩ ⟨"10.0.0.2:8002", false, false, none, none⟩
      _ _ rfl rfl rfl rfl,
    hsame, hfree,
    (C16_routing_depends_on_membership 3 (some testHash) _ _ hsame hfree "27").1⟩

end consistenthash
